import Mathlib

/-! # extract-and-publish.js: a shallow embedding

Strings are lists of characters.  The script's regular expressions are
embedded as the matchers they denote, each one next to the regex literal it
comes from; they have no `u` flag and match UTF-16 code units, of which a
character from U+10000 on takes two, which the two path templates account
for.  Library and platform functions the script calls (the
`front-matter` parser, `new URL`, `glob`, the file system, `fetch`,
non-ASCII lower-casing, the working directory) are fields of an
environment `Env`.
-/

set_option autoImplicit false

namespace ExtractAndPublish

/-! ## Characters and strings -/

/-- Text of the script: a JavaScript string, as its list of characters. -/
abbrev Str := List Char

/-- ECMAScript LineTerminator: LF, CR, U+2028, U+2029.  The regex atom `.`
(without the `s` flag) matches exactly the characters that are not one. -/
def isLineTerminator (c : Char) : Bool :=
  c.toNat == 0x0A || c.toNat == 0x0D || c.toNat == 0x2028 || c.toNat == 0x2029

/-- The regex class `\s`, also the set removed by `String.prototype.trim`:
ECMAScript WhiteSpace (TAB, VT, FF, SP, NBSP, ZWNBSP and category Zs) together
with the line terminators. -/
def isWhiteSpace (c : Char) : Bool :=
  isLineTerminator c ||
  c.toNat == 0x09 || c.toNat == 0x0B || c.toNat == 0x0C || c.toNat == 0x20 ||
  c.toNat == 0xA0 || c.toNat == 0x1680 || (0x2000 ≤ c.toNat && c.toNat ≤ 0x200A) ||
  c.toNat == 0x202F || c.toNat == 0x205F || c.toNat == 0x3000 || c.toNat == 0xFEFF

/-- Drop the trailing characters that satisfy `p`. -/
def dropRightWhile (p : Char → Bool) (s : Str) : Str :=
  (s.reverse.dropWhile p).reverse

/-- `String.prototype.trim`. -/
def trim (s : Str) : Str :=
  dropRightWhile isWhiteSpace (s.dropWhile isWhiteSpace)

/-- Worker of `collapseWhiteSpace`; `inRun` says that the previous character
was whitespace, so that the current run already produced its underscore. -/
def collapseAux : Bool → Str → Str
  | _, [] => []
  | inRun, c :: t =>
    if isWhiteSpace c then
      (if inRun then collapseAux true t else '_' :: collapseAux true t)
    else c :: collapseAux false t

/-- `s.replace(/\s+/g, '_')`: every maximal run of whitespace becomes one
underscore. -/
def collapseWhiteSpace (s : Str) : Str := collapseAux false s

/-- Lower-casing of one ASCII character. -/
def asciiLowerChar (c : Char) : Char :=
  if 'A'.toNat ≤ c.toNat ∧ c.toNat ≤ 'Z'.toNat then Char.ofNat (c.toNat + 32) else c

/-- Whether a string has only ASCII characters. -/
def isAscii (s : Str) : Bool := s.all (fun c => c.toNat < 128)

/-- Lower-casing of an all-ASCII string: `A`..`Z` become `a`..`z`. -/
def asciiLower (s : Str) : Str := s.map asciiLowerChar

/-- Whether `p` is a prefix of `s`, and what follows it. -/
def stripPrefix? : Str → Str → Option Str
  | [], s => some s
  | _ :: _, [] => none
  | a :: p, b :: s => if a = b then stripPrefix? p s else none

/-- `s.indexOf(p) !== -1`. -/
def containsSub (p : Str) : Str → Bool
  | [] => (stripPrefix? p []).isSome
  | c :: t => (stripPrefix? p (c :: t)).isSome || containsSub p t

/-! ## Values and objects -/

/-- An element of a front-matter sequence: a string, or anything else (a
number, a boolean, null, a nested sequence or mapping), kept as its JSON text.
The script only ever calls `.trim()` on an element, which exists on strings
alone. -/
inductive Elem where
  | str (s : Str)
  | nonString (json : Str)
  deriving DecidableEq, Repr

/-- A property value of a record: a string, a sequence, or any other value
(number, boolean, null, date, mapping), of which the script uses only the
truthiness; `json` is its JSON text. -/
inductive Value where
  | str (s : Str)
  | seq (xs : List Elem)
  | other (truthy : Bool) (json : Str)
  deriving DecidableEq, Repr

/-- JavaScript truthiness (`if (v)`, `v || w`). -/
def Value.truthy : Value → Bool
  | .str s => !s.isEmpty
  | .seq _ => true
  | .other b _ => b

/-- A plain object, as the list of its own enumerable properties in the order
`for … in`, spread and `JSON.stringify` visit them. -/
abbrev Obj := List (Str × Value)

/-- Value of a decimal digit string. -/
def digitsValue (k : Str) : Nat := k.foldl (fun n c => 10 * n + (c.toNat - '0'.toNat)) 0

/-- The array index a property key denotes, if it is one: a canonical decimal
numeral (no leading zero) below 2^32 - 1.  Such keys are enumerated first, in
ascending numeric order. -/
def arrayIndex? (k : Str) : Option Nat :=
  if k = ['0'] then some 0
  else match k with
    | [] => none
    | c :: t =>
      if ('1'.toNat ≤ c.toNat && c.toNat ≤ '9'.toNat) && t.all Char.isDigit
          && decide (digitsValue k < 2 ^ 32 - 1)
      then some (digitsValue k) else none

/-- Own property lookup, `o[k]`; `none` is `undefined`. -/
def Obj.get (k : Str) (o : Obj) : Option Value := List.lookup k o

/-- Whether `o` has an own property `k`. -/
def Obj.has (k : Str) (o : Obj) : Bool := (Obj.get k o).isSome

/-- Place a new array-index key `k` (of index `n`) among the index keys. -/
def Obj.insertIndex (n : Nat) (k : Str) (v : Value) : Obj → Obj
  | [] => [(k, v)]
  | (k', v') :: o =>
    match arrayIndex? k' with
    | some m => if m < n then (k', v') :: Obj.insertIndex n k v o else (k, v) :: (k', v') :: o
    | none => (k, v) :: (k', v') :: o

/-- Replace the value of the existing key `k`, at its place. -/
def Obj.replace (k : Str) (v : Value) : Obj → Obj
  | [] => []
  | (k', v') :: o => if k' = k then (k', v) :: o else (k', v') :: Obj.replace k v o

/-- CreateDataProperty, as done by an object literal and by spread: an
existing key keeps its place and takes the new value; a new key is added
after the others, an array index among the array indices. -/
def Obj.define (k : Str) (v : Value) (o : Obj) : Obj :=
  if Obj.has k o then Obj.replace k v o
  else match arrayIndex? k with
    | some n => Obj.insertIndex n k v o
    | none => o ++ [(k, v)]

/-- The assignment `o[k] = v` on an object whose prototype is
`Object.prototype`.  For the key `__proto__`, unless it is an own property,
the assignment runs the inherited setter, which adds no own property. -/
def Obj.set (k : Str) (v : Value) (o : Obj) : Obj :=
  if k = "__proto__".toList ∧ Obj.has k o = false then o else Obj.define k v o

/-- Spread `{...o, ...src}`: define every own property of `src`, in order. -/
def Obj.spread (o src : Obj) : Obj := src.foldl (fun acc kv => Obj.define kv.1 kv.2 acc) o

/-! ## Failures and the environment -/

/-- A thrown exception or rejected promise. -/
inductive JSError where
  | typeError
  | library (msg : Str)
  deriving DecidableEq, Repr

/-- What `fm(markdown)` of the `front-matter` package returns. -/
structure FrontMatterResult where
  attributes : Obj
  body : Str
  deriving DecidableEq, Repr

/-- The JSON body of one publish request; an `undefined` member (`none`) is
left out by `JSON.stringify`. -/
structure Payload where
  uid : Option Value
  title : Option Value
  summary : Option Value
  catalog : Str
  properties : Obj
  deriving DecidableEq, Repr

/-- One `fetch(PUBLISH_URL, { method: 'POST', headers, body })` call. -/
structure Request where
  url : Str
  contentType : Str
  apiKey : Option Str
  body : Payload
  deriving DecidableEq, Repr

/-- What the script does to the outside world, in order. -/
inductive Event where
  /-- The line `Processing <file> ...`. -/
  | processing (file : Str)
  /-- The call `fs.writeFile(path, JSON.stringify(records, null, 2))`. -/
  | write (path : Str) (records : List Obj)
  /-- The POST request handed to `fetch`. -/
  | post (req : Request)
  /-- The line `POSTed <slug>, status: <status>`. -/
  | posted (slug : Option Value) (status : Nat)
  /-- The line `Done.`. -/
  | done
  /-- The line printed by `.catch((e) => console.log(e))`. -/
  | caught (e : JSError)
  deriving DecidableEq, Repr

/-- The libraries and the platform the script runs on. -/
structure Env where
  /-- The working directory `process.cwd()`, an absolute path, as segments. -/
  cwd : List Str
  /-- `String.prototype.toLowerCase` on strings that are not all ASCII. -/
  unicodeLower : Str → Str
  /-- The `front-matter` package: `fm(markdown)`. -/
  fm : Str → Except JSError FrontMatterResult
  /-- The text of `new URL(relativeUrl, baseUrl)`; an invalid URL throws. -/
  newURL : Str → Str → Except JSError Str
  /-- The `glob` package: the paths matching a pattern, in its order. -/
  glob : Str → Except JSError (List Str)
  /-- The call `fs.readFile(path, 'utf-8')`. -/
  readFile : Str → Except JSError Str
  /-- The call `fs.writeFile(path, JSON.stringify(records, null, 2))`. -/
  writeFile : Str → List Obj → Except JSError Unit
  /-- The variable `process.env.DXHUB_KB_API_URL`. -/
  apiUrl : Option Str
  /-- The variable `process.env.DXHUB_KB_API_KEY`. -/
  apiKey : Option Str
  /-- The status of the response to the `n`-th request of the run, or the
  transport failure `fetch` rejects with. -/
  fetch : Nat → Request → Except JSError Nat

/-- `String.prototype.toLowerCase`. -/
def toLowerCase (E : Env) (s : Str) : Str :=
  if isAscii s then asciiLower s else E.unicodeLower s

/-! ## Node's `path` module (POSIX) -/

/-- Split a path at every `/`. -/
def splitSlash : Str → List Str
  | [] => [[]]
  | c :: t =>
    match splitSlash t with
    | [] => [[c]]
    | seg :: segs => if c = '/' then [] :: seg :: segs else (c :: seg) :: segs

/-- Resolve `.`, `..` and empty segments of an absolute path; `acc` holds the
segments kept so far, last first. -/
def normalizeSegs : List Str → List Str → List Str
  | acc, [] => acc.reverse
  | acc, seg :: rest =>
    if seg = [] ∨ seg = ['.'] then normalizeSegs acc rest
    else if seg = ['.', '.'] then normalizeSegs acc.tail rest
    else normalizeSegs (seg :: acc) rest

/-- The segments of `path.resolve(p)`. -/
def resolveSegs (cwd : List Str) (p : Str) : List Str :=
  normalizeSegs [] ((if p.head? = some '/' then [] else cwd) ++ splitSlash p)

/-- Join segments with `/`. -/
def joinSlash : List Str → Str
  | [] => []
  | [seg] => seg
  | seg :: segs => seg ++ '/' :: joinSlash segs

/-- `path.resolve(p)`. -/
def pathResolve (cwd : List Str) (p : Str) : Str := '/' :: joinSlash (resolveSegs cwd p)

/-- Drop the common leading segments of two paths. -/
def dropCommon : List Str → List Str → List Str × List Str
  | a :: as, b :: bs => if a = b then dropCommon as bs else (a :: as, b :: bs)
  | as, bs => (as, bs)

/-- `path.relative(from, to)`. -/
def pathRelative (cwd : List Str) (frm dest : Str) : Str :=
  let r := dropCommon (resolveSegs cwd frm) (resolveSegs cwd dest)
  joinSlash (r.1.map (fun _ => ['.', '.']) ++ r.2)

/-! ## extractMarkdownData -/

/-- `function extractYAMLFrontMatter(markdown)`. -/
def extractYAMLFrontMatter (E : Env) (markdown : Str) : Except JSError FrontMatterResult :=
  E.fm markdown

/-- `str.replace(/^\s*[\r\n]/g, '')`.  Without the `m` flag `^` is the start
of the string, so there is at most one match: the greedy `\s*` backs off
to the last CR or LF of the leading whitespace, and the text up to and
including it is removed. -/
def removeFirstLine (str : Str) : Str :=
  let ws := str.takeWhile isWhiteSpace
  str.drop (ws.reverse.dropWhile (fun c => !(c == '\r' || c == '\n'))).length

/-- `frontMatter.tags.filter((t) => t.trim() != '')`; `t.trim` is not a
function unless `t` is a string. -/
def filterTags : List Elem → Except JSError (List Elem)
  | [] => .ok []
  | .str s :: ts =>
    match filterTags ts with
    | .ok r => .ok (if trim s ≠ [] then .str s :: r else r)
    | .error e => .error e
  | .nonString _ :: _ => .error .typeError

/-- Lines 34-36: `if (frontMatter.tags) frontMatter.tags = frontMatter.tags.filter(…)`.
Only an array has `filter`. -/
def filterFrontMatterTags (frontMatter : Obj) : Except JSError Obj :=
  match Obj.get "tags".toList frontMatter with
  | none => .ok frontMatter
  | some v =>
    if v.truthy then
      match v with
      | .seq xs =>
        match filterTags xs with
        | .ok ys => .ok (Obj.set "tags".toList (.seq ys) frontMatter)
        | .error e => .error e
      | _ => .error .typeError
    else .ok frontMatter

/-- One attempt of `titleRegex = /^#\s(.*)$/m` at a line start: `#`, one `\s`
character, then group 1, the characters up to the next line terminator (where
`$` holds). -/
def titleAt : Str → Option Str
  | '#' :: w :: t => if isWhiteSpace w then some (t.takeWhile (fun c => !isLineTerminator c)) else none
  | _ => none

/-- `markdownWithoutYAML.match(titleRegex)`, group 1 of the leftmost match;
`lineStart` says that `^` holds at the head of the text. -/
def titleScan : Bool → Str → Option Str
  | _, [] => none
  | lineStart, c :: t =>
    match (if lineStart then titleAt (c :: t) else none) with
    | some g => some g
    | none => titleScan (isLineTerminator c) t

/-- Group 2 of `sectionRegex`, `(.*?)(?=##|$(?![^]))` with the `s` flag: the
shortest text followed by `##` or by the end of the input. -/
def bodyUntilHashes : Str → Str
  | [] => []
  | c :: t => if (stripPrefix? ['#', '#'] (c :: t)).isSome then [] else c :: bodyUntilHashes t

/-- One attempt of `sectionRegex = /^##\s(.*?)\n(.*?)(?=##|$(?![^]))/gms` at
a line start: `##`, one `\s` character, group 1 up to the first LF (with the
`s` flag `.` matches every character), group 2.  The result is group 1,
group 2 and the length of the match. -/
def sectionAt : Str → Option (Str × Str × Nat)
  | '#' :: '#' :: w :: t =>
    if isWhiteSpace w then
      let g1 := t.takeWhile (fun c => c != '\n')
      match t.drop g1.length with
      | '\n' :: u =>
        let g2 := bodyUntilHashes u
        some (g1, g2, 3 + g1.length + 1 + g2.length)
      | _ => none
    else none
  | _ => none

/-- The loop `while ((sectionMatch = sectionRegex.exec(body)) !== null)`:
groups 1 and 2 of the successive matches.  `skip` counts the characters
that still belong to the previous match, `lineStart` says that `^` holds at
the head of the text. -/
def sectionsAux : Nat → Bool → Str → List (Str × Str)
  | _, _, [] => []
  | k + 1, _, c :: t => sectionsAux k (isLineTerminator c) t
  | 0, lineStart, c :: t =>
    match (if lineStart then sectionAt (c :: t) else none) with
    | some (g1, g2, len) => (g1, g2) :: sectionsAux (len - 1) (isLineTerminator c) t
    | none => sectionsAux 0 (isLineTerminator c) t

/-- All matches of `sectionRegex` in a body. -/
def sectionMatches (body : Str) : List (Str × Str) := sectionsAux 0 true body

/-- The key `sectionMatch[1].trim().toLowerCase().replace(/\s+/g, '_')`. -/
def sectionKey (E : Env) (heading : Str) : Str :=
  collapseWhiteSpace (toLowerCase E (trim heading))

/-- Line 52, for every match: `data[key] = sectionMatch[2].trim()`. -/
def addSections (E : Env) (data : Obj) (ms : List (Str × Str)) : Obj :=
  ms.foldl (fun d m => Obj.set (sectionKey E m.1) (.str (trim m.2)) d) data

/-- Lines 55-58: `dataWithLowerCaseProps[key.toLowerCase()] = data[key]` for
every key of `data`, in enumeration order. -/
def lowerCaseProps (E : Env) (data : Obj) : Obj :=
  data.foldl (fun acc kv => Obj.set (toLowerCase E kv.1) kv.2 acc) []

/-- The title of lines 41-42: `titleMatch ? titleMatch[1] : ''`. -/
def titleOf (body : Str) : Str := (titleScan true body).getD []

/-- The object literal of lines 44-48. -/
def initialData (frontMatter : Obj) (body : Str) : Obj :=
  Obj.define "markdown".toList (.str (removeFirstLine body))
    (Obj.spread (Obj.define "title".toList (.str (titleOf body)) []) frontMatter)

/-- The object `data` when the loop of lines 50-53 is over. -/
def dataOf (E : Env) (frontMatter : Obj) (body : Str) : Obj :=
  addSections E (initialData frontMatter body) (sectionMatches body)

/-- `function extractMarkdownData(markdown)`. -/
def extractMarkdownData (E : Env) (markdown : Str) : Except JSError Obj :=
  match extractYAMLFrontMatter E markdown with
  | .error e => .error e
  | .ok r =>
    match filterFrontMatterTags r.attributes with
    | .error e => .error e
    | .ok frontMatter =>
      .ok (lowerCaseProps E (dataOf E frontMatter r.body))

/-! ## processFile -/

/-- One attempt of `regexPattern = /\]\(([^ )]+)(?: "([^"]*)")?\)/g` at a
position: `](`, group 1 (the longest run without space or `)`, not empty),
optionally a space and a quoted title (group 2), then `)`.  The result is
group 1, group 2 and the length of the match. -/
def linkAt : Str → Option (Str × Option Str × Nat)
  | ']' :: '(' :: t =>
    let target := t.takeWhile (fun c => !(c == ' ' || c == ')'))
    if target.isEmpty then none
    else
      match t.drop target.length with
      | ')' :: _ => some (target, none, 2 + target.length + 1)
      | ' ' :: '"' :: u =>
        let title := u.takeWhile (fun c => c != '"')
        match u.drop title.length with
        | '"' :: ')' :: _ => some (target, some title, 2 + target.length + 2 + title.length + 2)
        | _ => none
      | _ => none
  | _ => none

/-- The replacement of lines 71-77, given the text of `absoluteUrl`: the title
is kept when `if (title)` holds, that is when it is present and not empty. -/
def renderLink (absoluteUrl : Str) (title : Option Str) : Str :=
  match title with
  | some (c :: t) => "](".toList ++ absoluteUrl ++ " \"".toList ++ (c :: t) ++ "\")".toList
  | _ => "](".toList ++ absoluteUrl ++ ")".toList

/-- `text.replace(regexPattern, callback)`: every match, left to right, is
replaced by what the callback returns for it; `skip` counts the characters
that still belong to the previous match.  A callback that throws ends the
replacement. -/
def rewriteLinksAux (resolve : Str → Except JSError Str) : Nat → Str → Except JSError Str
  | _, [] => .ok []
  | k + 1, _ :: t => rewriteLinksAux resolve k t
  | 0, c :: t =>
    match linkAt (c :: t) with
    | some (relativeUrl, title, len) =>
      match resolve relativeUrl with
      | .error e => .error e
      | .ok absoluteUrl =>
        match rewriteLinksAux resolve (len - 1) t with
        | .error e => .error e
        | .ok r => .ok (renderLink absoluteUrl title ++ r)
    | none =>
      match rewriteLinksAux resolve 0 t with
      | .error e => .error e
      | .ok r => .ok (c :: r)

/-- Line 69: the fixed public base followed by
`relativePath.replace(/^\.\.\//, '')`, one leading `../` removed. -/
def baseUrlOf (relativePath : Str) : Str :=
  "https://glossary.cncf.io/".toList ++ (stripPrefix? "../".toList relativePath).getD relativePath

/-- Lines 70-77: the document with every link target resolved against
`baseUrl`. -/
def rewriteLinks (E : Env) (baseUrl : Str) (text : Str) : Except JSError Str :=
  rewriteLinksAux (fun relativeUrl => E.newURL relativeUrl baseUrl) 0 text

/-- One attempt of `/\/([^\/]+)\.[^.]+$/` right after a `/`, with group 1 of
length `k + 1`, then `k`, … down to 1 (the greedy `[^\/]+` backing off): group
1 has no `/`, a `.` follows it, and what follows that `.` up to the end of the
path is not empty and has no `.`. -/
def slugTry (t : Str) : Nat → Option Str
  | 0 => none
  | k + 1 =>
    match t.drop (k + 1) with
    | '.' :: ext =>
      if ext ≠ [] ∧ ext.all (fun c => c != '.') then some (t.take (k + 1))
      else slugTry t k
    | _ => slugTry t k

/-- One attempt of the slug regex at the text after a `/`: group 1 is tried
at every length from that of the run without `/` down to 1. -/
def slugAt (t : Str) : Option Str :=
  slugTry t (t.takeWhile (fun c => c != '/')).length

/-- `filePath.match(/\/([^\/]+)\.[^.]+$/)`: group 1 of the leftmost match. -/
def slugScan : Str → Option Str
  | [] => none
  | c :: t =>
    if c = '/' then
      match slugAt t with
      | some g => some g
      | none => slugScan t
    else slugScan t

/-- Line 80: `filePath.match(…)?.[1] ?? ''`. -/
def slugOf (filePath : Str) : Str := (slugScan filePath).getD []

/-- Whether a character takes two UTF-16 code units (a surrogate pair): the
characters from U+10000 on.  The script's regexes have no `u` flag, so that
each of their atoms matches one code unit. -/
def isAstral (c : Char) : Bool := decide (0x10000 ≤ c.toNat)

/-- The character that stands for half a surrogate pair.  A `Str` holds whole
characters only; where a match cuts a pair in two, the half that is kept is
written U+FFFD, as `String.prototype.toWellFormed` writes it. -/
def loneSurrogate : Char := Char.ofNat 0xFFFD

/-- What follows the two code units that the leading `..` of the path
templates matches, a literal `/` coming next in the regex: either two
characters of one unit each, or one character of two units; no `.` matches a
line terminator.  After one unit and the first half of a pair the literal
meets the second half, and there is no match. -/
def afterTwoUnits : Str → Option Str
  | c1 :: t =>
    if isAstral c1 then some t
    else if isLineTerminator c1 then none
    else
      match t with
      | c2 :: u => if isAstral c2 || isLineTerminator c2 then none else some u
      | [] => none
  | [] => none

/-- Group 1 of `/^..\/content\/en\/(.*).md$/` on a path: two code units, the
literal `/content/en/`, group 1, one code unit, `md`, the end of the path; no
`.` matches a line terminator.  When the character before `md` takes two
units, the last `.` matches its second half and group 1 ends with its first
half. -/
def urlTemplate? (rel : Str) : Option Str :=
  match afterTwoUnits rel with
  | some t =>
    match stripPrefix? "/content/en/".toList t with
    | some u =>
      if 3 ≤ u.length ∧ u.all (fun c => !isLineTerminator c) ∧ u.drop (u.length - 2) = "md".toList
      then
        match u.drop (u.length - 3) with
        | c3 :: _ =>
          if isAstral c3 then some (u.take (u.length - 3) ++ [loneSurrogate])
          else some (u.take (u.length - 3))
        | [] => none
      else none
    | none => none
  | none => none

/-- Group 1 of `/^..\/content\/(.*)\.md$/` on a path: two code units, the
literal `/content/`, group 1, the literal `.md`, the end of the path. -/
def srcUrlTemplate? (rel : Str) : Option Str :=
  match afterTwoUnits rel with
  | some t =>
    match stripPrefix? "/content/".toList t with
    | some u =>
      if 3 ≤ u.length ∧ u.all (fun c => !isLineTerminator c) ∧ u.drop (u.length - 3) = ".md".toList
      then some (u.take (u.length - 3)) else none
    | none => none
  | none => none

/-- Line 82: `rel.replace(/^..\/content\/en\/(.*).md$/, 'https://glossary.cncf.io/$1')`. -/
def urlOf (rel : Str) : Str :=
  match urlTemplate? rel with
  | some g => "https://glossary.cncf.io/".toList ++ g
  | none => rel

/-- Line 83: `rel.replace(/^..\/content\/(.*)\.md$/,
'https://github.com/cncf/glossary/blob/main/content/$1.md')`. -/
def srcUrlOf (rel : Str) : Str :=
  match srcUrlTemplate? rel with
  | some g => "https://github.com/cncf/glossary/blob/main/content/".toList ++ g ++ ".md".toList
  | none => rel

/-- Lines 79-85, once the rewritten markdown has been parsed into `data`:
`data.slug = …` and the literal `{ url, srcUrl, ...data }`. -/
def finishRecord (filePath relativePath : Str) (data : Obj) : Obj :=
  Obj.spread
    (Obj.define "srcUrl".toList (.str (srcUrlOf relativePath))
      (Obj.define "url".toList (.str (urlOf relativePath)) []))
    (Obj.set "slug".toList (.str (slugOf filePath)) data)

/-- `const processFile = async (file) => …`: the record, or the failure the
promise rejects with.  Its console line `Processing <file> ...` is the event
`processing` of `extractLoop`, the only caller. -/
def processFile (E : Env) (file : Str) : Except JSError Obj :=
  let filePath := pathResolve E.cwd file
  let relativePath := pathRelative E.cwd "../".toList file
  match E.readFile filePath with
  | .error e => .error e
  | .ok markdownWithRelativeLinks =>
    match rewriteLinks E (baseUrlOf relativePath) markdownWithRelativeLinks with
    | .error e => .error e
    | .ok markdown =>
      match extractMarkdownData E markdown with
      | .error e => .error e
      | .ok data => .ok (finishRecord filePath relativePath data)

/-! ## extract, publish, main -/

/-- The glob pattern of `extract`. -/
def searchPath : Str := "../../content/en/*.md".toList

/-- The snapshot file of `extract`. -/
def outputFile : Str := "patterns.json".toList

/-- The loop of lines 94-99 over the discovered files: the console lines
printed and the records pushed, or the failure that ends the loop. -/
def extractLoop (E : Env) : List Str → List Event × Except JSError (List Obj)
  | [] => ([], .ok [])
  | file :: files =>
    if containsSub "/_".toList file then extractLoop E files
    else
      match processFile E file with
      | .error e => ([.processing file], .error e)
      | .ok result =>
        let rest := extractLoop E files
        (.processing file :: rest.1,
          match rest.2 with
          | .ok results => .ok (result :: results)
          | .error e => .error e)

/-- `const extract = async () => …`. -/
def extract (E : Env) : List Event × Except JSError (List Obj) :=
  match E.glob searchPath with
  | .error e => ([], .error e)
  | .ok files =>
    match extractLoop E files with
    | (evs, .error e) => (evs, .error e)
    | (evs, .ok results) =>
      match E.writeFile outputFile results with
      | .error e => (evs, .error e)
      | .ok _ => (evs ++ [.write outputFile results], .ok results)

/-- `pattern.what_it_is || pattern.markdown`. -/
def summaryOf (pattern : Obj) : Option Value :=
  match Obj.get "what_it_is".toList pattern with
  | some v => if v.truthy then some v else Obj.get "markdown".toList pattern
  | none => Obj.get "markdown".toList pattern

/-- The payload of lines 106-114. -/
def payloadOf (pattern : Obj) : Payload :=
  { uid := Obj.get "slug".toList pattern
    title := Obj.get "title".toList pattern
    summary := summaryOf pattern
    catalog := "CNCF Cloud Native Glossary".toList
    properties := Obj.spread [] pattern }

/-- The request of lines 116-124; an unset variable reads `undefined`. -/
def requestOf (E : Env) (pattern : Obj) : Request :=
  { url := E.apiUrl.getD "undefined".toList ++ "/api/patterns".toList
    contentType := "application/json".toList
    apiKey := E.apiKey
    body := payloadOf pattern }

/-- The loop of `publish`, `n` requests having been sent before. -/
def publishFrom (E : Env) : Nat → List Obj → List Event × Except JSError Unit
  | _, [] => ([], .ok ())
  | n, pattern :: patterns =>
    match E.fetch n (requestOf E pattern) with
    | .error e => ([.post (requestOf E pattern)], .error e)
    | .ok status =>
      let rest := publishFrom E (n + 1) patterns
      (.post (requestOf E pattern) :: .posted (Obj.get "slug".toList pattern) status :: rest.1, rest.2)

/-- `const publish = async (patterns) => …`. -/
def publish (E : Env) (patterns : List Obj) : List Event × Except JSError Unit :=
  publishFrom E 0 patterns

/-- `const main = async () => { const patterns = await extract(); await publish(patterns); }`. -/
def main (E : Env) : List Event × Except JSError Unit :=
  match extract E with
  | (evs, .error e) => (evs, .error e)
  | (evs, .ok patterns) =>
    let p := publish E patterns
    (evs ++ p.1, p.2)

/-- `promise.then(() => console.log('Done.'))`: the line is printed when the
promise is fulfilled; a rejection passes through. -/
def thenDone (p : List Event × Except JSError Unit) : List Event × Except JSError Unit :=
  match p with
  | (evs, .ok _) => (evs ++ [.done], .ok ())
  | (evs, .error e) => (evs, .error e)

/-- `promise.catch((e) => console.log(e))`: a rejection is printed and, the
handler returning normally, the resulting promise is fulfilled. -/
def catchLog (p : List Event × Except JSError Unit) : List Event × Except JSError Unit :=
  match p with
  | (evs, .ok u) => (evs, .ok u)
  | (evs, .error e) => (evs ++ [.caught e], .ok ())

/-- Lines 134-136: `main().then(…).catch(…)`: the events of the run and the
state of the last promise of the chain. -/
def topLevel (E : Env) : List Event × Except JSError Unit :=
  catchLog (thenDone (main E))

/-- The exit code of the process: 1 when a rejection is left unhandled, 0
when the chain settles without one. -/
def exitCode (r : Except JSError Unit) : Nat :=
  match r with
  | .ok _ => 0
  | .error _ => 1

/-! ## Auxiliary notions used in the statements -/

/-- The last element of a list that satisfies `p`. -/
def lastWith {α : Type} (p : α → Bool) : List α → Option α
  | [] => none
  | x :: l =>
    match lastWith p l with
    | some y => some y
    | none => if p x then some x else none

/-- The own keys of an object, in enumeration order. -/
def Obj.keys (o : Obj) : List Str := o.map Prod.fst

/-- Whether the text ends with the bare line `##` and its line feed, the `##`
standing at a line start; `lineStart` says that the head of the text is a
line start. -/
def endsWithBareHashes : Bool → Str → Bool
  | _, [] => false
  | lineStart, c :: t =>
    (lineStart && decide (c :: t = ['#', '#', '\n'])) || endsWithBareHashes (isLineTerminator c) t

/-! ## An environment for the examples -/

/-- Characters that `new URL` copies unchanged into a path. -/
def isPlainUrlChar (c : Char) : Bool :=
  c.isAlphanum || c == '.' || c == '_' || c == '~' || c == '-'

/-- A path segment made of plain characters, other than `.` and `..`. -/
def isPlainSegment (seg : Str) : Bool :=
  !seg.isEmpty && seg.all isPlainUrlChar && seg != ['.'] && seg != ['.', '.']

/-- A reference model of `new URL(relativeUrl, baseUrl)` on the inputs of the
examples: `baseUrl` is `https://host/seg/…/seg` with plain segments, and
`relativeUrl` is a relative path `seg/…/seg` of plain segments and of `.` and
`..`, ending with a plain segment.  The result is the base without its last
segment, followed by the relative path, with `.` and `..` resolved.  Other
inputs are outside the model. -/
def referenceURL (relativeUrl baseUrl : Str) : Except JSError Str :=
  match stripPrefix? "https://".toList baseUrl with
  | none => .error (.library "not modelled".toList)
  | some hostAndPath =>
    match splitSlash hostAndPath with
    | host :: seg :: segs =>
      let rel := splitSlash relativeUrl
      if isPlainSegment host && (seg :: segs).all isPlainSegment
          && rel.all (fun s => isPlainSegment s || s == ['.'] || s == ['.', '.'])
          && (rel.getLast?.map isPlainSegment).getD false
      then .ok ("https://".toList ++ host ++ '/' ::
        joinSlash (normalizeSegs [] ((seg :: segs).dropLast ++ rel)))
      else .error (.library "not modelled".toList)
    | _ => .error (.library "not modelled".toList)

/-- A reference model of the `front-matter` package on documents without a
front-matter block: no attributes, the whole document as body.  Documents that
contain a `---` or `= yaml =` marker are outside the model. -/
def referenceFm (markdown : Str) : Except JSError FrontMatterResult :=
  if containsSub "---".toList markdown || containsSub "= yaml =".toList markdown
  then .error (.library "not modelled".toList)
  else .ok { attributes := [], body := markdown }

/-- The environment of the examples: the script is started in its own
directory of a checkout at `/repo`, no file exists yet, every request is
answered with status 200. -/
def sampleEnv : Env :=
  { cwd := ["repo".toList, "avalia".toList, "scripts".toList]
    unicodeLower := fun s => s
    fm := referenceFm
    newURL := referenceURL
    glob := fun _ => .ok []
    readFile := fun _ => .error (.library "ENOENT".toList)
    writeFile := fun _ _ => .ok ()
    apiUrl := some "https://kb.example".toList
    apiKey := some "key".toList
    fetch := fun _ _ => .ok 200 }

/-- The sample environment in which the `front-matter` package parses
`markdown` into the given attributes and body. -/
def envWithFrontMatter (markdown : Str) (attributes : Obj) (body : Str) : Env :=
  { sampleEnv with
    fm := fun s => if s = markdown then .ok { attributes := attributes, body := body }
      else referenceFm s }

/-- The sample environment with one more file. -/
def envWithFile (E : Env) (path contents : Str) : Env :=
  { E with readFile := fun p => if p = path then .ok contents else E.readFile p }

/-! ## The specification's reading of the section scan -/

/-- Split a text into its lines, at every line feed. -/
def specLines : Str → List Str
  | [] => [[]]
  | c :: t =>
    match specLines t with
    | [] => [[c]]
    | l :: ls => if c = '\n' then [] :: l :: ls else (c :: l) :: ls

/-- A line made of two `#` characters, one space, then heading text. -/
def specIsHeadingLine (l : Str) : Bool := (stripPrefix? "## ".toList l).isSome

/-- For every heading line, its heading text and the lines after it up to
the next heading line or the end of the document. -/
def specSections : List Str → List (Str × List Str)
  | [] => []
  | l :: ls =>
    if specIsHeadingLine l then
      (l.drop 3, ls.takeWhile (fun x => !specIsHeadingLine x)) :: specSections ls
    else specSections ls

/-- The section fields as the specification words them: the key is the
heading text trimmed, lower-cased, whitespace runs replaced by underscores;
the value is the trimmed text between the heading line and the next heading
line. -/
def specSectionFields (E : Env) (body : Str) : List (Str × Str) :=
  (specSections (specLines body)).map
    (fun s => (collapseWhiteSpace (toLowerCase E (trim s.1)),
      trim (List.intercalate ['\n'] s.2)))

/-! ## Documents of the examples -/

/-- The document of the specification's example. -/
def docExample : Str := "# Title\n\n## What It Is\nFoo.\n\n## Example\nBar.\n".toList

/-- A document whose first section holds a third-level heading. -/
def docThirdLevel : Str := "## A\nfoo\n### B\nbar\n".toList
/-- A document whose front matter has the key `Title` and whose body has the
section `## Title`. -/
def docTitleCollision : Str := "---\nTitle: \"A\"\n---\n## Title\nfoo\n".toList

/-- The sample environment, with the front matter of `docTitleCollision`
parsed. -/
def envTitleCollision : Env :=
  envWithFrontMatter docTitleCollision [("Title".toList, .str "A".toList)]
    "## Title\nfoo\n".toList

/-- A document whose front matter has the key `Example` and whose body has
the section `## Example`. -/
def docExampleCollision : Str := "---\nExample: \"x\"\n---\n## Example\nBar.\n".toList

/-- The sample environment, with the front matter of `docExampleCollision`
parsed. -/
def envExampleCollision : Env :=
  envWithFrontMatter docExampleCollision [("Example".toList, .str "x".toList)]
    "## Example\nBar.\n".toList
/-- A document whose front matter has the fields `title`, `url`, `slug` and
`srcUrl`, and whose body starts with a top-level heading. -/
def docFrontFields : Str :=
  "---\ntitle: FM\nurl: U\nslug: S\nsrcUrl: R\n---\n# Heading\n".toList

/-- The front matter of `docFrontFields`. -/
def attrsFrontFields : Obj :=
  [("title".toList, .str "FM".toList), ("url".toList, .str "U".toList),
    ("slug".toList, .str "S".toList), ("srcUrl".toList, .str "R".toList)]

/-- The sample environment in which `content/en/widget.md` is
`docFrontFields`. -/
def envFrontFields : Env :=
  envWithFile (envWithFrontMatter docFrontFields attrsFrontFields "# Heading\n".toList)
    "/repo/content/en/widget.md".toList docFrontFields

/-- The path under which file discovery returns `content/en/widget.md`. -/
def widgetFile : Str := "../../content/en/widget.md".toList
/-- A document whose front matter has `tags` and whose body has the section
`## Tags`. -/
def docTagsSection : Str := "---\ntags: [\"a\"]\n---\n## Tags\nfoo\n".toList

/-- The sample environment, with the front matter of `docTagsSection`
parsed. -/
def envTagsSection : Env :=
  envWithFrontMatter docTagsSection [("tags".toList, .seq [.str "a".toList])]
    "## Tags\nfoo\n".toList

/-- The document of the specification's tag example. -/
def docTags : Str := "---\ntags: [\"a\", \"\", \"  \", \"b\"]\n---\n# T\n".toList

/-- The tags of `docTags`. -/
def tagsOfDocTags : List Str := ["a".toList, [], "  ".toList, "b".toList]

/-- The sample environment, with the front matter of `docTags` parsed. -/
def envTags : Env :=
  envWithFrontMatter docTags [("tags".toList, .seq (tagsOfDocTags.map Elem.str))] "# T\n".toList
/-- Whether some line start of the text is followed by `#` and one whitespace
character, which is where `titleRegex` matches; `lineStart` says that the
head of the text is a line start. -/
def hasTitleStart : Bool → Str → Bool
  | _, [] => false
  | lineStart, c :: t =>
    (lineStart && c == '#' && (match t with
      | w :: _ => isWhiteSpace w
      | [] => false)) || hasTitleStart (isLineTerminator c) t

/-- The title as the specification words it: the remainder of the first line
made of a single `#` character, one space, then the rest of the line; the
empty string if there is no such line. -/
def specTitle (body : Str) : Str :=
  match (specLines body).find? (fun l => (stripPrefix? "# ".toList l).isSome) with
  | some l => l.drop 2
  | none => []

/-- A body whose first line is a bare `#`. -/
def docBareHash : Str := "#\nfoo".toList
/-- The optional title of a link as it stands in the text: nothing, or a
space and the title between double quotes. -/
def titleText : Option Str → Str
  | none => []
  | some t => ' ' :: '"' :: (t ++ ['"'])

/-- The sample environment in which `content/en/widget.md` is the link of the
specification's example. -/
def envWidgetLink : Env :=
  envWithFile sampleEnv "/repo/content/en/widget.md".toList "[x](./foo.md \"t\")".toList
/-- The path under which file discovery returns the file `name` of
`content/en`. -/
def discovered (name : Str) : Str := "../../content/en/".toList ++ name

/-- A file name that does not begin with an underscore. -/
def notUnderscored (name : Str) : Bool := decide (name.head? ≠ some '_')

/-- The sample environment in which file discovery finds `widget.md` and
`_draft.md`, both empty. -/
def envTwoFiles : Env :=
  { envWithFile (envWithFile sampleEnv "/repo/content/en/widget.md".toList [])
      "/repo/content/en/_draft.md".toList [] with
    glob := fun _ => .ok [discovered "widget.md".toList, discovered "_draft.md".toList] }
/-- The shape of path the specification expects for the url template:
`../content/en/<name>.md`. -/
def specIsUrlTemplate (rel : Str) : Bool :=
  match stripPrefix? "../content/en/".toList rel with
  | some u => (stripPrefix? "dm.".toList u.reverse).isSome
  | none => false

/-- The shape of path the specification expects for the srcUrl template:
`../content/<name>.md`. -/
def specIsSrcUrlTemplate (rel : Str) : Bool :=
  match stripPrefix? "../content/".toList rel with
  | some u => (stripPrefix? "dm.".toList u.reverse).isSome
  | none => false
/-- The file name of a path: what follows its last `/`. -/
def specFileName (path : Str) : Str := (splitSlash path).getLast?.getD []

/-- The slug as the specification words it: the stem of the file name, the
text before its final `.extension`; the empty string when the file name has
no stem-plus-extension form. -/
def specSlug (path : Str) : Str :=
  let name := specFileName path
  let ext := (name.reverse.takeWhile (fun c => c != '.')).reverse
  let stem := name.take (name.length - ext.length - 1)
  if name.contains '.' ∧ ext ≠ [] ∧ stem ≠ [] then stem else []
/-- A document whose front-matter `tags` is a single string. -/
def docStringTags : Str := "---\ntags: a\n---\n# T\n".toList

/-- The sample environment, with the front matter of `docStringTags`
parsed. -/
def envStringTags : Env :=
  envWithFrontMatter docStringTags [("tags".toList, .str "a".toList)] "# T\n".toList

/-- A document whose front-matter `tags` is the empty string. -/
def docEmptyTags : Str := "---\ntags: \"\"\n---\n# T\n".toList

/-- The sample environment, with the front matter of `docEmptyTags` parsed. -/
def envEmptyTags : Env :=
  envWithFrontMatter docEmptyTags [("tags".toList, .str [])] "# T\n".toList
/-- A document whose section `What It Is` is empty. -/
def docEmptySection : Str := "## What It Is\n\n## Example\nBar.\n".toList

/-- The sample environment in which `content/en/widget.md` is
`docEmptySection`. -/
def envEmptySection : Env :=
  envWithFile sampleEnv "/repo/content/en/widget.md".toList docEmptySection

/-- The sample environment in which `content/en/widget.md` is the document of
the specification's example. -/
def envExampleFile : Env :=
  envWithFile sampleEnv "/repo/content/en/widget.md".toList docExample
/-- The events of the publication of the `i`-th record when the endpoint
answers it with `status`: the request, then the console line. -/
def publishedEvents (E : Env) (status : Nat → Request → Nat) (ip : Nat × Obj) : List Event :=
  [.post (requestOf E ip.2),
    .posted (Obj.get "slug".toList ip.2) (status ip.1 (requestOf E ip.2))]

/-- The sample environment in which the endpoint answers the first request
with status 500 and the others with 200. -/
def envStatus500 : Env :=
  { sampleEnv with fetch := fun n _ => .ok (if n = 0 then 500 else 200) }

/-- The sample environment in which the second request fails at transport
level. -/
def envTransportFailure : Env :=
  { sampleEnv with
    fetch := fun n _ => if n = 1 then .error (.library "ECONNREFUSED".toList) else .ok 200 }

/-- The sample environment in which file discovery fails. -/
def envGlobFails : Env :=
  { sampleEnv with glob := fun _ => .error (.library "EACCES".toList) }

/-- Three records, known by their slugs. -/
def recordA : Obj := [("slug".toList, .str "a".toList)]

/-- The second of three records. -/
def recordB : Obj := [("slug".toList, .str "b".toList)]

/-- The third of three records. -/
def recordC : Obj := [("slug".toList, .str "c".toList)]
/-- The title the replacement keeps: `if (title)` drops a missing title and
an empty one alike. -/
def keptTitle : Option Str → Option Str
  | some (c :: t) => some (c :: t)
  | _ => none

/-- Split a text at every occurrence of `sep`. -/
def splitOnChar (sep : Char) : Str → List Str
  | [] => [[]]
  | c :: t =>
    match splitOnChar sep t with
    | [] => [[c]]
    | l :: ls => if c = sep then [] :: l :: ls else (c :: l) :: ls

/-- A host name whose labels are made of lower-case letters and digits, the
last one of letters only: a domain that `new URL` leaves as it is. -/
def isPlainHost (host : Str) : Bool :=
  let labels := splitOnChar '.' host
  labels.all (fun l => !l.isEmpty && l.all (fun c => c.isLower || c.isDigit))
    && (labels.getLast?.map (fun l => l.all Char.isLower)).getD false

/-- A reference model of `new URL(url, base)` on the absolute URLs of the
examples, `https://host` and `https://host/seg/…/seg` with a plain host and
plain segments: the base is not used; a URL without a path gets the path `/`,
a URL with one is returned as it is.  Other inputs are outside the model. -/
def referenceAbsoluteURL (url : Str) : Except JSError Str :=
  match stripPrefix? "https://".toList url with
  | none => .error (.library "not modelled".toList)
  | some hostAndPath =>
    match splitSlash hostAndPath with
    | [host] =>
      if isPlainHost host then .ok (url ++ ['/']) else .error (.library "not modelled".toList)
    | host :: segs =>
      if isPlainHost host && segs.all isPlainSegment then .ok url
      else .error (.library "not modelled".toList)
    | [] => .error (.library "not modelled".toList)

/-- The sample environment whose `new URL` also knows the absolute URLs of
the reference model. -/
def envAbsolute : Env :=
  { sampleEnv with
    newURL := fun relativeUrl baseUrl =>
      if (stripPrefix? "https://".toList relativeUrl).isSome then
        referenceAbsoluteURL relativeUrl
      else referenceURL relativeUrl baseUrl }

/-- The base URL of `content/en/widget.md`. -/
def widgetBase : Str := "https://glossary.cncf.io/content/en/widget.md".toList
/-- The removal of one leading blank line, as the specification words it: when
the first line of the text is blank, the text without that line; otherwise
the text unchanged. -/
def specRemoveFirstLine (str : Str) : Str :=
  let firstLine := str.takeWhile (fun c => c != '\n')
  if firstLine.all isWhiteSpace && firstLine.length < str.length then
    str.drop (firstLine.length + 1)
  else str

/-- A body that starts with two blank lines. -/
def docTwoBlankLines : Str := "\n\n# T\n".toList

/-- A body that starts with one blank line. -/
def docOneBlankLine : Str := "\n# T\n".toList

/-- A file outside `content/en`, as processFile is given it:
`avalia/ab/content/en/foo.md`, whose path relative to the reference root is
`ab/content/en/foo.md`. -/
def strayFile : Str := "../ab/content/en/foo.md".toList

/-- The sample environment in which `strayFile` exists and is empty. -/
def envStrayFile : Env :=
  envWithFile sampleEnv "/repo/avalia/ab/content/en/foo.md".toList []

/-! ## The link rewriting and the section scan, as relations -/

/-- The text of a link as `regexPattern` reads it: `](`, the target, the
optional title, `)`. -/
def linkText (target : Str) (title : Option Str) : Str :=
  ']' :: '(' :: (target ++ (titleText title ++ [')']))

/-- A target of the link pattern, `[^ )]+`: not empty, without space or `)`. -/
def IsLinkTarget (target : Str) : Prop := target ≠ [] ∧ ∀ c ∈ target, c ≠ ' ' ∧ c ≠ ')'

/-- A title of the link pattern, `[^"]*` when present: a text without `"`. -/
def IsLinkTitle (title : Option Str) : Prop := ∀ t, title = some t → '"' ∉ t

/-- A text that begins with a link. -/
def StartsWithLink (s : Str) : Prop :=
  ∃ target title post, IsLinkTarget target ∧ IsLinkTitle title ∧
    s = linkText target title ++ post

/-- The rewriting of links, as a relation: `LinksRewritten resolve rest text out`
says that `text`, which is followed by `rest` in the document, is read from
left to right into `out`.  Where the text that remains begins with a link, the
link is written with its target resolved and its title kept unless empty, and
the reading goes on after the link; elsewhere one character is copied. -/
inductive LinksRewritten (resolve : Str → Except JSError Str) (rest : Str) : Str → Str → Prop
  | done : LinksRewritten resolve rest [] []
  | copy (c : Char) (t out : Str) :
    ¬ StartsWithLink (c :: (t ++ rest)) → LinksRewritten resolve rest t out →
    LinksRewritten resolve rest (c :: t) (c :: out)
  | link (target : Str) (title : Option Str) (absoluteUrl post out : Str) :
    IsLinkTarget target → IsLinkTitle title → resolve target = .ok absoluteUrl →
    LinksRewritten resolve rest post out →
    LinksRewritten resolve rest (linkText target title ++ post)
      (linkText absoluteUrl (keptTitle title) ++ out)

/-- Whether no link begins inside `pre`, when `rest` follows it. -/
def startsNoLink (rest : Str) : Str → Bool
  | [] => true
  | c :: t => (linkAt (c :: (t ++ rest))).isNone && startsNoLink rest t

/-- An absolute URL of the reference model: `https://host` when there is no
segment, `https://host/seg/…/seg` otherwise. -/
def httpsUrl (host : Str) (segs : List Str) : Str :=
  "https://".toList ++ (host ++
    (match segs with
    | [] => []
    | seg :: more => '/' :: joinSlash (seg :: more)))

/-- The serialisation of `httpsUrl host segs` in the reference model: a URL
without a path gets the path `/`. -/
def serialisedHttpsUrl (host : Str) (segs : List Str) : Str :=
  match segs with
  | [] => httpsUrl host [] ++ ['/']
  | seg :: more => httpsUrl host (seg :: more)

/-- Whether `^` holds right after the text `p`, `lineStart` saying whether it
holds where `p` begins: it does after a line terminator. -/
def lineStartAfter : Bool → Str → Bool
  | lineStart, [] => lineStart
  | _, c :: t => lineStartAfter (isLineTerminator c) t

/-- A text that begins with the heading line of a section: `##`, one
whitespace character, the heading up to the first line feed, the line feed. -/
def StartsWithSection (s : Str) : Prop :=
  ∃ w heading u, isWhiteSpace w = true ∧ '\n' ∉ heading ∧
    s = '#' :: '#' :: w :: (heading ++ '\n' :: u)

/-- A section body `g` followed by `rest`: `rest` is empty or begins with
`##`, and no `##` begins inside `g`. -/
def IsSectionBody (g rest : Str) : Prop :=
  (rest = [] ∨ ∃ y, rest = '#' :: '#' :: y) ∧
    ∀ a b, g = a ++ b → b ≠ [] → ¬ ∃ y, b ++ rest = '#' :: '#' :: y

/-- The section scan, as a relation: `SectionsScanned lineStart text ms` says
that reading `text` from left to right gives the sections `ms`, `lineStart`
saying whether `^` holds where `text` begins.  Where the text that remains
begins, at a line start, with a section, the section is taken with its heading
and its body, and the reading goes on right after the body; elsewhere one
character is passed over. -/
inductive SectionsScanned : Bool → Str → List (Str × Str) → Prop
  | done (lineStart : Bool) : SectionsScanned lineStart [] []
  | pass (lineStart : Bool) (c : Char) (t : Str) (ms : List (Str × Str)) :
    ¬ (lineStart = true ∧ StartsWithSection (c :: t)) →
    SectionsScanned (isLineTerminator c) t ms → SectionsScanned lineStart (c :: t) ms
  | found (w : Char) (heading g rest : Str) (ms : List (Str × Str)) :
    isWhiteSpace w = true → '\n' ∉ heading → IsSectionBody g rest →
    SectionsScanned (lineStartAfter true g) rest ms →
    SectionsScanned true ('#' :: '#' :: w :: (heading ++ '\n' :: (g ++ rest)))
      ((heading, g) :: ms)

/-- A body whose first line is a bare `##`, right before a heading line. -/
def docBareHashes : Str := "##\n## c\nx".toList

/-- The sample environment whose `new URL` also resolves the relative path
`a](b`: `]` and `(` are copied into the path of a URL as they are. -/
def envBracketTarget : Env :=
  { sampleEnv with
    newURL := fun relativeUrl baseUrl =>
      if relativeUrl = "a](b".toList ∧ baseUrl = widgetBase then
        .ok "https://glossary.cncf.io/content/en/a](b".toList
      else referenceURL relativeUrl baseUrl }

/-! ## Objects: lookup after update -/

theorem Obj.get_nil (k : Str) : Obj.get k [] = none := rfl

theorem Obj.get_cons (k k' : Str) (v : Value) (o : Obj) :
    Obj.get k ((k', v) :: o) = if k = k' then some v else Obj.get k o := by
  unfold Obj.get
  rw [List.lookup_cons]
  by_cases h : k = k'
  · simp [h]
  · have : (k == k') = false := by simpa using h
    simp [this, h]

theorem Obj.has_nil (k : Str) : Obj.has k [] = false := rfl

theorem Obj.has_cons (k k' : Str) (v : Value) (o : Obj) :
    Obj.has k ((k', v) :: o) = (decide (k = k') || Obj.has k o) := by
  unfold Obj.has
  rw [Obj.get_cons]
  by_cases h : k = k' <;> simp [h]

theorem Obj.get_append_single (k k' : Str) (v : Value) (o : Obj) :
    Obj.get k (o ++ [(k', v)]) = match Obj.get k o with
      | some w => some w
      | none => if k = k' then some v else none := by
  induction o with
  | nil => simp [Obj.get_cons, Obj.get_nil]
  | cons kv o ih =>
    obtain ⟨k1, v1⟩ := kv
    simp only [List.cons_append, Obj.get_cons]
    by_cases h : k = k1
    · simp [h]
    · simp [h, ih]

theorem Obj.get_replace (k k' : Str) (v : Value) (o : Obj) :
    Obj.get k (Obj.replace k' v o) = if k = k' ∧ Obj.has k' o = true then some v else Obj.get k o := by
  induction o with
  | nil => simp [Obj.replace, Obj.get_nil, Obj.has_nil]
  | cons kv o ih =>
    obtain ⟨k1, v1⟩ := kv
    unfold Obj.replace
    by_cases h1 : k1 = k'
    · subst h1
      simp only [if_true, Obj.get_cons, Obj.has_cons]
      by_cases h : k = k1
      · simp [h]
      · simp [h]
    · simp only [h1, if_false, Obj.get_cons, Obj.has_cons]
      have h1' : ¬ k' = k1 := fun h => h1 h.symm
      by_cases h : k = k1
      · have : ¬ k = k' := fun e => h1 (h.symm.trans e)
        simp [h, h1]
      · simp [h, ih, h1']

theorem Obj.get_insertIndex (k k' : Str) (n : Nat) (v : Value) (o : Obj)
    (hk : Obj.has k' o = false) :
    Obj.get k (Obj.insertIndex n k' v o) = if k = k' then some v else Obj.get k o := by
  induction o with
  | nil => simp [Obj.insertIndex, Obj.get_cons, Obj.get_nil]
  | cons kv o ih =>
    obtain ⟨k1, v1⟩ := kv
    rw [Obj.has_cons] at hk
    have hne : ¬ k' = k1 := by
      intro h
      simp [h] at hk
    have hk' : Obj.has k' o = false := by
      simpa [hne] using hk
    unfold Obj.insertIndex
    cases arrayIndex? k1 with
    | none => simp [Obj.get_cons]
    | some m =>
      by_cases hm : m < n
      · simp only [hm, if_true, Obj.get_cons, ih hk']
        by_cases h : k = k1
        · have : ¬ k1 = k' := fun e => hne e.symm
          simp [h, this]
        · simp [h]
      · simp [hm, Obj.get_cons]

theorem Obj.get_define (k k' : Str) (v : Value) (o : Obj) :
    Obj.get k (Obj.define k' v o) = if k = k' then some v else Obj.get k o := by
  unfold Obj.define
  by_cases hh : Obj.has k' o = true
  · simp only [hh, if_true, Obj.get_replace]
    by_cases h : k = k' <;> simp [h]
  · have hf : Obj.has k' o = false := by simpa using hh
    rw [if_neg hh]
    cases arrayIndex? k' with
    | some n => simpa using Obj.get_insertIndex k k' n v o hf
    | none =>
      show Obj.get k (o ++ [(k', v)]) = _
      rw [Obj.get_append_single]
      by_cases h : k = k'
      · subst h
        have : Obj.get k o = none := by
          simpa [Obj.has] using hf
        simp [this]
      · cases hg : Obj.get k o <;> simp [h]

theorem Obj.get_set (k k' : Str) (v : Value) (o : Obj) (hk : k ≠ "__proto__".toList) :
    Obj.get k (Obj.set k' v o) = if k = k' then some v else Obj.get k o := by
  unfold Obj.set
  by_cases hp : k' = "__proto__".toList ∧ Obj.has k' o = false
  · have : ¬ k = k' := fun e => hk (e ▸ hp.1)
    rw [if_pos hp, if_neg this]
  · rw [if_neg hp, Obj.get_define]

/-! ## Objects: keys -/

theorem Obj.keys_cons (k : Str) (v : Value) (o : Obj) :
    Obj.keys ((k, v) :: o) = k :: Obj.keys o := rfl

theorem Obj.has_iff_mem_keys (k : Str) (o : Obj) : Obj.has k o = true ↔ k ∈ Obj.keys o := by
  induction o with
  | nil => simp [Obj.has_nil, Obj.keys]
  | cons kv o ih =>
    obtain ⟨k1, v1⟩ := kv
    rw [Obj.has_cons, Obj.keys_cons, List.mem_cons, Bool.or_eq_true, decide_eq_true_eq, ih]

theorem Obj.keys_replace (k : Str) (v : Value) (o : Obj) :
    Obj.keys (Obj.replace k v o) = Obj.keys o := by
  induction o with
  | nil => rfl
  | cons kv o ih =>
    obtain ⟨k1, v1⟩ := kv
    unfold Obj.replace
    by_cases h : k1 = k
    · simp [h, Obj.keys]
    · simp only [h, if_false, Obj.keys, List.map_cons] at ih ⊢
      rw [ih]

theorem Obj.keys_insertIndex_perm (n : Nat) (k : Str) (v : Value) (o : Obj) :
    (Obj.keys (Obj.insertIndex n k v o)).Perm (k :: Obj.keys o) := by
  induction o with
  | nil => simp [Obj.insertIndex, Obj.keys]
  | cons kv o ih =>
    obtain ⟨k1, v1⟩ := kv
    unfold Obj.insertIndex
    cases arrayIndex? k1 with
    | none => simp [Obj.keys]
    | some m =>
      by_cases hm : m < n
      · simp only [hm, if_true, Obj.keys, List.map_cons] at ih ⊢
        exact (List.Perm.cons k1 ih).trans (List.Perm.swap k k1 _)
      · simp [hm, Obj.keys]

theorem Obj.keys_define_perm (k : Str) (v : Value) (o : Obj) :
    (Obj.keys (Obj.define k v o)).Perm (if Obj.has k o then Obj.keys o else k :: Obj.keys o) := by
  unfold Obj.define
  by_cases hh : Obj.has k o = true
  · simp [hh, Obj.keys_replace]
  · rw [if_neg hh, if_neg hh]
    cases arrayIndex? k with
    | some n => exact Obj.keys_insertIndex_perm n k v o
    | none =>
      show (Obj.keys (o ++ [(k, v)])).Perm _
      simp only [Obj.keys, List.map_append, List.map_cons, List.map_nil]
      exact List.perm_append_singleton k _

theorem Obj.mem_keys_define (K k : Str) (v : Value) (o : Obj) :
    K ∈ Obj.keys (Obj.define k v o) ↔ K = k ∨ K ∈ Obj.keys o := by
  rw [(Obj.keys_define_perm k v o).mem_iff]
  by_cases hh : Obj.has k o = true
  · rw [if_pos hh]
    constructor
    · exact Or.inr
    · rintro (h | h)
      · exact h ▸ (Obj.has_iff_mem_keys k o).1 hh
      · exact h
  · rw [if_neg hh]; simp

theorem Obj.nodup_keys_define (k : Str) (v : Value) (o : Obj) (h : (Obj.keys o).Nodup) :
    (Obj.keys (Obj.define k v o)).Nodup := by
  rw [(Obj.keys_define_perm k v o).nodup_iff]
  by_cases hh : Obj.has k o = true
  · rw [if_pos hh]; exact h
  · rw [if_neg hh]
    exact List.nodup_cons.2 ⟨fun hm => hh ((Obj.has_iff_mem_keys k o).2 hm), h⟩

theorem Obj.mem_keys_set (K k : Str) (v : Value) (o : Obj)
    (h : K ∈ Obj.keys (Obj.set k v o)) : K = k ∨ K ∈ Obj.keys o := by
  unfold Obj.set at h
  by_cases hp : k = "__proto__".toList ∧ Obj.has k o = false
  · rw [if_pos hp] at h; exact Or.inr h
  · rw [if_neg hp] at h; exact (Obj.mem_keys_define K k v o).1 h

theorem Obj.nodup_keys_set (k : Str) (v : Value) (o : Obj) (h : (Obj.keys o).Nodup) :
    (Obj.keys (Obj.set k v o)).Nodup := by
  unfold Obj.set
  by_cases hp : k = "__proto__".toList ∧ Obj.has k o = false
  · rw [if_pos hp]; exact h
  · rw [if_neg hp]; exact Obj.nodup_keys_define k v o h

/-! ## Objects: folds of updates -/

theorem lastWith_append_single {α : Type} (p : α → Bool) (l : List α) (x : α) :
    lastWith p (l ++ [x]) = if p x then some x else lastWith p l := by
  induction l with
  | nil => simp [lastWith]
  | cons y l ih =>
    rw [List.cons_append]
    unfold lastWith
    rw [ih]
    by_cases hx : p x = true
    · simp [hx]
    · simp [hx]

theorem lastWith_congr {α : Type} (p q : α → Bool) (l : List α)
    (h : ∀ x ∈ l, p x = q x) : lastWith p l = lastWith q l := by
  induction l with
  | nil => rfl
  | cons y l ih =>
    simp only [lastWith]
    rw [ih (fun x hx => h x (List.mem_cons_of_mem _ hx)), h y (List.mem_cons_self _ _)]

theorem lastWith_mem {α : Type} (p : α → Bool) (l : List α) (x : α)
    (h : lastWith p l = some x) : x ∈ l ∧ p x = true := by
  induction l with
  | nil => simp [lastWith] at h
  | cons y l ih =>
    simp only [lastWith] at h
    cases hl : lastWith p l with
    | some z =>
      rw [hl] at h
      simp only [Option.some.injEq] at h
      subst h
      exact ⟨List.mem_cons_of_mem _ (ih hl).1, (ih hl).2⟩
    | none =>
      rw [hl] at h
      by_cases hy : p y = true
      · simp only [hy, if_true, Option.some.injEq] at h
        subst h
        exact ⟨List.mem_cons_self _ _, hy⟩
      · simp [hy] at h

theorem lastWith_eq_none {α : Type} (p : α → Bool) (l : List α)
    (h : ∀ x ∈ l, p x = false) : lastWith p l = none := by
  induction l with
  | nil => rfl
  | cons y l ih =>
    simp only [lastWith]
    rw [ih (fun x hx => h x (List.mem_cons_of_mem _ hx)), h y (List.mem_cons_self _ _)]
    simp

theorem lastWith_isSome {α : Type} (p : α → Bool) (l : List α) (x : α)
    (hx : x ∈ l) (hp : p x = true) : ∃ y, lastWith p l = some y := by
  induction l with
  | nil => simp at hx
  | cons y l ih =>
    simp only [lastWith]
    cases hl : lastWith p l with
    | some z => exact ⟨z, rfl⟩
    | none =>
      rcases List.mem_cons.1 hx with h | h
      · subst h; simp [hp]
      · obtain ⟨z, hz⟩ := ih h
        rw [hl] at hz; cases hz

/-- Lookup after a fold of definitions: the last definition of the key wins. -/
theorem Obj.get_foldl_define {α : Type} (kf : α → Str) (vf : α → Value) (k : Str)
    (l : List α) (o : Obj) :
    Obj.get k (l.foldl (fun acc x => Obj.define (kf x) (vf x) acc) o) =
      (lastWith (fun x => decide (kf x = k)) l).elim (Obj.get k o) (fun x => some (vf x)) := by
  induction l generalizing o with
  | nil => rfl
  | cons y l ih =>
    simp only [List.foldl_cons, ih, lastWith]
    cases hl : lastWith (fun x => decide (kf x = k)) l with
    | some z => rfl
    | none =>
      simp only [Obj.get_define, Option.elim_none]
      by_cases h : kf y = k
      · simp [h]
      · have : ¬ k = kf y := fun e => h e.symm
        simp [h, this]

/-- Lookup after a fold of assignments: the last assignment to the key wins. -/
theorem Obj.get_foldl_set {α : Type} (kf : α → Str) (vf : α → Value) (k : Str)
    (hk : k ≠ "__proto__".toList) (l : List α) (o : Obj) :
    Obj.get k (l.foldl (fun acc x => Obj.set (kf x) (vf x) acc) o) =
      (lastWith (fun x => decide (kf x = k)) l).elim (Obj.get k o) (fun x => some (vf x)) := by
  induction l generalizing o with
  | nil => rfl
  | cons y l ih =>
    simp only [List.foldl_cons, ih, lastWith]
    cases hl : lastWith (fun x => decide (kf x = k)) l with
    | some z => rfl
    | none =>
      simp only [Obj.get_set _ _ _ _ hk, Option.elim_none]
      by_cases h : kf y = k
      · simp [h]
      · have : ¬ k = kf y := fun e => h e.symm
        simp [h, this]

theorem Obj.mem_keys_foldl_set {α : Type} (kf : α → Str) (vf : α → Value) (K : Str)
    (l : List α) (o : Obj)
    (h : K ∈ Obj.keys (l.foldl (fun acc x => Obj.set (kf x) (vf x) acc) o)) :
    K ∈ Obj.keys o ∨ ∃ x ∈ l, kf x = K := by
  induction l generalizing o with
  | nil => exact Or.inl h
  | cons y l ih =>
    rcases ih _ h with h1 | ⟨x, hx, hk⟩
    · rcases Obj.mem_keys_set K _ _ _ h1 with h2 | h2
      · exact Or.inr ⟨y, List.mem_cons_self _ _, h2.symm⟩
      · exact Or.inl h2
    · exact Or.inr ⟨x, List.mem_cons_of_mem _ hx, hk⟩

theorem Obj.mem_keys_foldl_define {α : Type} (kf : α → Str) (vf : α → Value) (K : Str)
    (l : List α) (o : Obj)
    (h : K ∈ Obj.keys (l.foldl (fun acc x => Obj.define (kf x) (vf x) acc) o)) :
    K ∈ Obj.keys o ∨ ∃ x ∈ l, kf x = K := by
  induction l generalizing o with
  | nil => exact Or.inl h
  | cons y l ih =>
    rcases ih _ h with h1 | ⟨x, hx, hk⟩
    · rcases (Obj.mem_keys_define K _ _ _).1 h1 with h2 | h2
      · exact Or.inr ⟨y, List.mem_cons_self _ _, h2.symm⟩
      · exact Or.inl h2
    · exact Or.inr ⟨x, List.mem_cons_of_mem _ hx, hk⟩

theorem Obj.nodup_keys_foldl_set {α : Type} (kf : α → Str) (vf : α → Value)
    (l : List α) (o : Obj) (h : (Obj.keys o).Nodup) :
    (Obj.keys (l.foldl (fun acc x => Obj.set (kf x) (vf x) acc) o)).Nodup := by
  induction l generalizing o with
  | nil => exact h
  | cons y l ih => exact ih _ (Obj.nodup_keys_set _ _ _ h)

theorem Obj.nodup_keys_foldl_define {α : Type} (kf : α → Str) (vf : α → Value)
    (l : List α) (o : Obj) (h : (Obj.keys o).Nodup) :
    (Obj.keys (l.foldl (fun acc x => Obj.define (kf x) (vf x) acc) o)).Nodup := by
  induction l generalizing o with
  | nil => exact h
  | cons y l ih => exact ih _ (Obj.nodup_keys_define _ _ _ h)

/-- In an object without duplicate keys the last entry of a key is the one
lookup finds. -/
theorem Obj.lastWith_key_eq_get (k : Str) (o : Obj) (h : (Obj.keys o).Nodup) :
    (lastWith (fun kv => decide (kv.1 = k)) o).map Prod.snd = Obj.get k o := by
  induction o with
  | nil => rfl
  | cons kv o ih =>
    obtain ⟨k1, v1⟩ := kv
    simp only [Obj.keys, List.map_cons, List.nodup_cons] at h
    have ih' := ih h.2
    simp only [lastWith, Obj.get_cons]
    by_cases hk : k = k1
    · subst hk
      have hnone : lastWith (fun kv : Str × Value => decide (kv.1 = k)) o = none := by
        apply lastWith_eq_none
        intro x hx
        have : x.1 ≠ k := fun e => h.1 (e ▸ List.mem_map_of_mem Prod.fst hx)
        simpa using this
      simp [hnone]
    · have hk' : ¬ k1 = k := fun e => hk e.symm
      rw [if_neg hk, ← ih']
      cases lastWith (fun kv : Str × Value => decide (kv.1 = k)) o <;> simp [hk']

/-! ## The record built by extractMarkdownData -/

theorem proto_ne_title : "title".toList ≠ "__proto__".toList := by decide

theorem Obj.get_spread (k : Str) (o src : Obj) :
    Obj.get k (Obj.spread o src) =
      (lastWith (fun kv => decide (kv.1 = k)) src).elim (Obj.get k o) (fun kv => some kv.2) :=
  Obj.get_foldl_define Prod.fst Prod.snd k src o

theorem get_initialData (k : Str) (frontMatter : Obj) (body : Str) :
    Obj.get k (initialData frontMatter body) =
      if k = "markdown".toList then some (.str (removeFirstLine body))
      else (lastWith (fun kv => decide (kv.1 = k)) frontMatter).elim
        (if k = "title".toList then some (.str (titleOf body)) else none) (fun kv => some kv.2) := by
  unfold initialData
  rw [Obj.get_define, Obj.get_spread, Obj.get_define, Obj.get_nil]

theorem nodup_keys_initialData (frontMatter : Obj) (body : Str) :
    (Obj.keys (initialData frontMatter body)).Nodup := by
  unfold initialData Obj.spread
  apply Obj.nodup_keys_define
  apply Obj.nodup_keys_foldl_define
  apply Obj.nodup_keys_define
  exact List.nodup_nil

theorem mem_keys_initialData (K : Str) (frontMatter : Obj) (body : Str)
    (h : K ∈ Obj.keys (initialData frontMatter body)) :
    K = "title".toList ∨ K = "markdown".toList ∨ K ∈ Obj.keys frontMatter := by
  unfold initialData Obj.spread at h
  rcases (Obj.mem_keys_define _ _ _ _).1 h with h | h
  · exact Or.inr (Or.inl h)
  · rcases Obj.mem_keys_foldl_define Prod.fst Prod.snd K _ _ h with h | ⟨x, hx, hk⟩
    · rcases (Obj.mem_keys_define _ _ _ _).1 h with h | h
      · exact Or.inl h
      · simp [Obj.keys] at h
    · exact Or.inr (Or.inr (hk ▸ List.mem_map_of_mem Prod.fst hx))

theorem get_addSections (E : Env) (k : Str) (hk : k ≠ "__proto__".toList)
    (data : Obj) (ms : List (Str × Str)) :
    Obj.get k (addSections E data ms) =
      (lastWith (fun m => decide (sectionKey E m.1 = k)) ms).elim (Obj.get k data)
        (fun m => some (Value.str (trim m.2))) := by
  unfold addSections
  exact Obj.get_foldl_set (fun m : Str × Str => sectionKey E m.1)
    (fun m : Str × Str => Value.str (trim m.2)) k hk ms data

theorem nodup_keys_dataOf (E : Env) (frontMatter : Obj) (body : Str) :
    (Obj.keys (dataOf E frontMatter body)).Nodup := by
  unfold dataOf addSections
  exact Obj.nodup_keys_foldl_set (fun m : Str × Str => sectionKey E m.1)
    (fun m : Str × Str => Value.str (trim m.2)) _ _ (nodup_keys_initialData frontMatter body)

theorem mem_keys_dataOf (E : Env) (K : Str) (frontMatter : Obj) (body : Str)
    (h : K ∈ Obj.keys (dataOf E frontMatter body)) :
    K = "title".toList ∨ K = "markdown".toList ∨ K ∈ Obj.keys frontMatter ∨
      ∃ m ∈ sectionMatches body, sectionKey E m.1 = K := by
  unfold dataOf addSections at h
  rcases Obj.mem_keys_foldl_set (fun m : Str × Str => sectionKey E m.1)
    (fun m : Str × Str => Value.str (trim m.2)) K _ _ h with h | h
  · rcases mem_keys_initialData K frontMatter body h with h | h | h
    · exact Or.inl h
    · exact Or.inr (Or.inl h)
    · exact Or.inr (Or.inr (Or.inl h))
  · exact Or.inr (Or.inr (Or.inr h))

theorem get_lowerCaseProps (E : Env) (k : Str) (hk : k ≠ "__proto__".toList) (data : Obj) :
    Obj.get k (lowerCaseProps E data) =
      (lastWith (fun kv => decide (toLowerCase E kv.1 = k)) data).map Prod.snd := by
  unfold lowerCaseProps
  rw [Obj.get_foldl_set (fun kv => toLowerCase E kv.1) Prod.snd k hk data [], Obj.get_nil]
  cases lastWith (fun kv : Str × Value => decide (toLowerCase E kv.1 = k)) data <;> rfl

/-- When `k` is its own lower-case form and no other key of `data` lower-cases
to `k`, the lower-cased object has at `k` what `data` has. -/
theorem get_lowerCaseProps_of_only (E : Env) (k : Str) (hk : k ≠ "__proto__".toList)
    (hlow : toLowerCase E k = k) (data : Obj) (hnd : (Obj.keys data).Nodup)
    (honly : ∀ K ∈ Obj.keys data, toLowerCase E K = k → K = k) :
    Obj.get k (lowerCaseProps E data) = Obj.get k data := by
  rw [get_lowerCaseProps E k hk, ← Obj.lastWith_key_eq_get k data hnd]
  congr 1
  apply lastWith_congr
  intro kv hkv
  have hmem : kv.1 ∈ Obj.keys data := List.mem_map_of_mem Prod.fst hkv
  by_cases h : kv.1 = k
  · simp [h, hlow]
  · have : ¬ toLowerCase E kv.1 = k := fun e => h (honly kv.1 hmem e)
    simp [h, this]

theorem extractMarkdownData_eq (E : Env) (markdown : Str) (r : FrontMatterResult)
    (frontMatter : Obj) (hfm : extractYAMLFrontMatter E markdown = .ok r)
    (htags : filterFrontMatterTags r.attributes = .ok frontMatter) :
    extractMarkdownData E markdown = .ok (lowerCaseProps E (dataOf E frontMatter r.body)) := by
  unfold extractMarkdownData
  rw [hfm]
  show (match filterFrontMatterTags r.attributes with
    | Except.error e => Except.error e
    | Except.ok frontMatter => Except.ok (lowerCaseProps E (dataOf E frontMatter r.body))) = _
  rw [htags]

/-! ## The section scan -/

theorem sectionAt_hash (w : Char) (t : Str) :
    sectionAt ('#' :: '#' :: w :: t) =
      if isWhiteSpace w then
        (match t.drop (t.takeWhile (fun c => c != '\n')).length with
        | '\n' :: u =>
          some (t.takeWhile (fun c => c != '\n'), bodyUntilHashes u,
            3 + (t.takeWhile (fun c => c != '\n')).length + 1 + (bodyUntilHashes u).length)
        | _ => none)
      else none := rfl

theorem sectionAt_eq_some_imp (s : Str) (r : Str × Str × Nat) (h : sectionAt s = some r) :
    ∃ w t, s = '#' :: '#' :: w :: t := by
  unfold sectionAt at h
  split at h
  · exact ⟨_, _, rfl⟩
  · cases h

theorem bodyUntilHashes_cons (c : Char) (t : Str) :
    bodyUntilHashes (c :: t) =
      if (stripPrefix? ['#', '#'] (c :: t)).isSome then [] else c :: bodyUntilHashes t := rfl

theorem stripPrefix_hashes (y : Str) : (stripPrefix? ['#', '#'] ('#' :: '#' :: y)).isSome = true := by
  simp [stripPrefix?]

theorem bodyUntilHashes_length_le (x y : Str) :
    (bodyUntilHashes (x ++ '#' :: '#' :: y)).length ≤ x.length := by
  induction x with
  | nil =>
    rw [List.nil_append, bodyUntilHashes_cons, stripPrefix_hashes]
    simp
  | cons c x ih =>
    rw [List.cons_append, bodyUntilHashes_cons]
    split
    · simp
    · simp only [List.length_cons]; omega

/-- Group 2 is the text up to the first `##`: if `r` is empty or starts with
`##` and no `##` starts inside `g`, then group 2 of `g ++ r` is `g`. -/
theorem bodyUntilHashes_eq (g r : Str)
    (hr : r = [] ∨ (stripPrefix? ['#', '#'] r).isSome = true)
    (hg : ∀ a b, g = a ++ b → b ≠ [] → stripPrefix? ['#', '#'] (b ++ r) = none) :
    bodyUntilHashes (g ++ r) = g := by
  induction g with
  | nil =>
    rw [List.nil_append]
    cases r with
    | nil => rfl
    | cons c t =>
      rcases hr with hr | hr
      · cases hr
      · rw [bodyUntilHashes_cons, if_pos hr]
  | cons c g ih =>
    have h0 := hg [] (c :: g) rfl (by simp)
    rw [List.cons_append] at h0 ⊢
    rw [bodyUntilHashes_cons, h0]
    simp only [Option.isSome_none, Bool.false_eq_true, if_false, List.cons.injEq, true_and]
    apply ih
    intro a b hab hb
    exact hg (c :: a) b (by rw [hab]; rfl) hb

theorem takeWhile_append_of_exists {p : Char → Bool} (a b : Str)
    (h : ∃ x ∈ a, p x = false) : (a ++ b).takeWhile p = a.takeWhile p := by
  induction a with
  | nil => obtain ⟨x, hx, _⟩ := h; cases hx
  | cons c a ih =>
    obtain ⟨x, hx, hp⟩ := h
    rw [List.cons_append, List.takeWhile_cons, List.takeWhile_cons]
    by_cases hc : p c = true
    · rw [if_pos hc, if_pos hc]
      rcases List.mem_cons.1 hx with e | hm
      · subst e; rw [hp] at hc; cases hc
      · rw [ih ⟨x, hm, hp⟩]
    · rw [if_neg hc, if_neg hc]

theorem takeWhile_ne_of_not_mem (c : Char) (h u : Str) (hh : c ∉ h) :
    (h ++ c :: u).takeWhile (fun x => x != c) = h := by
  induction h with
  | nil => simp
  | cons d h ih =>
    have hd : d ≠ c := fun e => hh (e ▸ List.mem_cons_self _ _)
    have hh' : c ∉ h := fun m => hh (List.mem_cons_of_mem _ m)
    rw [List.cons_append, List.takeWhile_cons]
    have : (d != c) = true := by simpa using hd
    rw [if_pos this, ih hh']

theorem drop_takeWhile_eq_dropWhile (p : Char → Bool) (t : Str) :
    t.drop (t.takeWhile p).length = t.dropWhile p := by
  induction t with
  | nil => rfl
  | cons c t ih =>
    rw [List.takeWhile_cons, List.dropWhile_cons]
    by_cases hc : p c = true
    · rw [if_pos hc, if_pos hc]
      exact ih
    · rw [if_neg hc, if_neg hc]
      rfl

/-- Splitting a text that contains `c` at its first `c`. -/
theorem exists_split_at_first (c : Char) (a : Str) (h : c ∈ a) :
    ∃ g a', a = g ++ c :: a' ∧ c ∉ g := by
  induction a with
  | nil => cases h
  | cons d a ih =>
    by_cases hd : d = c
    · exact ⟨[], a, by rw [hd]; rfl, by simp⟩
    · rcases List.mem_cons.1 h with e | hm
      · exact absurd e.symm hd
      · obtain ⟨g, a', ha, hg⟩ := ih hm
        refine ⟨d :: g, a', by rw [ha]; rfl, ?_⟩
        intro hm'
        rcases List.mem_cons.1 hm' with e | hm''
        · exact hd e.symm
        · exact hg hm''

theorem sectionAt_heading (w : Char) (h u : Str) (hw : isWhiteSpace w = true)
    (hh : '\n' ∉ h) :
    sectionAt ('#' :: '#' :: w :: (h ++ '\n' :: u)) =
      some (h, bodyUntilHashes u, 3 + h.length + 1 + (bodyUntilHashes u).length) := by
  rw [sectionAt_hash, if_pos hw, takeWhile_ne_of_not_mem '\n' h u hh]
  rw [List.drop_left]
  rfl

/-- A match that starts before a later `##` which follows a line feed ends at
that `##` at the latest, unless the match starts with the bare line `##`
right before it. -/
theorem sectionAt_length_le (pre y : Str) (g1 g2 : Str) (len : Nat)
    (hlast : pre.getLast? = some '\n') (hbare : pre ≠ ['#', '#', '\n'])
    (h : sectionAt (pre ++ '#' :: '#' :: y) = some (g1, g2, len)) :
    len ≤ pre.length := by
  obtain ⟨w, t, hs⟩ := sectionAt_eq_some_imp _ _ h
  match pre, hlast, hbare, h, hs with
  | [], hlast, _, _, _ => simp at hlast
  | [c], hlast, _, h, hs =>
    simp only [List.getLast?_singleton, Option.some.injEq] at hlast
    subst hlast
    simp at hs
  | [c1, c2], hlast, _, h, hs =>
    have : c2 = '\n' := by simpa using hlast
    subst this
    simp at hs
  | c1 :: c2 :: c3 :: p3, hlast, hbare, h, hs =>
    simp only [List.cons_append, List.cons.injEq] at hs
    obtain ⟨h1, h2, h3, -⟩ := hs
    subst h1 h2 h3
    have hp3 : p3 ≠ [] := by
      intro e
      subst e
      have : c3 = '\n' := by simpa using hlast
      subst this
      exact hbare rfl
    have hlast3 : p3.getLast? = some '\n' := by
      have := hlast
      rw [List.getLast?_cons_cons, List.getLast?_cons_cons] at this
      cases p3 with
      | nil => exact absurd rfl hp3
      | cons d p4 => rwa [List.getLast?_cons_cons] at this
    have hmem : '\n' ∈ p3 := List.mem_of_getLast?_eq_some hlast3
    obtain ⟨g, p3', hsplit, hg⟩ := exists_split_at_first '\n' p3 hmem
    simp only [List.cons_append] at h
    rw [sectionAt_hash] at h
    by_cases hw : isWhiteSpace c3 = true
    · rw [if_pos hw] at h
      have htw : (p3 ++ '#' :: '#' :: y).takeWhile (fun c => c != '\n') = g := by
        rw [hsplit, List.append_assoc, List.cons_append]
        exact takeWhile_ne_of_not_mem '\n' g _ hg
      rw [htw] at h
      have hdrop : (p3 ++ '#' :: '#' :: y).drop g.length = '\n' :: (p3' ++ '#' :: '#' :: y) := by
        rw [hsplit, List.append_assoc, List.drop_left]
        rfl
      rw [hdrop] at h
      simp only [Option.some.injEq, Prod.mk.injEq] at h
      obtain ⟨-, -, hlen⟩ := h
      have hb := bodyUntilHashes_length_le p3' y
      have hl : p3.length = g.length + 1 + p3'.length := by
        rw [hsplit]; simp; omega
      simp only [List.length_cons]
      omega
    · rw [if_neg hw] at h; cases h

theorem sectionsAux_zero_cons (ls : Bool) (c : Char) (t : Str) :
    sectionsAux 0 ls (c :: t) =
      match (if ls then sectionAt (c :: t) else none) with
      | some (g1, g2, len) => (g1, g2) :: sectionsAux (len - 1) (isLineTerminator c) t
      | none => sectionsAux 0 (isLineTerminator c) t := rfl

theorem sectionsAux_succ_cons (k : Nat) (ls : Bool) (c : Char) (t : Str) :
    sectionsAux (k + 1) ls (c :: t) = sectionsAux k (isLineTerminator c) t := rfl

/-- A heading that follows a line feed is reached by the scan: it is not
inside an earlier match, unless that match starts with the bare line `##`
right before it. -/
theorem mem_sectionsAux_of_heading (w : Char) (h u : Str) (hw : isWhiteSpace w = true)
    (hh : '\n' ∉ h) :
    ∀ (pre : Str) (k : Nat) (ls : Bool), k ≤ pre.length → (pre = [] → ls = true) →
      (pre ≠ [] → pre.getLast? = some '\n') → endsWithBareHashes ls pre = false →
      (h, bodyUntilHashes u) ∈ sectionsAux k ls (pre ++ '#' :: '#' :: w :: (h ++ '\n' :: u)) := by
  intro pre
  induction pre with
  | nil =>
    intro k ls hk hls _ _
    have hk0 : k = 0 := by simpa using hk
    subst hk0
    rw [hls rfl, List.nil_append, sectionsAux_zero_cons, if_pos rfl,
      sectionAt_heading w h u hw hh]
    exact List.mem_cons_self _ _
  | cons c pre ih =>
    intro k ls hk _ hlast hbare
    have hlast' := hlast (List.cons_ne_nil _ _)
    have h1 : pre = [] → isLineTerminator c = true := by
      intro e
      subst e
      have : c = '\n' := by simpa using hlast'
      subst this
      decide
    have h2 : pre ≠ [] → pre.getLast? = some '\n' := by
      intro hne
      cases pre with
      | nil => exact absurd rfl hne
      | cons d p => rwa [List.getLast?_cons_cons] at hlast'
    have hb : (ls && decide (c :: pre = ['#', '#', '\n'])) = false ∧
        endsWithBareHashes (isLineTerminator c) pre = false := by
      unfold endsWithBareHashes at hbare
      simpa [Bool.or_eq_false_iff] using hbare
    rw [List.cons_append]
    cases k with
    | succ k =>
      rw [sectionsAux_succ_cons]
      exact ih k _ (by simpa using hk) h1 h2 hb.2
    | zero =>
      rw [sectionsAux_zero_cons]
      cases ls with
      | false =>
        simp only [Bool.false_eq_true, if_false]
        exact ih 0 _ (Nat.zero_le _) h1 h2 hb.2
      | true =>
        simp only [if_true]
        have hne : c :: pre ≠ ['#', '#', '\n'] := by
          simpa using hb.1
        cases hs : sectionAt (c :: (pre ++ '#' :: '#' :: w :: (h ++ '\n' :: u))) with
        | none => exact ih 0 _ (Nat.zero_le _) h1 h2 hb.2
        | some r =>
          obtain ⟨g1, g2, len⟩ := r
          have hlen := sectionAt_length_le (c :: pre) _ g1 g2 len hlast' hne hs
          simp only [List.length_cons] at hlen
          exact List.mem_cons_of_mem _ (ih (len - 1) _ (by omega) h1 h2 hb.2)

/-! ## C1: section fields -/

theorem toLowerCase_title (E : Env) : toLowerCase E "title".toList = "title".toList := rfl

theorem toLowerCase_markdown (E : Env) : toLowerCase E "markdown".toList = "markdown".toList := rfl

theorem no_hashes_of_index (g rest : Str)
    (hg : ∀ i, i < g.length → stripPrefix? ['#', '#'] ((g ++ rest).drop i) = none) :
    ∀ a b, g = a ++ b → b ≠ [] → stripPrefix? ['#', '#'] (b ++ rest) = none := by
  intro a b hab hb
  have hlt : a.length < g.length := by
    rw [hab, List.length_append]
    have : 0 < b.length := List.length_pos.2 hb
    omega
  have := hg a.length hlt
  rwa [hab, List.append_assoc, List.drop_left] at this

/-- The value stored under a section key, when every match of that key has
the same trimmed body and no other key of `data` lower-cases to it. -/
theorem get_section_field (E : Env) (frontMatter : Obj) (body : Str) (k b : Str)
    (hmem : ∃ m ∈ sectionMatches body, sectionKey E m.1 = k)
    (hkey : k ≠ "__proto__".toList) (hlow : toLowerCase E k = k)
    (hsame : ∀ m ∈ sectionMatches body, sectionKey E m.1 = k → trim m.2 = b)
    (honlyFm : ∀ K ∈ Obj.keys frontMatter, toLowerCase E K = k → K = k)
    (honlySec : ∀ m ∈ sectionMatches body, toLowerCase E (sectionKey E m.1) = k →
      sectionKey E m.1 = k) :
    Obj.get k (lowerCaseProps E (dataOf E frontMatter body)) = some (.str b) := by
  rw [get_lowerCaseProps_of_only E k hkey hlow _ (nodup_keys_dataOf E frontMatter body)]
  · unfold dataOf
    rw [get_addSections E k hkey]
    obtain ⟨m, hm, hmk⟩ := hmem
    obtain ⟨y, hy⟩ := lastWith_isSome (fun m : Str × Str => decide (sectionKey E m.1 = k))
      (sectionMatches body) m hm (by simpa using hmk)
    rw [hy]
    have hy' := lastWith_mem _ _ _ hy
    have hyk : sectionKey E y.1 = k := by simpa using hy'.2
    simp only [Option.elim_some]
    rw [hsame y hy'.1 hyk]
  · intro K hK hKk
    rcases mem_keys_dataOf E K frontMatter body hK with h | h | h | ⟨m, hm, hmK⟩
    · rw [h, toLowerCase_title] at hKk; rw [h, hKk]
    · rw [h, toLowerCase_markdown] at hKk; rw [h, hKk]
    · exact honlyFm K h hKk
    · rw [← hmK] at hKk ⊢
      exact honlySec m hm hKk

/-- C1 (amended): a line `##`, one whitespace character, heading text, line
feed, standing at the start of the body or after a line feed (and not right
after a bare `##` line that starts a match), yields a match of the section
scan whose body is the text after the heading line up to the next occurrence
of `##` anywhere, or to the end of the document; extractMarkdownData stores
that body, trimmed, under the key made of the heading text trimmed,
lower-cased and with whitespace runs replaced by underscores, when the key is
not `__proto__`, is its own lower-case form, no other front-matter or section
key lower-cases to it, and the sections of that key have the same body. -/
theorem C1_section_field (E : Env) (markdown : Str) (r : FrontMatterResult)
    (frontMatter : Obj) (pre : Str) (w : Char) (h g rest : Str)
    (hfm : extractYAMLFrontMatter E markdown = .ok r)
    (htags : filterFrontMatterTags r.attributes = .ok frontMatter)
    (hbody : r.body = pre ++ '#' :: '#' :: w :: (h ++ '\n' :: (g ++ rest)))
    (hpre : pre = [] ∨ pre.getLast? = some '\n')
    (hbare : endsWithBareHashes true pre = false)
    (hw : isWhiteSpace w = true) (hh : '\n' ∉ h)
    (hrest : rest = [] ∨ (stripPrefix? ['#', '#'] rest).isSome = true)
    (hg : ∀ i, i < g.length → stripPrefix? ['#', '#'] ((g ++ rest).drop i) = none)
    (hkey : sectionKey E h ≠ "__proto__".toList)
    (hlow : toLowerCase E (sectionKey E h) = sectionKey E h)
    (hsame : ∀ m ∈ sectionMatches r.body, sectionKey E m.1 = sectionKey E h →
      trim m.2 = trim g)
    (honlyFm : ∀ K ∈ Obj.keys frontMatter, toLowerCase E K = sectionKey E h →
      K = sectionKey E h)
    (honlySec : ∀ m ∈ sectionMatches r.body,
      toLowerCase E (sectionKey E m.1) = sectionKey E h →
      sectionKey E m.1 = sectionKey E h) :
    (h, g) ∈ sectionMatches r.body ∧
    ∃ record, extractMarkdownData E markdown = .ok record ∧
      Obj.get (collapseWhiteSpace (toLowerCase E (trim h))) record = some (.str (trim g)) := by
  have hmem : (h, g) ∈ sectionMatches r.body := by
    have hb := bodyUntilHashes_eq g rest hrest (no_hashes_of_index g rest hg)
    have := mem_sectionsAux_of_heading w h (g ++ rest) hw hh pre 0 true (Nat.zero_le _)
      (fun _ => rfl) (fun hne => hpre.resolve_left hne) hbare
    rw [hb] at this
    unfold sectionMatches
    rw [hbody]
    exact this
  refine ⟨hmem, _, extractMarkdownData_eq E markdown r frontMatter hfm htags, ?_⟩
  exact get_section_field E frontMatter r.body (sectionKey E h) (trim g) ⟨(h, g), hmem, rfl⟩
    hkey hlow hsame honlyFm honlySec

/-- C1 (counterexample): in `## A`, `foo`, `### B`, `bar` the field `a` is
`foo`, the text up to the `##` of the third-level heading, whereas the text
up to the next `## ` heading line or the end of the document is
`foo\n### B\nbar`. -/
theorem C1_counterexample :
    extractMarkdownData sampleEnv docThirdLevel =
        .ok [("title".toList, .str []), ("markdown".toList, .str docThirdLevel),
          ("a".toList, .str "foo".toList)] ∧
      specSectionFields sampleEnv docThirdLevel = [("a".toList, "foo\n### B\nbar".toList)] :=
  ⟨rfl, by decide⟩

/-- C1 (witness): the example of the specification, `what_it_is = "Foo."`. -/
theorem C1_section_field_witness :
    ("What It Is".toList, "Foo.\n\n".toList) ∈ sectionMatches docExample ∧
    ∃ record, extractMarkdownData sampleEnv docExample = .ok record ∧
      Obj.get "what_it_is".toList record = some (.str "Foo.".toList) :=
  C1_section_field sampleEnv docExample ⟨[], docExample⟩ [] "# Title\n\n".toList ' '
    "What It Is".toList "Foo.\n\n".toList "## Example\nBar.\n".toList
    rfl rfl rfl (Or.inr rfl) (by decide) (by decide) (by decide) (Or.inr (by decide))
    (by decide) (by decide) (by decide) (by decide) (by decide) (by decide)

/-! ## The last key with a property -/

theorem lastWith_cons {α : Type} (p : α → Bool) (x : α) (l : List α) :
    lastWith p (x :: l) = match lastWith p l with
      | some y => some y
      | none => if p x then some x else none := rfl

theorem lastWith_keys (P : Str → Bool) (o : Obj) :
    (lastWith (fun kv : Str × Value => P kv.1) o).map Prod.fst = lastWith P (Obj.keys o) := by
  induction o with
  | nil => rfl
  | cons kv o ih =>
    obtain ⟨k0, v0⟩ := kv
    rw [Obj.keys_cons, lastWith_cons, lastWith_cons, ← ih]
    cases lastWith (fun kv : Str × Value => P kv.1) o with
    | some y => rfl
    | none =>
      by_cases hp : P k0 = true
      · simp [hp]
      · simp [hp]

theorem lastWith_snd_eq_bind (P : Str → Bool) (o : Obj) (hnd : (Obj.keys o).Nodup) :
    (lastWith (fun kv : Str × Value => P kv.1) o).map Prod.snd =
      (lastWith P (Obj.keys o)).bind (fun K => Obj.get K o) := by
  induction o with
  | nil => rfl
  | cons kv o ih =>
    obtain ⟨k0, v0⟩ := kv
    rw [Obj.keys_cons, List.nodup_cons] at hnd
    have ih' := ih hnd.2
    have hk := lastWith_keys P o
    rw [Obj.keys_cons, lastWith_cons, lastWith_cons]
    cases hl : lastWith (fun kv : Str × Value => P kv.1) o with
    | some y =>
      rw [hl] at hk ih'
      simp only [Option.map_some'] at hk ih'
      rw [← hk]
      simp only [Option.map_some', Option.some_bind]
      have hy : y.1 ∈ Obj.keys o := List.mem_map_of_mem Prod.fst (lastWith_mem _ _ _ hl).1
      have hne : ¬ y.1 = k0 := fun e => hnd.1 (e ▸ hy)
      rw [Obj.get_cons, if_neg hne, ih', ← hk]
      rfl
    | none =>
      rw [hl] at hk
      simp only [Option.map_none'] at hk
      rw [← hk]
      by_cases hp : P k0 = true
      · simp [hp, Obj.get_cons]
      · simp [hp]

theorem lastKey_insertIndex (P : Str → Bool) (n : Nat) (k : Str) (v : Value) (o : Obj)
    (hP : P k = false) :
    lastWith P (Obj.keys (Obj.insertIndex n k v o)) = lastWith P (Obj.keys o) := by
  induction o with
  | nil => simp [Obj.insertIndex, Obj.keys, lastWith, hP]
  | cons kv o ih =>
    obtain ⟨k0, v0⟩ := kv
    unfold Obj.insertIndex
    have hnew : lastWith P (Obj.keys ((k, v) :: (k0, v0) :: o)) =
        lastWith P (Obj.keys ((k0, v0) :: o)) := by
      rw [Obj.keys_cons, lastWith_cons]
      cases lastWith P (Obj.keys ((k0, v0) :: o)) <;> simp [hP]
    cases arrayIndex? k0 with
    | none => exact hnew
    | some m =>
      by_cases hm : m < n
      · simp only [hm, if_true]
        rw [Obj.keys_cons, Obj.keys_cons, lastWith_cons, lastWith_cons, ih]
      · simp only [hm, if_false]
        exact hnew

theorem lastKey_define_of_has (P : Str → Bool) (k : Str) (v : Value) (o : Obj)
    (h : Obj.has k o = true) :
    lastWith P (Obj.keys (Obj.define k v o)) = lastWith P (Obj.keys o) := by
  unfold Obj.define
  rw [if_pos h, Obj.keys_replace]

theorem lastKey_define_of_not (P : Str → Bool) (k : Str) (v : Value) (o : Obj)
    (hP : P k = false) :
    lastWith P (Obj.keys (Obj.define k v o)) = lastWith P (Obj.keys o) := by
  by_cases h : Obj.has k o = true
  · exact lastKey_define_of_has P k v o h
  · unfold Obj.define
    rw [if_neg h]
    cases arrayIndex? k with
    | some n => exact lastKey_insertIndex P n k v o hP
    | none =>
      show lastWith P (Obj.keys (o ++ [(k, v)])) = _
      have : Obj.keys (o ++ [(k, v)]) = Obj.keys o ++ [k] := by simp [Obj.keys]
      rw [this, lastWith_append_single, hP]
      simp

theorem lastKey_define_new (P : Str → Bool) (k : Str) (v : Value) (o : Obj)
    (h : Obj.has k o = false) (hP : P k = true) (hidx : arrayIndex? k = none) :
    lastWith P (Obj.keys (Obj.define k v o)) = some k := by
  unfold Obj.define
  rw [h, hidx]
  show lastWith P (Obj.keys (o ++ [(k, v)])) = _
  have : Obj.keys (o ++ [(k, v)]) = Obj.keys o ++ [k] := by simp [Obj.keys]
  rw [this, lastWith_append_single, hP]
  simp

theorem Obj.set_eq_define (k : Str) (v : Value) (o : Obj)
    (h : k ≠ "__proto__".toList ∨ Obj.has k o = true) : Obj.set k v o = Obj.define k v o := by
  unfold Obj.set
  rw [if_neg]
  rintro ⟨h1, h2⟩
  rcases h with h | h
  · exact h h1
  · rw [h] at h2; cases h2

theorem Obj.has_define_of_has (K k : Str) (v : Value) (o : Obj) (h : Obj.has K o = true) :
    Obj.has K (Obj.define k v o) = true :=
  (Obj.has_iff_mem_keys _ _).2 ((Obj.mem_keys_define K k v o).2
    (Or.inr ((Obj.has_iff_mem_keys _ _).1 h)))

theorem Obj.has_set_of_has (K k : Str) (v : Value) (o : Obj) (h : Obj.has K o = true) :
    Obj.has K (Obj.set k v o) = true := by
  unfold Obj.set
  split
  · exact h
  · exact Obj.has_define_of_has K k v o h

theorem lastKey_set_of_has_or_not (P : Str → Bool) (k : Str) (v : Value) (o : Obj)
    (h : P k = true → Obj.has k o = true) :
    lastWith P (Obj.keys (Obj.set k v o)) = lastWith P (Obj.keys o) := by
  unfold Obj.set
  split
  · rfl
  · by_cases hP : P k = true
    · exact lastKey_define_of_has P k v o (h hP)
    · exact lastKey_define_of_not P k v o (by simpa using hP)

theorem lastKey_foldl_define {α : Type} (P : Str → Bool) (kf : α → Str) (vf : α → Value)
    (l : List α) (o : Obj) (h : ∀ x ∈ l, P (kf x) = true → Obj.has (kf x) o = true) :
    lastWith P (Obj.keys (l.foldl (fun acc x => Obj.define (kf x) (vf x) acc) o)) =
      lastWith P (Obj.keys o) := by
  induction l generalizing o with
  | nil => rfl
  | cons y l ih =>
    rw [List.foldl_cons, ih]
    · by_cases hP : P (kf y) = true
      · exact lastKey_define_of_has P _ _ o (h y (List.mem_cons_self _ _) hP)
      · exact lastKey_define_of_not P _ _ o (by simpa using hP)
    · intro x hx hPx
      exact Obj.has_define_of_has _ _ _ _ (h x (List.mem_cons_of_mem _ hx) hPx)

theorem lastKey_foldl_set {α : Type} (P : Str → Bool) (kf : α → Str) (vf : α → Value)
    (l : List α) (o : Obj) (h : ∀ x ∈ l, P (kf x) = true → Obj.has (kf x) o = true) :
    lastWith P (Obj.keys (l.foldl (fun acc x => Obj.set (kf x) (vf x) acc) o)) =
      lastWith P (Obj.keys o) := by
  induction l generalizing o with
  | nil => rfl
  | cons y l ih =>
    rw [List.foldl_cons, ih]
    · exact lastKey_set_of_has_or_not P _ _ o (h y (List.mem_cons_self _ _))
    · intro x hx hPx
      exact Obj.has_set_of_has _ _ _ _ (h x (List.mem_cons_of_mem _ hx) hPx)

theorem Obj.has_foldl_define_of_has {α : Type} (K : Str) (kf : α → Str) (vf : α → Value)
    (l : List α) (o : Obj) (h : Obj.has K o = true) :
    Obj.has K (l.foldl (fun acc x => Obj.define (kf x) (vf x) acc) o) = true := by
  induction l generalizing o with
  | nil => exact h
  | cons y l ih => exact ih _ (Obj.has_define_of_has _ _ _ _ h)

theorem Obj.has_foldl_set_of_has {α : Type} (K : Str) (kf : α → Str) (vf : α → Value)
    (l : List α) (o : Obj) (h : Obj.has K o = true) :
    Obj.has K (l.foldl (fun acc x => Obj.set (kf x) (vf x) acc) o) = true := by
  induction l generalizing o with
  | nil => exact h
  | cons y l ih => exact ih _ (Obj.has_set_of_has _ _ _ _ h)

/-- The value of the record at `k`: that of the last key of `data` that
lower-cases to `k`. -/
theorem get_lowerCaseProps_lastKey (E : Env) (k : Str) (hk : k ≠ "__proto__".toList)
    (data : Obj) (hnd : (Obj.keys data).Nodup) :
    Obj.get k (lowerCaseProps E data) =
      (lastWith (fun K => decide (toLowerCase E K = k)) (Obj.keys data)).bind
        (fun K => Obj.get K data) := by
  rw [get_lowerCaseProps E k hk]
  exact lastWith_snd_eq_bind (fun K => decide (toLowerCase E K = k)) data hnd

/-! ## C2: a front-matter key and a section key that collide -/

theorem exists_first {α : Type} (p : α → Bool) (l : List α) (h : ∃ x ∈ l, p x = true) :
    ∃ l1 x l2, l = l1 ++ x :: l2 ∧ p x = true ∧ ∀ y ∈ l1, p y = false := by
  induction l with
  | nil => obtain ⟨x, hx, _⟩ := h; cases hx
  | cons a l ih =>
    by_cases ha : p a = true
    · exact ⟨[], a, l, rfl, ha, by simp⟩
    · obtain ⟨x, hx, hpx⟩ := h
      rcases List.mem_cons.1 hx with e | hm
      · subst e; exact absurd hpx ha
      · obtain ⟨l1, y, l2, hl, hy, hl1⟩ := ih ⟨x, hm, hpx⟩
        refine ⟨a :: l1, y, l2, by rw [hl]; rfl, hy, ?_⟩
        intro z hz
        rcases List.mem_cons.1 hz with e | hm'
        · subst e; simpa using ha
        · exact hl1 z hm'

theorem Obj.get_eq_some_split (K : Str) (v : Value) (o : Obj) (h : Obj.get K o = some v) :
    ∃ o1 o2, o = o1 ++ (K, v) :: o2 ∧ K ∉ Obj.keys o1 := by
  induction o with
  | nil => cases h
  | cons kv o ih =>
    obtain ⟨k0, v0⟩ := kv
    rw [Obj.get_cons] at h
    by_cases hk : K = k0
    · rw [if_pos hk] at h
      cases h
      subst hk
      exact ⟨[], o, rfl, by simp [Obj.keys]⟩
    · rw [if_neg hk] at h
      obtain ⟨o1, o2, ho, hn⟩ := ih h
      refine ⟨(k0, v0) :: o1, o2, by rw [ho]; rfl, ?_⟩
      rw [Obj.keys_cons]
      intro hm
      rcases List.mem_cons.1 hm with e | hm'
      · exact hk e
      · exact hn hm'

theorem toLowerCase_proto (E : Env) : toLowerCase E "__proto__".toList = "__proto__".toList := rfl

/-- The object after the spread of the front matter, when exactly one
front-matter key `K` lower-cases to `k` and `K` is not `k`: `K` is its last
key lower-casing to `k`. -/
theorem spread_lastKey (E : Env) (k K : Str) (v : Value) (frontMatter : Obj) (t : Value)
    (hnd : (Obj.keys frontMatter).Nodup) (hK : Obj.get K frontMatter = some v)
    (hKk : toLowerCase E K = k) (hne : K ≠ k) (hlow : toLowerCase E k = k)
    (huniq : ∀ K' ∈ Obj.keys frontMatter, toLowerCase E K' = k → K' = K)
    (hidx : arrayIndex? K = none) :
    lastWith (fun K' => decide (toLowerCase E K' = k))
        (Obj.keys (Obj.spread (Obj.define "title".toList t []) frontMatter)) = some K ∧
      Obj.get K (Obj.spread (Obj.define "title".toList t []) frontMatter) = some v ∧
      (k ≠ "title".toList →
        Obj.has k (Obj.spread (Obj.define "title".toList t []) frontMatter) = false) ∧
      Obj.has "title".toList (Obj.spread (Obj.define "title".toList t []) frontMatter) = true := by
  have hKt : K ≠ "title".toList := by
    intro e
    rw [e, toLowerCase_title] at hKk
    exact hne (e.trans hKk)
  have hkfm : k ∉ Obj.keys frontMatter := fun hm => hne (huniq k hm hlow).symm
  obtain ⟨fm1, fm2, hsplit, hK1⟩ := Obj.get_eq_some_split K v frontMatter hK
  have hkeys : Obj.keys frontMatter = Obj.keys fm1 ++ K :: Obj.keys fm2 := by
    rw [hsplit]; simp [Obj.keys]
  have hK2 : K ∉ Obj.keys fm2 := by
    rw [hkeys] at hnd
    have := (List.nodup_append.1 hnd).2.1
    exact (List.nodup_cons.1 this).1
  have hP1 : ∀ x ∈ fm1, decide (toLowerCase E x.1 = k) = true →
      Obj.has x.1 (Obj.define "title".toList t []) = true := by
    intro x hx hp
    have hxk : x.1 ∈ Obj.keys frontMatter := by
      rw [hkeys]; exact List.mem_append_left _ (List.mem_map_of_mem Prod.fst hx)
    have := huniq x.1 hxk (by simpa using hp)
    exact absurd (this ▸ List.mem_map_of_mem Prod.fst hx) hK1
  have hhasT : Obj.has "title".toList (Obj.define "title".toList t []) = true :=
    (Obj.has_iff_mem_keys _ _).2 ((Obj.mem_keys_define _ _ _ _).2 (Or.inl rfl))
  have hnoK : Obj.has K (fm1.foldl (fun acc x => Obj.define x.1 x.2 acc)
      (Obj.define "title".toList t [])) = false := by
    rw [Bool.eq_false_iff]
    intro hh
    rcases Obj.mem_keys_foldl_define Prod.fst Prod.snd K fm1 _
      ((Obj.has_iff_mem_keys _ _).1 hh) with h | ⟨x, hx, hxK⟩
    · rcases (Obj.mem_keys_define _ _ _ _).1 h with h | h
      · exact hKt h
      · simp [Obj.keys] at h
    · exact hK1 (hxK ▸ List.mem_map_of_mem Prod.fst hx)
  have hspread : Obj.spread (Obj.define "title".toList t []) frontMatter =
      fm2.foldl (fun acc x => Obj.define x.1 x.2 acc)
        (Obj.define K v (fm1.foldl (fun acc x => Obj.define x.1 x.2 acc)
          (Obj.define "title".toList t []))) := by
    unfold Obj.spread
    rw [hsplit, List.foldl_append, List.foldl_cons]
  refine ⟨?_, ?_, ?_, ?_⟩
  · rw [hspread, lastKey_foldl_define (fun K' => decide (toLowerCase E K' = k)) Prod.fst Prod.snd]
    · exact lastKey_define_new _ K v _ hnoK (by simpa using hKk) hidx
    · intro x hx hp
      have hxk : x.1 ∈ Obj.keys frontMatter := by
        rw [hkeys]
        exact List.mem_append_right _ (List.mem_cons_of_mem _ (List.mem_map_of_mem Prod.fst hx))
      have := huniq x.1 hxk (by simpa using hp)
      exact absurd (this ▸ List.mem_map_of_mem Prod.fst hx) hK2
  · rw [Obj.get_spread]
    have h1 := Obj.lastWith_key_eq_get K frontMatter hnd
    rw [hK] at h1
    cases hl : lastWith (fun kv : Str × Value => decide (kv.1 = K)) frontMatter with
    | none => rw [hl] at h1; cases h1
    | some kv =>
      rw [hl] at h1
      simp only [Option.map_some', Option.some.injEq] at h1
      simp only [Option.elim_some, h1]
  · intro hkt
    rw [Bool.eq_false_iff]
    intro hh
    unfold Obj.spread at hh
    rcases Obj.mem_keys_foldl_define Prod.fst Prod.snd k frontMatter _
      ((Obj.has_iff_mem_keys _ _).1 hh) with h | ⟨x, hx, hxk⟩
    · rcases (Obj.mem_keys_define _ _ _ _).1 h with h | h
      · exact hkt h
      · simp [Obj.keys] at h
    · exact hkfm (hxk ▸ List.mem_map_of_mem Prod.fst hx)
  · unfold Obj.spread
    exact Obj.has_foldl_define_of_has _ Prod.fst Prod.snd _ _ hhasT

/-- The last key of `data` lower-casing to `k`, when exactly one front-matter
key `K` lower-cases to `k`, `K` is not `k`, and some section has the key
`k`: it is `K` when `k` is `title`, which `data` holds before the front
matter is spread, and `k` otherwise. -/
theorem dataOf_lastKey (E : Env) (k K : Str) (v : Value) (frontMatter : Obj) (body : Str)
    (hnd : (Obj.keys frontMatter).Nodup) (hK : Obj.get K frontMatter = some v)
    (hKk : toLowerCase E K = k) (hne : K ≠ k) (hlow : toLowerCase E k = k)
    (hkey : k ≠ "__proto__".toList)
    (huniq : ∀ K' ∈ Obj.keys frontMatter, toLowerCase E K' = k → K' = K)
    (hsec : ∃ m ∈ sectionMatches body, sectionKey E m.1 = k)
    (honlySec : ∀ m ∈ sectionMatches body, toLowerCase E (sectionKey E m.1) = k →
      sectionKey E m.1 = k)
    (hidxk : arrayIndex? k = none) (hidxK : arrayIndex? K = none) :
    lastWith (fun K' => decide (toLowerCase E K' = k)) (Obj.keys (dataOf E frontMatter body)) =
      if k = "title".toList then some K else some k := by
  obtain ⟨hS, -, hnok, hhasT⟩ := spread_lastKey E k K v frontMatter (.str (titleOf body))
    hnd hK hKk hne hlow huniq hidxK
  have hPsec : ∀ m ∈ sectionMatches body,
      decide (toLowerCase E (sectionKey E m.1) = k) = true → sectionKey E m.1 = k := by
    intro m hm hp
    exact honlySec m hm (by simpa using hp)
  unfold dataOf addSections initialData
  by_cases hkt : k = "title".toList
  · rw [if_pos hkt]
    rw [lastKey_foldl_set (fun K' => decide (toLowerCase E K' = k))
      (fun m : Str × Str => sectionKey E m.1) (fun m : Str × Str => Value.str (trim m.2))]
    · rw [lastKey_define_of_not _ _ _ _ (by rw [toLowerCase_markdown, hkt]; decide)]
      exact hS
    · intro m hm hp
      rw [hPsec m hm hp, hkt]
      exact Obj.has_define_of_has _ _ _ _ hhasT
  · rw [if_neg hkt]
    by_cases hkm : k = "markdown".toList
    · rw [lastKey_foldl_set (fun K' => decide (toLowerCase E K' = k))
        (fun m : Str × Str => sectionKey E m.1) (fun m : Str × Str => Value.str (trim m.2))]
      · rw [← hkm]
        exact lastKey_define_new _ k _ _ (hnok hkt) (by simpa using hlow) hidxk
      · intro m hm hp
        rw [hPsec m hm hp, hkm]
        exact (Obj.has_iff_mem_keys _ _).2 ((Obj.mem_keys_define _ _ _ _).2 (Or.inl rfl))
    · obtain ⟨ms1, m, ms2, hms, hmk, hms1⟩ :=
        exists_first (fun m : Str × Str => decide (sectionKey E m.1 = k)) (sectionMatches body)
          (by obtain ⟨m, hm, hmk⟩ := hsec; exact ⟨m, hm, by simpa using hmk⟩)
      have hmk' : sectionKey E m.1 = k := by simpa using hmk
      have hmem1 : ∀ x ∈ ms1, x ∈ sectionMatches body := by
        intro x hx; rw [hms]; exact List.mem_append_left _ hx
      have hmem2 : ∀ x ∈ ms2, x ∈ sectionMatches body := by
        intro x hx; rw [hms]; exact List.mem_append_right _ (List.mem_cons_of_mem _ hx)
      have hnokM : Obj.has k (Obj.define "markdown".toList (.str (removeFirstLine body))
          (Obj.spread (Obj.define "title".toList (.str (titleOf body)) []) frontMatter)) =
          false := by
        rw [Bool.eq_false_iff]
        intro hh
        rcases (Obj.mem_keys_define _ _ _ _).1 ((Obj.has_iff_mem_keys _ _).1 hh) with h | h
        · exact hkm h
        · have := hnok hkt
          rw [(Obj.has_iff_mem_keys _ _).2 h] at this
          cases this
      have hnok1 : Obj.has k (ms1.foldl
          (fun acc (x : Str × Str) => Obj.set (sectionKey E x.1) (Value.str (trim x.2)) acc)
          (Obj.define "markdown".toList (.str (removeFirstLine body))
            (Obj.spread (Obj.define "title".toList (.str (titleOf body)) []) frontMatter))) =
          false := by
        rw [Bool.eq_false_iff]
        intro hh
        rcases Obj.mem_keys_foldl_set (fun m : Str × Str => sectionKey E m.1)
          (fun m : Str × Str => Value.str (trim m.2)) k ms1 _
          ((Obj.has_iff_mem_keys _ _).1 hh) with h | ⟨x, hx, hxk⟩
        · rw [(Obj.has_iff_mem_keys _ _).2 h] at hnokM
          cases hnokM
        · have := hms1 x hx
          simp [hxk] at this
      rw [hms, List.foldl_append, List.foldl_cons]
      rw [lastKey_foldl_set (fun K' => decide (toLowerCase E K' = k))
        (fun m : Str × Str => sectionKey E m.1) (fun m : Str × Str => Value.str (trim m.2))]
      · rw [Obj.set_eq_define _ _ _ (Or.inl (hmk'.symm ▸ hkey)), hmk']
        exact lastKey_define_new _ k _ _ hnok1 (by simpa using hlow) hidxk
      · intro x hx hp
        rw [hPsec x (hmem2 x hx) hp]
        apply (Obj.has_iff_mem_keys _ _).2
        rw [Obj.set_eq_define _ _ _ (Or.inl (hmk'.symm ▸ hkey)), hmk']
        exact (Obj.mem_keys_define _ _ _ _).2 (Or.inl rfl)

/-- C2 (amended): when exactly one front-matter key `K` lower-cases to the
key `k` of a section, the record maps `k` to the section's body text, except
when `k` is `title` and `K` is spelled otherwise (such as `Title`): then the
record's `title` is the front-matter value. -/
theorem C2_collision (E : Env) (markdown : Str) (r : FrontMatterResult) (frontMatter : Obj)
    (k K : Str) (v : Value) (b : Str)
    (hfm : extractYAMLFrontMatter E markdown = .ok r)
    (htags : filterFrontMatterTags r.attributes = .ok frontMatter)
    (hnd : (Obj.keys frontMatter).Nodup) (hK : Obj.get K frontMatter = some v)
    (hKk : toLowerCase E K = k)
    (huniq : ∀ K' ∈ Obj.keys frontMatter, toLowerCase E K' = k → K' = K)
    (hsec : ∃ m ∈ sectionMatches r.body, sectionKey E m.1 = k)
    (hsame : ∀ m ∈ sectionMatches r.body, sectionKey E m.1 = k → trim m.2 = b)
    (honlySec : ∀ m ∈ sectionMatches r.body, toLowerCase E (sectionKey E m.1) = k →
      sectionKey E m.1 = k)
    (hkey : k ≠ "__proto__".toList) (hlow : toLowerCase E k = k)
    (hidx : K ≠ k → arrayIndex? k = none ∧ arrayIndex? K = none) :
    ∃ record, extractMarkdownData E markdown = .ok record ∧
      Obj.get k record =
        if k = "title".toList ∧ K ≠ "title".toList then some v else some (.str b) := by
  refine ⟨_, extractMarkdownData_eq E markdown r frontMatter hfm htags, ?_⟩
  by_cases hne : K = k
  · subst hne
    have : ¬ (K = "title".toList ∧ K ≠ "title".toList) := fun h => h.2 h.1
    rw [if_neg this]
    exact get_section_field E frontMatter r.body K b hsec hkey hlow hsame huniq honlySec
  · obtain ⟨hidxk, hidxK⟩ := hidx hne
    have hKproto : K ≠ "__proto__".toList := by
      intro e
      rw [e, toLowerCase_proto] at hKk
      exact hkey hKk.symm
    have hKt : K ≠ "title".toList := by
      intro e
      rw [e, toLowerCase_title] at hKk
      exact hne (e.trans hKk)
    have hKm : K ≠ "markdown".toList := by
      intro e
      rw [e, toLowerCase_markdown] at hKk
      exact hne (e.trans hKk)
    rw [get_lowerCaseProps_lastKey E k hkey _ (nodup_keys_dataOf E frontMatter r.body),
      dataOf_lastKey E k K v frontMatter r.body hnd hK hKk hne hlow hkey huniq hsec honlySec
        hidxk hidxK]
    by_cases hkt : k = "title".toList
    · rw [if_pos hkt, if_pos ⟨hkt, hKt⟩]
      simp only [Option.some_bind]
      unfold dataOf
      rw [get_addSections E K hKproto, lastWith_eq_none, Option.elim_none, get_initialData,
        if_neg hKm]
      · have h1 := Obj.lastWith_key_eq_get K frontMatter hnd
        rw [hK] at h1
        cases hl : lastWith (fun kv : Str × Value => decide (kv.1 = K)) frontMatter with
        | none => rw [hl] at h1; cases h1
        | some kv =>
          rw [hl] at h1
          simp only [Option.map_some', Option.some.injEq] at h1
          simp only [Option.elim_some, h1]
      · intro m hm
        have : ¬ sectionKey E m.1 = K := by
          intro e
          have h2 : toLowerCase E (sectionKey E m.1) = k := by rw [e, hKk]
          exact hne (e.symm.trans (honlySec m hm h2))
        simpa using this
    · have : ¬ (k = "title".toList ∧ K ≠ "title".toList) := fun h => hkt h.1
      rw [if_neg hkt, if_neg this]
      simp only [Option.some_bind]
      unfold dataOf
      rw [get_addSections E k hkey]
      obtain ⟨m, hm, hmk⟩ := hsec
      obtain ⟨y, hy⟩ := lastWith_isSome (fun m : Str × Str => decide (sectionKey E m.1 = k))
        (sectionMatches r.body) m hm (by simpa using hmk)
      rw [hy]
      have hy' := lastWith_mem _ _ _ hy
      have hyk : sectionKey E y.1 = k := by simpa using hy'.2
      simp only [Option.elim_some]
      rw [hsame y hy'.1 hyk]

/-- C2 (counterexample): with the front matter `Title: "A"` and the section
`## Title` of body `foo`, the record's `title` is `A`, the front-matter
value, not the section's text. -/
theorem C2_counterexample :
    sectionMatches "## Title\nfoo\n".toList = [("Title".toList, "foo\n".toList)] ∧
    extractMarkdownData envTitleCollision docTitleCollision =
      .ok [("title".toList, .str "A".toList),
        ("markdown".toList, .str "## Title\nfoo\n".toList)] :=
  ⟨by decide, rfl⟩

/-- C2 (witness): with the front matter `Example: "x"` and the section
`## Example` of body `Bar.`, the record's `example` is `Bar.`. -/
theorem C2_collision_witness :
    ∃ record, extractMarkdownData envExampleCollision docExampleCollision = .ok record ∧
      Obj.get "example".toList record = some (.str "Bar.".toList) :=
  C2_collision envExampleCollision docExampleCollision
    ⟨[("Example".toList, .str "x".toList)], "## Example\nBar.\n".toList⟩
    [("Example".toList, .str "x".toList)] "example".toList "Example".toList
    (.str "x".toList) "Bar.".toList rfl rfl (by decide) rfl rfl (by decide) (by decide)
    (by decide) (by decide) (by decide) rfl (fun _ => ⟨rfl, rfl⟩)

/-! ## Front-matter fields of the record, and processFile -/

theorem asciiLowerChar_ne_U (c : Char) : asciiLowerChar c ≠ 'U' := by
  unfold asciiLowerChar
  by_cases h : 'A'.toNat ≤ c.toNat ∧ c.toNat ≤ 'Z'.toNat
  · rw [if_pos h]
    intro e
    have hA : 'A'.toNat = 65 := rfl
    have hZ : 'Z'.toNat = 90 := rfl
    rw [hA, hZ] at h
    obtain ⟨h1, h2⟩ := h
    generalize c.toNat = n at e h1 h2
    interval_cases n <;> exact absurd e (by decide)
  · rw [if_neg h]
    intro e
    subst e
    exact h (by decide)

theorem asciiLower_ne_srcUrl (s : Str) : asciiLower s ≠ "srcUrl".toList := by
  intro e
  have hm : 'U' ∈ asciiLower s := by rw [e]; decide
  unfold asciiLower at hm
  obtain ⟨c, -, hc⟩ := List.mem_map.1 hm
  exact asciiLowerChar_ne_U c hc

theorem toLowerCase_ne_srcUrl (E : Env)
    (hlower : ∀ s, isAscii s = false → E.unicodeLower s ≠ "srcUrl".toList) (s : Str) :
    toLowerCase E s ≠ "srcUrl".toList := by
  unfold toLowerCase
  by_cases h : isAscii s = true
  · rw [if_pos h]; exact asciiLower_ne_srcUrl s
  · rw [if_neg h]; exact hlower s (by simpa using h)

theorem nodup_keys_lowerCaseProps (E : Env) (data : Obj) :
    (Obj.keys (lowerCaseProps E data)).Nodup := by
  unfold lowerCaseProps
  exact Obj.nodup_keys_foldl_set (fun kv : Str × Value => toLowerCase E kv.1) Prod.snd data []
    List.nodup_nil

theorem mem_keys_lowerCaseProps (E : Env) (data : Obj) (K : Str)
    (h : K ∈ Obj.keys (lowerCaseProps E data)) : ∃ K0, K = toLowerCase E K0 := by
  unfold lowerCaseProps at h
  rcases Obj.mem_keys_foldl_set (fun kv : Str × Value => toLowerCase E kv.1) Prod.snd K data []
    h with h | ⟨x, -, hx⟩
  · simp [Obj.keys] at h
  · exact ⟨x.1, hx.symm⟩

/-- The value of a front-matter field `k` in the record, when no other
front-matter key lower-cases to `k` and no section does. -/
theorem get_frontMatter_field (E : Env) (frontMatter : Obj) (body : Str) (k : Str) (v : Value)
    (hk : Obj.get k frontMatter = some v) (hnd : (Obj.keys frontMatter).Nodup)
    (hkey : k ≠ "__proto__".toList) (hkm : k ≠ "markdown".toList)
    (hlow : toLowerCase E k = k)
    (honlyFm : ∀ K ∈ Obj.keys frontMatter, toLowerCase E K = k → K = k)
    (hnosec : ∀ m ∈ sectionMatches body, toLowerCase E (sectionKey E m.1) ≠ k) :
    Obj.get k (lowerCaseProps E (dataOf E frontMatter body)) = some v := by
  have hnosec' : ∀ m ∈ sectionMatches body, sectionKey E m.1 ≠ k := by
    intro m hm e
    exact hnosec m hm (by rw [e, hlow])
  rw [get_lowerCaseProps_of_only E k hkey hlow _ (nodup_keys_dataOf E frontMatter body)]
  · unfold dataOf
    rw [get_addSections E k hkey, lastWith_eq_none, Option.elim_none, get_initialData,
      if_neg hkm]
    · have h1 := Obj.lastWith_key_eq_get k frontMatter hnd
      rw [hk] at h1
      cases hl : lastWith (fun kv : Str × Value => decide (kv.1 = k)) frontMatter with
      | none => rw [hl] at h1; cases h1
      | some kv =>
        rw [hl] at h1
        simp only [Option.map_some', Option.some.injEq] at h1
        simp only [Option.elim_some, h1]
    · intro m hm
      simpa using hnosec' m hm
  · intro K hK hKk
    rcases mem_keys_dataOf E K frontMatter body hK with h | h | h | ⟨m, hm, hmK⟩
    · rw [h, toLowerCase_title] at hKk; rw [h, hKk]
    · rw [h, toLowerCase_markdown] at hKk; rw [h, hKk]
    · exact honlyFm K h hKk
    · rw [← hmK] at hKk
      exact absurd hKk (hnosec m hm)

/-- Lookup in the record of processFile: what `data` (with its slug) has, and
otherwise the computed `url` and `srcUrl`. -/
theorem get_finishRecord (filePath relativePath : Str) (data : Obj) (k : Str)
    (hnd : (Obj.keys data).Nodup) :
    Obj.get k (finishRecord filePath relativePath data) =
      (Obj.get k (Obj.set "slug".toList (.str (slugOf filePath)) data)).elim
        (Obj.get k [("url".toList, .str (urlOf relativePath)),
          ("srcUrl".toList, .str (srcUrlOf relativePath))])
        some := by
  unfold finishRecord
  rw [Obj.get_spread, ← Obj.lastWith_key_eq_get k _ (Obj.nodup_keys_set _ _ _ hnd)]
  cases lastWith (fun kv : Str × Value => decide (kv.1 = k))
    (Obj.set "slug".toList (.str (slugOf filePath)) data) <;> rfl

theorem processFile_eq (E : Env) (file raw markdown : Str) (data : Obj)
    (hread : E.readFile (pathResolve E.cwd file) = .ok raw)
    (hlinks : rewriteLinks E (baseUrlOf (pathRelative E.cwd "../".toList file)) raw =
      .ok markdown)
    (hdata : extractMarkdownData E markdown = .ok data) :
    processFile E file = .ok (finishRecord (pathResolve E.cwd file)
      (pathRelative E.cwd "../".toList file) data) := by
  unfold processFile
  simp only [hread, hlinks, hdata]

theorem processFile_ok_imp (E : Env) (file : Str) (record : Obj)
    (h : processFile E file = .ok record) :
    ∃ raw markdown data, E.readFile (pathResolve E.cwd file) = .ok raw ∧
      rewriteLinks E (baseUrlOf (pathRelative E.cwd "../".toList file)) raw = .ok markdown ∧
      extractMarkdownData E markdown = .ok data ∧
      record = finishRecord (pathResolve E.cwd file) (pathRelative E.cwd "../".toList file)
        data := by
  unfold processFile at h
  simp only [] at h
  cases h1 : E.readFile (pathResolve E.cwd file) with
  | error e => rw [h1] at h; cases h
  | ok raw =>
    rw [h1] at h
    simp only [] at h
    cases h2 : rewriteLinks E (baseUrlOf (pathRelative E.cwd "../".toList file)) raw with
    | error e => rw [h2] at h; cases h
    | ok markdown =>
      rw [h2] at h
      simp only [] at h
      cases h3 : extractMarkdownData E markdown with
      | error e => rw [h3] at h; cases h
      | ok data =>
        rw [h3] at h
        exact ⟨raw, markdown, data, rfl, h2, h3, (Except.ok.inj h).symm⟩

/-! ## C3: computed fields and same-named front-matter fields -/

/-- C3 (amended): in the record of processFile, `slug` and `srcUrl` are the
computed values whatever the front matter holds, whereas a front-matter
field `title` or `url` takes precedence over the computed title and url
(no other front-matter key and no section lower-casing to that name). -/
theorem C3_precedence (E : Env) (file raw markdown : Str) (r : FrontMatterResult)
    (frontMatter : Obj)
    (hread : E.readFile (pathResolve E.cwd file) = .ok raw)
    (hlinks : rewriteLinks E (baseUrlOf (pathRelative E.cwd "../".toList file)) raw =
      .ok markdown)
    (hfm : extractYAMLFrontMatter E markdown = .ok r)
    (htags : filterFrontMatterTags r.attributes = .ok frontMatter)
    (hlower : ∀ s, isAscii s = false → E.unicodeLower s ≠ "srcUrl".toList) :
    ∃ record, processFile E file = .ok record ∧
      Obj.get "slug".toList record = some (.str (slugOf (pathResolve E.cwd file))) ∧
      Obj.get "srcUrl".toList record =
        some (.str (srcUrlOf (pathRelative E.cwd "../".toList file))) ∧
      ∀ k v, k = "title".toList ∨ k = "url".toList →
        Obj.get k frontMatter = some v → (Obj.keys frontMatter).Nodup →
        (∀ K ∈ Obj.keys frontMatter, toLowerCase E K = k → K = k) →
        (∀ m ∈ sectionMatches r.body, toLowerCase E (sectionKey E m.1) ≠ k) →
        Obj.get k record = some v := by
  have hdata := extractMarkdownData_eq E markdown r frontMatter hfm htags
  have hnd := nodup_keys_lowerCaseProps E (dataOf E frontMatter r.body)
  refine ⟨_, processFile_eq E file raw markdown _ hread hlinks hdata, ?_, ?_, ?_⟩
  · rw [get_finishRecord _ _ _ _ hnd, Obj.get_set _ _ _ _ (by decide), if_pos rfl]
    rfl
  · rw [get_finishRecord _ _ _ _ hnd, Obj.get_set _ _ _ _ (by decide),
      if_neg (by decide)]
    have hnone : Obj.get "srcUrl".toList (lowerCaseProps E (dataOf E frontMatter r.body)) =
        none := by
      cases hg : Obj.get "srcUrl".toList (lowerCaseProps E (dataOf E frontMatter r.body)) with
      | none => rfl
      | some w =>
        have hh : Obj.has "srcUrl".toList (lowerCaseProps E (dataOf E frontMatter r.body)) =
            true := by
          unfold Obj.has; rw [hg]; rfl
        obtain ⟨K0, hK0⟩ := mem_keys_lowerCaseProps E _ _ ((Obj.has_iff_mem_keys _ _).1 hh)
        exact absurd hK0.symm (toLowerCase_ne_srcUrl E hlower K0)
    rw [hnone]
    rfl
  · intro k v hk hget hndfm honly hnosec
    have hkey : k ≠ "__proto__".toList := by
      rcases hk with e | e <;> rw [e] <;> decide
    have hkm : k ≠ "markdown".toList := by
      rcases hk with e | e <;> rw [e] <;> decide
    have hks : ¬ k = "slug".toList := by
      rcases hk with e | e <;> rw [e] <;> decide
    have hlow : toLowerCase E k = k := by
      rcases hk with e | e <;> rw [e] <;> rfl
    rw [get_finishRecord _ _ _ _ hnd, Obj.get_set _ _ _ _ hkey, if_neg hks,
      get_frontMatter_field E frontMatter r.body k v hget hndfm hkey hkm hlow honly hnosec]
    rfl

/-- C3 (counterexample): with a front matter that has `title`, `url`, `slug`
and `srcUrl`, the record's `title` and `url` are the front-matter values `FM`
and `U`, not the computed `Heading` and `https://glossary.cncf.io/widget`. -/
theorem C3_counterexample :
    processFile envFrontFields widgetFile =
      .ok [("url".toList, .str "U".toList),
        ("srcUrl".toList,
          .str "https://github.com/cncf/glossary/blob/main/content/en/widget.md".toList),
        ("title".toList, .str "FM".toList),
        ("slug".toList, .str "widget".toList),
        ("srcurl".toList, .str "R".toList),
        ("markdown".toList, .str "# Heading\n".toList)] ∧
      titleOf "# Heading\n".toList = "Heading".toList ∧
      urlOf (pathRelative envFrontFields.cwd "../".toList widgetFile) =
        "https://glossary.cncf.io/widget".toList :=
  ⟨rfl, by decide, by decide⟩

theorem sampleEnv_unicodeLower_ne (s : Str) (h : isAscii s = false) :
    s ≠ "srcUrl".toList := by
  intro e
  rw [e] at h
  exact absurd h (by decide)

/-- C3 (witness): the document with the four front-matter fields: `slug` and
`srcUrl` are the computed values, `title` and `url` the front-matter ones. -/
theorem C3_precedence_witness :
    ∃ record, processFile envFrontFields widgetFile = .ok record ∧
      Obj.get "slug".toList record = some (.str "widget".toList) ∧
      Obj.get "srcUrl".toList record =
        some (.str "https://github.com/cncf/glossary/blob/main/content/en/widget.md".toList) ∧
      Obj.get "title".toList record = some (.str "FM".toList) ∧
      Obj.get "url".toList record = some (.str "U".toList) := by
  obtain ⟨record, h1, h2, h3, h4⟩ :=
    C3_precedence envFrontFields widgetFile docFrontFields docFrontFields
      ⟨attrsFrontFields, "# Heading\n".toList⟩ attrsFrontFields rfl rfl rfl rfl
      sampleEnv_unicodeLower_ne
  exact ⟨record, h1, h2, h3,
    h4 "title".toList _ (Or.inl rfl) rfl (by decide) (by decide) (by decide),
    h4 "url".toList _ (Or.inr rfl) rfl (by decide) (by decide) (by decide)⟩

/-! ## C4: tag filtering -/

theorem filterTags_strings (xs : List Str) :
    filterTags (xs.map Elem.str) =
      .ok ((xs.filter (fun s => decide (trim s ≠ []))).map Elem.str) := by
  induction xs with
  | nil => rfl
  | cons s xs ih =>
    rw [List.map_cons]
    unfold filterTags
    rw [ih]
    by_cases h : trim s ≠ []
    · simp [h, List.filter_cons]
    · simp [h, List.filter_cons]

theorem Obj.keys_set_of_has (k : Str) (v : Value) (o : Obj) (h : Obj.has k o = true) :
    Obj.keys (Obj.set k v o) = Obj.keys o := by
  rw [Obj.set_eq_define k v o (Or.inr h)]
  unfold Obj.define
  rw [if_pos h, Obj.keys_replace]

/-- C4 (amended): when the front matter's `tags` is a sequence of strings, no
other front-matter key lower-cases to `tags` and no section has the key
`tags`, the record's `tags` is the subsequence, in the original order, of the
strings that are not empty once trimmed. -/
theorem C4_tags (E : Env) (markdown : Str) (r : FrontMatterResult) (xs : List Str)
    (hfm : extractYAMLFrontMatter E markdown = .ok r)
    (hnd : (Obj.keys r.attributes).Nodup)
    (htags : Obj.get "tags".toList r.attributes = some (.seq (xs.map Elem.str)))
    (honly : ∀ K ∈ Obj.keys r.attributes, toLowerCase E K = "tags".toList →
      K = "tags".toList)
    (hnosec : ∀ m ∈ sectionMatches r.body,
      toLowerCase E (sectionKey E m.1) ≠ "tags".toList) :
    ∃ record, extractMarkdownData E markdown = .ok record ∧
      Obj.get "tags".toList record =
        some (.seq ((xs.filter (fun s => decide (trim s ≠ []))).map Elem.str)) := by
  have hfilter : filterFrontMatterTags r.attributes =
      .ok (Obj.set "tags".toList
        (.seq ((xs.filter (fun s => decide (trim s ≠ []))).map Elem.str)) r.attributes) := by
    unfold filterFrontMatterTags
    rw [htags]
    simp only [Value.truthy, if_true, filterTags_strings]
  have hhas : Obj.has "tags".toList r.attributes = true := by
    unfold Obj.has; rw [htags]; rfl
  refine ⟨_, extractMarkdownData_eq E markdown r _ hfm hfilter, ?_⟩
  apply get_frontMatter_field E _ r.body "tags".toList
  · rw [Obj.get_set _ _ _ _ (by decide), if_pos rfl]
  · rw [Obj.keys_set_of_has _ _ _ hhas]; exact hnd
  · decide
  · decide
  · rfl
  · rw [Obj.keys_set_of_has _ _ _ hhas]; exact honly
  · exact hnosec

/-- C4 (counterexample): with the front matter `tags: ["a"]` and a section
`## Tags`, the record's `tags` is the section's text `foo`, not the filtered
sequence. -/
theorem C4_counterexample :
    extractMarkdownData envTagsSection docTagsSection =
      .ok [("title".toList, .str []), ("tags".toList, .str "foo".toList),
        ("markdown".toList, .str "## Tags\nfoo\n".toList)] :=
  rfl

/-- C4 (witness): the tags `a`, the empty string, two spaces and `b` give
`a` and `b`. -/
theorem C4_tags_witness :
    ∃ record, extractMarkdownData envTags docTags = .ok record ∧
      Obj.get "tags".toList record = some (.seq [.str "a".toList, .str "b".toList]) :=
  C4_tags envTags docTags ⟨[("tags".toList, .seq (tagsOfDocTags.map Elem.str))], "# T\n".toList⟩
    tagsOfDocTags rfl (by decide) rfl (by decide) (by decide)

/-! ## C5: the title -/

theorem titleScan_cons (ls : Bool) (c : Char) (t : Str) :
    titleScan ls (c :: t) =
      match (if ls then titleAt (c :: t) else none) with
      | some g => some g
      | none => titleScan (isLineTerminator c) t := rfl

theorem titleAt_hash (w : Char) (t : Str) :
    titleAt ('#' :: w :: t) =
      if isWhiteSpace w then some (t.takeWhile (fun c => !isLineTerminator c)) else none := rfl

theorem titleAt_of_ne (c : Char) (t : Str) (h : c ≠ '#') : titleAt (c :: t) = none := by
  unfold titleAt
  split
  · rename_i heq
    simp only [List.cons.injEq] at heq
    exact absurd heq.1 h
  · rfl

theorem titleAt_single : titleAt ['#'] = none := rfl

/-- The line-start flag after a text. -/
theorem titleScan_skip (rest : Str) :
    ∀ (pre : Str) (ls : Bool), hasTitleStart ls pre = false →
      titleScan ls (pre ++ '#' :: rest) =
        titleScan (match pre.getLast? with
          | none => ls
          | some c => isLineTerminator c) ('#' :: rest) := by
  intro pre
  induction pre with
  | nil => intro ls _; rfl
  | cons c pre ih =>
    intro ls h
    unfold hasTitleStart at h
    rw [Bool.or_eq_false_iff] at h
    obtain ⟨h1, h2⟩ := h
    have hnone : (if ls = true then titleAt (c :: (pre ++ '#' :: rest)) else none) = none := by
      by_cases hls : ls = true
      · rw [if_pos hls]
        by_cases hc : c = '#'
        · subst hc
          cases pre with
          | nil =>
            rw [List.nil_append, titleAt_hash, if_neg (by decide)]
          | cons w p =>
            rw [List.cons_append, titleAt_hash]
            have : isWhiteSpace w = false := by simpa [hls] using h1
            rw [this]; rfl
        · exact titleAt_of_ne c _ hc
      · rw [if_neg hls]
    rw [List.cons_append, titleScan_cons, hnone]
    simp only []
    rw [ih _ h2]
    cases pre with
    | nil => rfl
    | cons d p =>
      obtain ⟨x, hx⟩ : ∃ x, (d :: p).getLast? = some x :=
        ⟨_, List.getLast?_eq_getLast _ (List.cons_ne_nil _ _)⟩
      rw [List.getLast?_cons_cons, hx]

theorem titleScan_none : ∀ (s : Str) (ls : Bool), hasTitleStart ls s = false →
    titleScan ls s = none := by
  intro s
  induction s with
  | nil => intro ls _; rfl
  | cons c s ih =>
    intro ls h
    unfold hasTitleStart at h
    rw [Bool.or_eq_false_iff] at h
    obtain ⟨h1, h2⟩ := h
    have hnone : (if ls = true then titleAt (c :: s) else none) = none := by
      by_cases hls : ls = true
      · rw [if_pos hls]
        by_cases hc : c = '#'
        · subst hc
          cases s with
          | nil => rfl
          | cons w p =>
            rw [titleAt_hash]
            have : isWhiteSpace w = false := by simpa [hls] using h1
            rw [this]; rfl
        · exact titleAt_of_ne c _ hc
      · rw [if_neg hls]
    rw [titleScan_cons, hnone]
    exact ih _ h2

theorem takeWhile_line (line rest : Str)
    (hline : ∀ c ∈ line, isLineTerminator c = false)
    (hrest : rest = [] ∨ ∃ c t, rest = c :: t ∧ isLineTerminator c = true) :
    (line ++ rest).takeWhile (fun c => !isLineTerminator c) = line := by
  induction line with
  | nil =>
    rcases hrest with e | ⟨c, t, e, hc⟩
    · rw [e]; rfl
    · rw [e, List.nil_append, List.takeWhile_cons, hc]; rfl
  | cons d line ih =>
    rw [List.cons_append, List.takeWhile_cons, hline d (List.mem_cons_self _ _)]
    simp only [Bool.not_false, if_true, List.cons.injEq, true_and]
    exact ih (fun c hc => hline c (List.mem_cons_of_mem _ hc))

/-- The record's title, when no front-matter key lower-cases to `title` and
no section has the key `title`. -/
theorem get_title (E : Env) (frontMatter : Obj) (body : Str)
    (honlyFm : ∀ K ∈ Obj.keys frontMatter, toLowerCase E K ≠ "title".toList)
    (hnosec : ∀ m ∈ sectionMatches body, toLowerCase E (sectionKey E m.1) ≠ "title".toList) :
    Obj.get "title".toList (lowerCaseProps E (dataOf E frontMatter body)) =
      some (.str (titleOf body)) := by
  rw [get_lowerCaseProps_of_only E _ (by decide) rfl _ (nodup_keys_dataOf E frontMatter body)]
  · unfold dataOf
    rw [get_addSections E _ (by decide), lastWith_eq_none, Option.elim_none, get_initialData,
      if_neg (by decide), lastWith_eq_none, Option.elim_none, if_pos rfl]
    · intro kv hkv
      have : ¬ kv.1 = "title".toList := by
        intro e
        exact honlyFm kv.1 (List.mem_map_of_mem Prod.fst hkv) (by rw [e]; rfl)
      simpa using this
    · intro m hm
      have : ¬ sectionKey E m.1 = "title".toList := by
        intro e
        exact hnosec m hm (by rw [e]; rfl)
      simpa using this
  · intro K hK hKk
    rcases mem_keys_dataOf E K frontMatter body hK with h | h | h | ⟨m, hm, hmK⟩
    · exact h
    · rw [h, toLowerCase_markdown] at hKk; exact absurd hKk (by decide)
    · exact absurd hKk (honlyFm K h)
    · rw [← hmK] at hKk
      exact absurd hKk (hnosec m hm)

/-- C5 (amended): with no front-matter key lower-casing to `title` and no
section of key `title`, the record's `title` is the text that follows the
first `#` standing at a line start and followed by one whitespace character
(a space, a tab, or the line break itself), up to the next line terminator
or the end of the body; it is the empty string if the body has no such `#`. -/
theorem C5_title (E : Env) (markdown : Str) (r : FrontMatterResult) (frontMatter : Obj)
    (hfm : extractYAMLFrontMatter E markdown = .ok r)
    (htags : filterFrontMatterTags r.attributes = .ok frontMatter)
    (honlyFm : ∀ K ∈ Obj.keys frontMatter, toLowerCase E K ≠ "title".toList)
    (hnosec : ∀ m ∈ sectionMatches r.body,
      toLowerCase E (sectionKey E m.1) ≠ "title".toList) :
    ∃ record title, extractMarkdownData E markdown = .ok record ∧
      Obj.get "title".toList record = some (.str title) ∧
      (∀ pre w line rest, r.body = pre ++ '#' :: w :: (line ++ rest) →
        (pre = [] ∨ ∃ c, pre.getLast? = some c ∧ isLineTerminator c = true) →
        hasTitleStart true pre = false → isWhiteSpace w = true →
        (∀ c ∈ line, isLineTerminator c = false) →
        (rest = [] ∨ ∃ c t, rest = c :: t ∧ isLineTerminator c = true) →
        title = line) ∧
      (hasTitleStart true r.body = false → title = []) := by
  refine ⟨_, titleOf r.body, extractMarkdownData_eq E markdown r frontMatter hfm htags,
    get_title E frontMatter r.body honlyFm hnosec, ?_, ?_⟩
  · intro pre w line rest hbody hpre hfree hw hline hrest
    unfold titleOf
    rw [hbody, titleScan_skip _ pre true hfree]
    have hls : (match pre.getLast? with
        | none => true
        | some c => isLineTerminator c) = true := by
      rcases hpre with e | ⟨c, hc, hlt⟩
      · rw [e]; rfl
      · rw [hc]; exact hlt
    rw [hls, titleScan_cons, if_pos rfl, titleAt_hash, if_pos hw,
      takeWhile_line line rest hline hrest]
    rfl
  · intro hfree
    unfold titleOf
    rw [titleScan_none _ true hfree]
    rfl

/-- C5 (counterexample): the body `#`, line feed, `foo` has no line made of
`#`, a space and text, yet its title is `foo`: the `\s` of the regex matches
the line feed. -/
theorem C5_counterexample :
    extractMarkdownData sampleEnv docBareHash =
      .ok [("title".toList, .str "foo".toList), ("markdown".toList, .str docBareHash)] ∧
    specTitle docBareHash = [] :=
  ⟨rfl, by decide⟩

/-- C5 (witness): the example of the specification, `title = "Title"`. -/
theorem C5_title_witness :
    ∃ record, extractMarkdownData sampleEnv docExample = .ok record ∧
      Obj.get "title".toList record = some (.str "Title".toList) := by
  obtain ⟨record, title, h1, h2, h3, -⟩ :=
    C5_title sampleEnv docExample ⟨[], docExample⟩ [] rfl rfl (by decide) (by decide)
  have ht : title = "Title".toList :=
    h3 [] ' ' "Title".toList "\n\n## What It Is\nFoo.\n\n## Example\nBar.\n".toList rfl
      (Or.inl rfl) (by decide) (by decide) (by decide) (Or.inr ⟨'\n', _, rfl, by decide⟩)
  exact ⟨record, h1, ht ▸ h2⟩

/-! ## C6: link rewriting -/

theorem linkAt_start (t : Str) :
    linkAt (']' :: '(' :: t) =
      if (t.takeWhile (fun c => !(c == ' ' || c == ')'))).isEmpty then none
      else
        match t.drop (t.takeWhile (fun c => !(c == ' ' || c == ')'))).length with
        | ')' :: _ => some (t.takeWhile (fun c => !(c == ' ' || c == ')')), none,
            2 + (t.takeWhile (fun c => !(c == ' ' || c == ')'))).length + 1)
        | ' ' :: '"' :: u =>
          match u.drop (u.takeWhile (fun c => c != '"')).length with
          | '"' :: ')' :: _ => some (t.takeWhile (fun c => !(c == ' ' || c == ')')),
              some (u.takeWhile (fun c => c != '"')),
              2 + (t.takeWhile (fun c => !(c == ' ' || c == ')'))).length + 2 +
                (u.takeWhile (fun c => c != '"')).length + 2)
          | _ => none
        | _ => none := rfl

theorem takeWhile_target (target rest : Str)
    (htarget : ∀ c ∈ target, c ≠ ' ' ∧ c ≠ ')')
    (hrest : ∃ c t, rest = c :: t ∧ (c = ' ' ∨ c = ')')) :
    (target ++ rest).takeWhile (fun c => !(c == ' ' || c == ')')) = target := by
  induction target with
  | nil =>
    obtain ⟨c, t, e, hc⟩ := hrest
    rw [e, List.nil_append, List.takeWhile_cons]
    rcases hc with hc | hc <;> simp [hc]
  | cons d target ih =>
    have hd := htarget d (List.mem_cons_self _ _)
    rw [List.cons_append, List.takeWhile_cons]
    have : (!(d == ' ' || d == ')')) = true := by simp [hd.1, hd.2]
    rw [if_pos this, ih (fun c hc => htarget c (List.mem_cons_of_mem _ hc))]

theorem linkAt_link (target post : Str) (title : Option Str) (hne : target ≠ [])
    (htarget : ∀ c ∈ target, c ≠ ' ' ∧ c ≠ ')')
    (htitle : ∀ t, title = some t → '"' ∉ t) :
    linkAt (']' :: '(' :: (target ++ (titleText title ++ ')' :: post))) =
      some (target, title, 2 + target.length + (titleText title).length + 1) := by
  rw [linkAt_start]
  cases title with
  | none =>
    have htw := takeWhile_target target (titleText none ++ ')' :: post) htarget
      ⟨')', post, rfl, Or.inr rfl⟩
    rw [htw, List.drop_left]
    have : target.isEmpty = false := by
      cases target with
      | nil => exact absurd rfl hne
      | cons _ _ => rfl
    rw [this]
    rfl
  | some t =>
    have htw := takeWhile_target target (titleText (some t) ++ ')' :: post) htarget
      ⟨' ', _, rfl, Or.inl rfl⟩
    rw [htw, List.drop_left]
    have : target.isEmpty = false := by
      cases target with
      | nil => exact absurd rfl hne
      | cons _ _ => rfl
    rw [this]
    have hq : (t ++ ['"'] ++ ')' :: post).takeWhile (fun c => c != '"') = t := by
      rw [List.append_assoc]
      exact takeWhile_ne_of_not_mem '"' t _ (htitle t rfl)
    show (match (t ++ ['"'] ++ ')' :: post).drop
        ((t ++ ['"'] ++ ')' :: post).takeWhile (fun c => c != '"')).length with
      | '"' :: ')' :: _ => some (target,
          some ((t ++ ['"'] ++ ')' :: post).takeWhile (fun c => c != '"')),
          2 + target.length + 2 +
            ((t ++ ['"'] ++ ')' :: post).takeWhile (fun c => c != '"')).length + 2)
      | _ => none) = _
    rw [hq, List.append_assoc, List.drop_left]
    simp only [List.singleton_append, titleText, List.length_cons, List.length_append,
      List.length_singleton, List.length_nil]
    congr 3
    omega

theorem rewriteLinksAux_zero_cons (resolve : Str → Except JSError Str) (c : Char) (t : Str) :
    rewriteLinksAux resolve 0 (c :: t) =
      match linkAt (c :: t) with
      | some (relativeUrl, title, len) =>
        match resolve relativeUrl with
        | .error e => .error e
        | .ok absoluteUrl =>
          match rewriteLinksAux resolve (len - 1) t with
          | .error e => .error e
          | .ok r => .ok (renderLink absoluteUrl title ++ r)
      | none =>
        match rewriteLinksAux resolve 0 t with
        | .error e => .error e
        | .ok r => .ok (c :: r) := rfl

theorem rewriteLinksAux_skip (resolve : Str → Except JSError Str) :
    ∀ (k : Nat) (s : Str), rewriteLinksAux resolve k s = rewriteLinksAux resolve 0 (s.drop k) := by
  intro k
  induction k with
  | zero => intro s; rfl
  | succ k ih =>
    intro s
    cases s with
    | nil => rfl
    | cons c t =>
      show rewriteLinksAux resolve k t = _
      rw [ih t]
      rfl

theorem linkAt_none_of_not_bracket (c : Char) (t : Str)
    (h : ¬ (c = ']' ∧ ∃ t', t = '(' :: t')) : linkAt (c :: t) = none := by
  unfold linkAt
  split
  · rename_i heq
    simp only [List.cons.injEq] at heq
    exact absurd ⟨heq.1, _, heq.2⟩ h
  · rfl

theorem renderLink_eq (abs : Str) (title : Option Str) :
    renderLink abs title = linkText abs (keptTitle title) := by
  cases title with
  | none => simp [renderLink, titleText, keptTitle, linkText]
  | some t =>
    cases t with
    | nil => simp [renderLink, titleText, keptTitle, linkText]
    | cons c t => simp [renderLink, titleText, keptTitle, linkText]

theorem linkText_length (target : Str) (title : Option Str) :
    (linkText target title).length = 2 + target.length + (titleText title).length + 1 := by
  simp only [linkText, List.length_cons, List.length_append, List.length_nil]
  omega

theorem linkAt_linkText (target post : Str) (title : Option Str)
    (htarget : IsLinkTarget target) (htitle : IsLinkTitle title) :
    linkAt (linkText target title ++ post) =
      some (target, title, (linkText target title).length) := by
  have e : linkText target title ++ post =
      ']' :: '(' :: (target ++ (titleText title ++ ')' :: post)) := by
    simp [linkText]
  rw [e, linkAt_link target post title htarget.1 htarget.2 htitle, linkText_length]

/-- Where `linkAt` matches, the text begins with the link it returns. -/
theorem linkAt_eq_some (s target : Str) (title : Option Str) (len : Nat)
    (h : linkAt s = some (target, title, len)) :
    ∃ post, s = linkText target title ++ post ∧ IsLinkTarget target ∧ IsLinkTitle title ∧
      len = (linkText target title).length := by
  cases s with
  | nil => cases h
  | cons c s =>
    by_cases hb : c = ']' ∧ ∃ t, s = '(' :: t
    · obtain ⟨hc, t, ht⟩ := hb
      subst hc; subst ht
      rw [linkAt_start] at h
      have hsplit : t = t.takeWhile (fun c => !(c == ' ' || c == ')')) ++
          t.drop (t.takeWhile (fun c => !(c == ' ' || c == ')'))).length := by
        rw [drop_takeWhile_eq_dropWhile, List.takeWhile_append_dropWhile]
      have hmem : ∀ c ∈ t.takeWhile (fun c => !(c == ' ' || c == ')')), c ≠ ' ' ∧ c ≠ ')' := by
        intro c hc
        have := List.mem_takeWhile_imp hc
        simpa using this
      generalize t.takeWhile (fun c => !(c == ' ' || c == ')')) = tw at h hsplit hmem
      generalize t.drop tw.length = d at h hsplit
      cases hE : tw.isEmpty with
      | true => rw [hE] at h; cases h
      | false =>
        rw [hE] at h
        have hne : tw ≠ [] := by
          intro e; rw [e] at hE; cases hE
        simp only [Bool.false_eq_true, if_false] at h
        split at h
        · rename_i post
          cases h
          refine ⟨post, ?_, ⟨hne, hmem⟩, ?_, ?_⟩
          · rw [hsplit]; simp [linkText, titleText]
          · intro t ht; cases ht
          · rw [linkText_length]; rfl
        · rename_i u
          have husplit : u = u.takeWhile (fun c => c != '"') ++
              u.drop (u.takeWhile (fun c => c != '"')).length := by
            rw [drop_takeWhile_eq_dropWhile, List.takeWhile_append_dropWhile]
          have humem : '"' ∉ u.takeWhile (fun c => c != '"') := by
            intro hc
            have := List.mem_takeWhile_imp hc
            simp at this
          generalize u.takeWhile (fun c => c != '"') = tt at h husplit humem
          generalize u.drop tt.length = d2 at h husplit
          split at h
          · rename_i post
            cases h
            refine ⟨post, ?_, ⟨hne, hmem⟩, ?_, ?_⟩
            · rw [hsplit, husplit]; simp [linkText, titleText]
            · intro t ht; cases ht; exact humem
            · rw [linkText_length]
              simp only [titleText, List.length_cons, List.length_append, List.length_nil]
              omega
          · cases h
        · cases h
    · rw [linkAt_none_of_not_bracket c s hb] at h
      cases h

theorem linkAt_none_iff (s : Str) : linkAt s = none ↔ ¬ StartsWithLink s := by
  constructor
  · rintro h ⟨target, title, post, ht, hti, e⟩
    rw [e, linkAt_linkText target post title ht hti] at h
    cases h
  · intro h
    cases hl : linkAt s with
    | none => rfl
    | some r =>
      obtain ⟨target, title, len⟩ := r
      obtain ⟨post, e, ht, hti, -⟩ := linkAt_eq_some s target title len hl
      exact absurd ⟨target, title, post, ht, hti, e⟩ h

/-- The replacement of a text followed by `rest` is the rewriting of the
text, then the replacement of `rest`. -/
theorem rewriteLinksAux_append (resolve : Str → Except JSError Str) (rest outRest : Str)
    (hrest : rewriteLinksAux resolve 0 rest = .ok outRest) (pre outPre : Str)
    (h : LinksRewritten resolve rest pre outPre) :
    rewriteLinksAux resolve 0 (pre ++ rest) = .ok (outPre ++ outRest) := by
  induction h with
  | done => exact hrest
  | copy c t out hno _ ih =>
    rw [List.cons_append, rewriteLinksAux_zero_cons, (linkAt_none_iff _).2 hno]
    simp only [ih]
    rfl
  | link target title absoluteUrl post out ht hti hurl _ ih =>
    have e : linkText target title ++ post ++ rest =
        ']' :: ('(' :: (target ++ (titleText title ++ [')'])) ++ (post ++ rest)) := by
      simp [linkText]
    have hl := linkAt_linkText target (post ++ rest) title ht hti
    rw [← List.append_assoc] at hl
    rw [e] at hl ⊢
    rw [rewriteLinksAux_zero_cons, hl]
    simp only [hurl]
    rw [rewriteLinksAux_skip]
    have hlen : (linkText target title).length - 1 =
        ('(' :: (target ++ (titleText title ++ [')']))).length := by
      simp [linkText]
    rw [hlen, List.drop_left, ih]
    simp only []
    rw [renderLink_eq, List.append_assoc]

/-- What the replacement returns is a rewriting of the whole text. -/
theorem linksRewritten_of_rewriteLinksAux (resolve : Str → Except JSError Str) :
    ∀ (n : Nat) (text out : Str), text.length ≤ n →
      rewriteLinksAux resolve 0 text = .ok out → LinksRewritten resolve [] text out := by
  intro n
  induction n with
  | zero =>
    intro text out hn h
    cases text with
    | nil => cases h; exact .done
    | cons c t => simp at hn
  | succ n ih =>
    intro text out hn h
    cases text with
    | nil => cases h; exact .done
    | cons c t =>
      rw [rewriteLinksAux_zero_cons] at h
      cases hl : linkAt (c :: t) with
      | none =>
        rw [hl] at h
        simp only [] at h
        cases hr : rewriteLinksAux resolve 0 t with
        | error e => rw [hr] at h; cases h
        | ok r =>
          rw [hr] at h
          cases h
          have hno : ¬ StartsWithLink (c :: (t ++ [])) := by
            rw [List.append_nil]
            exact (linkAt_none_iff _).1 hl
          exact .copy c t r hno (ih t r (by simp at hn; omega) hr)
      | some m =>
        obtain ⟨target, title, len⟩ := m
        rw [hl] at h
        simp only [] at h
        obtain ⟨post, e, ht, hti, hlen⟩ := linkAt_eq_some _ _ _ _ hl
        cases hu : resolve target with
        | error e => rw [hu] at h; cases h
        | ok absoluteUrl =>
          rw [hu] at h
          simp only [] at h
          rw [rewriteLinksAux_skip] at h
          have hdrop : t.drop (len - 1) = post := by
            have e' : t = '(' :: (target ++ (titleText title ++ [')'])) ++ post := by
              have : c :: t = ']' :: ('(' :: (target ++ (titleText title ++ [')'])) ++ post) := by
                rw [e]; simp [linkText]
              exact (List.cons.inj this).2
            have hl' : len - 1 = ('(' :: (target ++ (titleText title ++ [')']))).length := by
              rw [hlen]; simp [linkText]
            rw [hl', e', List.drop_left]
          rw [hdrop] at h
          cases hr : rewriteLinksAux resolve 0 post with
          | error e => rw [hr] at h; cases h
          | ok r =>
            rw [hr] at h
            cases h
            rw [e, renderLink_eq]
            have hpl : post.length ≤ n := by
              have : (c :: t).length = (linkText target title).length + post.length := by
                rw [e, List.length_append]
              rw [linkText_length] at this
              simp at hn
              simp at this
              omega
            exact .link target title absoluteUrl post r ht hti hu (ih post r hpl hr)

theorem rewriteLinksAux_eq_ok_iff (resolve : Str → Except JSError Str) (text out : Str) :
    rewriteLinksAux resolve 0 text = .ok out ↔ LinksRewritten resolve [] text out := by
  constructor
  · exact linksRewritten_of_rewriteLinksAux resolve text.length text out (Nat.le_refl _)
  · intro h
    have := rewriteLinksAux_append resolve [] [] rfl text out h
    simpa using this

theorem linksRewritten_of_startsNoLink (resolve : Str → Except JSError Str) (rest : Str) :
    ∀ pre : Str, startsNoLink rest pre = true → LinksRewritten resolve rest pre pre := by
  intro pre
  induction pre with
  | nil => intro _; exact .done
  | cons c t ih =>
    intro h
    unfold startsNoLink at h
    rw [Bool.and_eq_true] at h
    have hn : linkAt (c :: (t ++ rest)) = none := by
      cases hl : linkAt (c :: (t ++ rest)) with
      | none => rfl
      | some m => rw [hl] at h; exact absurd h.1 (by simp)
    exact .copy c t t ((linkAt_none_iff _).1 hn) (ih h.2)

/-- C6 (amended): processFile parses the raw text of the file with its links
rewritten against the base URL `https://glossary.cncf.io/` followed by
`path.relative('../', file)`, the file's path relative to the parent of the
working directory, with one leading `../` stripped: reading the text from left
to right, every link `](target)` or `](target "title")` at which the reading
arrives has its target replaced by the URL `new URL(target, base)` resolves it
to, the reading goes on after the link, and every other character is copied.
The record is built from that text, and there is a record exactly when the
file can be read, every such target resolves and the text can be parsed. -/
theorem C6_link_rewriting (E : Env) (file : Str) (record : Obj) :
    processFile E file = .ok record ↔
      ∃ raw markdown data, E.readFile (pathResolve E.cwd file) = .ok raw ∧
        LinksRewritten
          (fun target => E.newURL target ("https://glossary.cncf.io/".toList ++
            (stripPrefix? "../".toList (pathRelative E.cwd "../".toList file)).getD
              (pathRelative E.cwd "../".toList file)))
          [] raw markdown ∧
        extractMarkdownData E markdown = .ok data ∧
        record = finishRecord (pathResolve E.cwd file)
          (pathRelative E.cwd "../".toList file) data := by
  constructor
  · intro h
    obtain ⟨raw, markdown, data, hread, hlinks, hdata, hrec⟩ := processFile_ok_imp E file record h
    exact ⟨raw, markdown, data, hread, (rewriteLinksAux_eq_ok_iff _ _ _).1 hlinks, hdata, hrec⟩
  · rintro ⟨raw, markdown, data, hread, hlinks, hdata, hrec⟩
    rw [hrec]
    exact processFile_eq E file raw markdown data hread
      ((rewriteLinksAux_eq_ok_iff _ _ _).2 hlinks) hdata

/-- C6 (counterexample): in `content/en/widget.md`, discovered as
`../../content/en/widget.md` by the script started in `avalia/scripts`, the
link to `./foo.md` is rewritten to `https://glossary.cncf.io/content/en/foo.md`,
not to `https://glossary.cncf.io/en/foo.md`: the base keeps `content/`. -/
theorem C6_counterexample :
    baseUrlOf (pathRelative envWidgetLink.cwd "../".toList widgetFile) =
      "https://glossary.cncf.io/content/en/widget.md".toList ∧
    (processFile envWidgetLink widgetFile).toOption.bind (Obj.get "markdown".toList) =
      some (.str "[x](https://glossary.cncf.io/content/en/foo.md \"t\")".toList) :=
  ⟨by decide, by decide⟩

/-- C6 (witness): the link of the specification's example, in
`content/en/widget.md`. -/
theorem C6_link_rewriting_witness :
    processFile envWidgetLink widgetFile =
      .ok (finishRecord "/repo/content/en/widget.md".toList "../content/en/widget.md".toList
        [("title".toList, .str []),
          ("markdown".toList,
            .str "[x](https://glossary.cncf.io/content/en/foo.md \"t\")".toList)]) :=
  (C6_link_rewriting envWidgetLink widgetFile _).2
    ⟨"[x](./foo.md \"t\")".toList,
      "[x](https://glossary.cncf.io/content/en/foo.md \"t\")".toList,
      [("title".toList, .str []),
        ("markdown".toList, .str "[x](https://glossary.cncf.io/content/en/foo.md \"t\")".toList)],
      rfl,
      LinksRewritten.copy '[' _ _ (by rw [← linkAt_none_iff]; decide)
        (LinksRewritten.copy 'x' _ _ (by rw [← linkAt_none_iff]; decide)
          (LinksRewritten.link "./foo.md".toList (some "t".toList)
            "https://glossary.cncf.io/content/en/foo.md".toList [] []
            ⟨by decide, by decide⟩ (fun t ht => by cases ht; decide) rfl LinksRewritten.done)),
      rfl, rfl⟩

/-! ## C7: file discovery and the order of the records -/

theorem containsSub_cons (p : Str) (c : Char) (t : Str) :
    containsSub p (c :: t) = ((stripPrefix? p (c :: t)).isSome || containsSub p t) := rfl

theorem containsSub_slash_underscore_of_no_slash (n : Str) (h : '/' ∉ n) :
    containsSub "/_".toList n = false := by
  induction n with
  | nil => rfl
  | cons c n ih =>
    have hc : c ≠ '/' := fun e => h (e ▸ List.mem_cons_self _ _)
    rw [containsSub_cons, ih (fun m => h (List.mem_cons_of_mem _ m))]
    have : stripPrefix? "/_".toList (c :: n) = none := by
      show (if '/' = c then stripPrefix? ['_'] n else none) = none
      rw [if_neg (fun e => hc e.symm)]
    rw [this]
    rfl

/-- A discovered path contains `/_` exactly when its file name begins with an
underscore. -/
theorem containsSub_discovered (n : Str) (h : '/' ∉ n) :
    containsSub "/_".toList ("../../content/en/".toList ++ n) = decide (n.head? = some '_') := by
  have h0 := containsSub_slash_underscore_of_no_slash n h
  have h1 : containsSub "/_".toList ("../../content/en/".toList ++ n) =
      ((stripPrefix? "/_".toList ('/' :: n)).isSome || containsSub "/_".toList n) := by
    simp [containsSub, stripPrefix?]
  rw [h1, h0, Bool.or_false]
  cases n with
  | nil => rfl
  | cons c n =>
    show (if '/' = '/' then stripPrefix? ['_'] (c :: n) else none).isSome = _
    rw [if_pos rfl]
    show (if '_' = c then stripPrefix? [] n else none).isSome = _
    by_cases hc : '_' = c
    · subst hc; rfl
    · rw [if_neg hc]
      have : ¬ c = '_' := fun e => hc e.symm
      simp [this]

theorem extractLoop_cons (E : Env) (file : Str) (files : List Str) :
    extractLoop E (file :: files) =
      if containsSub "/_".toList file then extractLoop E files
      else
        match processFile E file with
        | .error e => ([.processing file], .error e)
        | .ok result =>
          (.processing file :: (extractLoop E files).1,
            match (extractLoop E files).2 with
            | .ok results => .ok (result :: results)
            | .error e => .error e) := rfl

theorem containsSub_discovered' (n : Str) (h : '/' ∉ n) :
    containsSub "/_".toList (discovered n) = !notUnderscored n := by
  unfold discovered notUnderscored
  rw [containsSub_discovered n h]
  by_cases hh : n.head? = some '_' <;> simp [hh]

/-- The records of the loop are those of the files whose name does not begin
with an underscore, in the order of discovery. -/
theorem extractLoop_ok (E : Env) :
    ∀ names : List Str, (∀ n ∈ names, '/' ∉ n) → ∀ evs results,
      extractLoop E (names.map discovered) = (evs, .ok results) →
      List.Forall₂ (fun n record => processFile E (discovered n) = .ok record)
        (names.filter notUnderscored) results := by
  intro names
  induction names with
  | nil =>
    intro _ evs results h
    have : results = [] := by
      have h2 := congrArg Prod.snd h
      simp only [List.map_nil, extractLoop] at h2
      exact (Except.ok.inj h2).symm
    rw [this]
    exact List.Forall₂.nil
  | cons n names ih =>
    intro hn evs results h
    have hn0 : '/' ∉ n := hn n (List.mem_cons_self _ _)
    have hn' : ∀ m ∈ names, '/' ∉ m := fun m hm => hn m (List.mem_cons_of_mem _ hm)
    rw [List.map_cons, extractLoop_cons, containsSub_discovered' n hn0] at h
    by_cases hk : notUnderscored n = true
    · rw [hk] at h
      simp only [Bool.not_true, Bool.false_eq_true, if_false] at h
      rw [List.filter_cons_of_pos hk]
      cases hp : processFile E (discovered n) with
      | error e =>
        rw [hp] at h
        have h2 := congrArg Prod.snd h
        cases h2
      | ok result =>
        rw [hp] at h
        simp only [] at h
        cases hr : (extractLoop E (names.map discovered)).2 with
        | error e =>
          rw [hr] at h
          have h2 := congrArg Prod.snd h
          cases h2
        | ok results' =>
          rw [hr] at h
          have h2 := congrArg Prod.snd h
          simp only [] at h2
          have h3 := Except.ok.inj h2
          rw [← h3]
          refine List.Forall₂.cons hp (ih hn' (extractLoop E (names.map discovered)).1 results' ?_)
          rw [← hr]
    · have hk' : notUnderscored n = false := by simpa using hk
      rw [hk'] at h
      simp only [Bool.not_false, if_true] at h
      rw [List.filter_cons_of_neg hk]
      exact ih hn' evs results h

/-- When every file whose name does not begin with an underscore is
processed without failure, the loop returns their records. -/
theorem extractLoop_complete (E : Env) :
    ∀ names : List Str, (∀ n ∈ names, '/' ∉ n) → ∀ results,
      List.Forall₂ (fun n record => processFile E (discovered n) = .ok record)
        (names.filter notUnderscored) results →
      ∃ evs, extractLoop E (names.map discovered) = (evs, .ok results) := by
  intro names
  induction names with
  | nil =>
    intro _ results h
    cases h
    exact ⟨[], rfl⟩
  | cons n names ih =>
    intro hn results h
    have hn0 : '/' ∉ n := hn n (List.mem_cons_self _ _)
    have hn' : ∀ m ∈ names, '/' ∉ m := fun m hm => hn m (List.mem_cons_of_mem _ hm)
    rw [List.map_cons, extractLoop_cons, containsSub_discovered' n hn0]
    by_cases hk : notUnderscored n = true
    · rw [hk]
      simp only [Bool.not_true, Bool.false_eq_true, if_false]
      rw [List.filter_cons_of_pos hk] at h
      cases h with
      | cons hp hrest =>
        rename_i record results'
        obtain ⟨evs, hevs⟩ := ih hn' results' hrest
        rw [hp, hevs]
        exact ⟨_, rfl⟩
    · have hk' : notUnderscored n = false := by simpa using hk
      rw [hk']
      simp only [Bool.not_false, if_true]
      rw [List.filter_cons_of_neg hk] at h
      exact ih hn' results h

theorem extract_eq (E : Env) (files : List Str) (hglob : E.glob searchPath = .ok files) :
    extract E =
      match (extractLoop E files).2 with
      | .error e => ((extractLoop E files).1, .error e)
      | .ok results =>
        match E.writeFile outputFile results with
        | .error e => ((extractLoop E files).1, .error e)
        | .ok _ => ((extractLoop E files).1 ++ [.write outputFile results], .ok results) := by
  unfold extract
  rw [hglob]
  simp only []
  rcases hloop : extractLoop E files with ⟨evs, res⟩
  cases res <;> rfl

/-- C7: when file discovery returns the files `names` of `content/en`,
extract returns exactly one record per file whose name does not begin with an
underscore, in the order of discovery, and none for the others; that same
sequence is written to the snapshot and handed to publish.  Such a result is
returned whenever those files are processed and the snapshot is written
without failure. -/
theorem C7_extract_order (E : Env) (names : List Str)
    (hglob : E.glob searchPath = .ok (names.map discovered))
    (hnames : ∀ n ∈ names, '/' ∉ n) :
    (∀ evs results, extract E = (evs, .ok results) →
      List.Forall₂ (fun n record => processFile E (discovered n) = .ok record)
        (names.filter notUnderscored) results ∧
      Event.write outputFile results ∈ evs ∧
      main E = (evs ++ (publish E results).1, (publish E results).2)) ∧
    (∀ results,
      List.Forall₂ (fun n record => processFile E (discovered n) = .ok record)
        (names.filter notUnderscored) results →
      E.writeFile outputFile results = .ok () →
      ∃ evs, extract E = (evs, .ok results)) := by
  constructor
  · intro evs results h
    have hmain : main E = (evs ++ (publish E results).1, (publish E results).2) := by
      unfold main
      rw [h]
    rw [extract_eq E _ hglob] at h
    cases hr : (extractLoop E (names.map discovered)).2 with
    | error e =>
      rw [hr] at h
      have h2 := congrArg Prod.snd h
      cases h2
    | ok results' =>
      rw [hr] at h
      simp only [] at h
      cases hw : E.writeFile outputFile results' with
      | error e =>
        rw [hw] at h
        have h2 := congrArg Prod.snd h
        cases h2
      | ok u =>
        rw [hw] at h
        have h1 := congrArg Prod.fst h
        have h2 := Except.ok.inj (congrArg Prod.snd h)
        simp only [] at h1 h2
        subst h2
        refine ⟨extractLoop_ok E names hnames (extractLoop E (names.map discovered)).1 results'
          (by rw [← hr]), ?_, hmain⟩
        rw [← h1]
        exact List.mem_append_right _ (List.mem_singleton_self _)
  · intro results hall hwrite
    obtain ⟨evs, hevs⟩ := extractLoop_complete E names hnames results hall
    rw [extract_eq E _ hglob, hevs]
    simp only [hwrite]
    exact ⟨_, rfl⟩

/-- C7 (witness): `widget.md` and `_draft.md` are discovered; the one record
is that of `widget.md`. -/
theorem C7_extract_order_witness :
    ∃ record, processFile envTwoFiles (discovered "widget.md".toList) = .ok record ∧
      ∃ evs, extract envTwoFiles = (evs, .ok [record]) ∧
        Event.write outputFile [record] ∈ evs ∧
        main envTwoFiles = (evs ++ (publish envTwoFiles [record]).1,
          (publish envTwoFiles [record]).2) := by
  have h := C7_extract_order envTwoFiles ["widget.md".toList, "_draft.md".toList] rfl
    (by decide)
  obtain ⟨evs, hevs⟩ := h.2 [_] (List.Forall₂.cons rfl List.Forall₂.nil) rfl
  exact ⟨_, rfl, evs, hevs, (h.1 evs _ hevs).2.1, (h.1 evs _ hevs).2.2⟩

/-! ## C8 and C9: the url and srcUrl templates -/

theorem stripPrefix?_append (p s : Str) : stripPrefix? p (p ++ s) = some s := by
  induction p with
  | nil => cases s <;> rfl
  | cons a p ih =>
    show (if a = a then stripPrefix? p (p ++ s) else none) = some s
    rw [if_pos rfl, ih]

theorem afterTwoUnits_dots (t : Str) : afterTwoUnits ('.' :: '.' :: t) = some t := rfl

theorem urlTemplate?_of_shape (g : Str) (hg : ∀ c ∈ g, isLineTerminator c = false) :
    urlTemplate? ('.' :: '.' :: ("/content/en/".toList ++ (g ++ ['.', 'm', 'd']))) = some g := by
  unfold urlTemplate?
  rw [afterTwoUnits_dots]
  simp only []
  rw [stripPrefix?_append]
  simp only []
  have hlen : (g ++ ['.', 'm', 'd']).length = g.length + 3 := by simp
  have hall : (g ++ ['.', 'm', 'd']).all (fun c => !isLineTerminator c) = true := by
    rw [List.all_eq_true]
    intro c hc
    rcases List.mem_append.1 hc with hc | hc
    · rw [hg c hc]; rfl
    · simp only [List.mem_cons, List.mem_singleton, List.not_mem_nil, or_false] at hc
      rcases hc with e | e | e <;> rw [e] <;> rfl
  have hdrop : (g ++ ['.', 'm', 'd']).drop ((g ++ ['.', 'm', 'd']).length - 2) = "md".toList := by
    have e : g ++ ['.', 'm', 'd'] = (g ++ ['.']) ++ ['m', 'd'] := by simp
    have hl : (g ++ ['.', 'm', 'd']).length - 2 = (g ++ ['.']).length := by
      rw [hlen]; simp
    rw [hl, e, List.drop_left]
    rfl
  have hl : (g ++ ['.', 'm', 'd']).length - 3 = g.length := by
    rw [hlen]; simp
  have htake : (g ++ ['.', 'm', 'd']).take ((g ++ ['.', 'm', 'd']).length - 3) = g := by
    rw [hl, List.take_left]
  have hdrop3 : (g ++ ['.', 'm', 'd']).drop ((g ++ ['.', 'm', 'd']).length - 3) =
      ['.', 'm', 'd'] := by
    rw [hl, List.drop_left]
  rw [if_pos ⟨by rw [hlen]; omega, hall, hdrop⟩, htake, hdrop3]
  rfl

theorem srcUrlTemplate?_of_shape (g : Str) (hg : ∀ c ∈ g, isLineTerminator c = false) :
    srcUrlTemplate? ('.' :: '.' :: ("/content/".toList ++ (g ++ ".md".toList))) = some g := by
  unfold srcUrlTemplate?
  rw [afterTwoUnits_dots]
  simp only []
  rw [stripPrefix?_append]
  simp only []
  have hlen : (g ++ ".md".toList).length = g.length + 3 := by simp
  have hall : (g ++ ".md".toList).all (fun c => !isLineTerminator c) = true := by
    rw [List.all_eq_true]
    intro c hc
    rcases List.mem_append.1 hc with hc | hc
    · rw [hg c hc]; rfl
    · have : c = '.' ∨ c = 'm' ∨ c = 'd' := by simpa using hc
      rcases this with e | e | e <;> rw [e] <;> rfl
  have hl : (g ++ ".md".toList).length - 3 = g.length := by
    rw [hlen]; simp
  have hdrop : (g ++ ".md".toList).drop ((g ++ ".md".toList).length - 3) = ".md".toList := by
    rw [hl, List.drop_left]
  have htake : (g ++ ".md".toList).take ((g ++ ".md".toList).length - 3) = g := by
    rw [hl, List.take_left]
  rw [if_pos ⟨by rw [hlen]; omega, hall, hdrop⟩, htake]

/-- C8: when the path of the document relative to the reference root is
`../content/en/N.md`, where `N` has no line terminator, processFile computes
`url = "https://glossary.cncf.io/N"` and
`srcUrl = "https://github.com/cncf/glossary/blob/main/content/en/N.md"`: its
record is `{ url, srcUrl, ...data }` with these two values. -/
theorem C8_urls (E : Env) (file name raw markdown : Str) (data : Obj)
    (hname : ∀ c ∈ name, isLineTerminator c = false)
    (hrel : pathRelative E.cwd "../".toList file =
      "../content/en/".toList ++ (name ++ ".md".toList))
    (hread : E.readFile (pathResolve E.cwd file) = .ok raw)
    (hlinks : rewriteLinks E (baseUrlOf (pathRelative E.cwd "../".toList file)) raw =
      .ok markdown)
    (hdata : extractMarkdownData E markdown = .ok data) :
    urlOf ("../content/en/".toList ++ (name ++ ".md".toList)) =
        "https://glossary.cncf.io/".toList ++ name ∧
      srcUrlOf ("../content/en/".toList ++ (name ++ ".md".toList)) =
        "https://github.com/cncf/glossary/blob/main/content/en/".toList ++
          (name ++ ".md".toList) ∧
      processFile E file = .ok (Obj.spread
        [("url".toList, .str ("https://glossary.cncf.io/".toList ++ name)),
          ("srcUrl".toList,
            .str ("https://github.com/cncf/glossary/blob/main/content/en/".toList ++
              (name ++ ".md".toList)))]
        (Obj.set "slug".toList (.str (slugOf (pathResolve E.cwd file))) data)) := by
  have hu : urlOf ("../content/en/".toList ++ (name ++ ".md".toList)) =
      "https://glossary.cncf.io/".toList ++ name := by
    unfold urlOf
    have := urlTemplate?_of_shape name hname
    have e : "../content/en/".toList ++ (name ++ ".md".toList) =
        '.' :: '.' :: ("/content/en/".toList ++ (name ++ ['.', 'm', 'd'])) := rfl
    rw [e, this]
  have hs : srcUrlOf ("../content/en/".toList ++ (name ++ ".md".toList)) =
      "https://github.com/cncf/glossary/blob/main/content/en/".toList ++
        (name ++ ".md".toList) := by
    unfold srcUrlOf
    have := srcUrlTemplate?_of_shape ("en/".toList ++ name) (by
      intro c hc
      rcases List.mem_append.1 hc with hc | hc
      · have : c = 'e' ∨ c = 'n' ∨ c = '/' := by simpa using hc
        rcases this with e | e | e <;> rw [e] <;> rfl
      · exact hname c hc)
    have e : "../content/en/".toList ++ (name ++ ".md".toList) =
        '.' :: '.' :: ("/content/".toList ++ (("en/".toList ++ name) ++ ".md".toList)) := by
      simp
    rw [e, this]
    simp
  refine ⟨hu, hs, ?_⟩
  rw [processFile_eq E file raw markdown data hread hlinks hdata, hrel]
  unfold finishRecord
  rw [hu, hs]
  rfl

/-- C8 (witness): `widget.md`, discovered by the script started in
`avalia/scripts`. -/
theorem C8_urls_witness :
    urlOf "../content/en/widget.md".toList = "https://glossary.cncf.io/widget".toList ∧
      srcUrlOf "../content/en/widget.md".toList =
        "https://github.com/cncf/glossary/blob/main/content/en/widget.md".toList ∧
      processFile envWidgetLink widgetFile = .ok (Obj.spread
        [("url".toList, .str "https://glossary.cncf.io/widget".toList),
          ("srcUrl".toList,
            .str "https://github.com/cncf/glossary/blob/main/content/en/widget.md".toList)]
        (Obj.set "slug".toList (.str "widget".toList)
          [("title".toList, .str []),
            ("markdown".toList,
              .str "[x](https://glossary.cncf.io/content/en/foo.md \"t\")".toList)])) :=
  C8_urls envWidgetLink widgetFile "widget".toList "[x](./foo.md \"t\")".toList
    "[x](https://glossary.cncf.io/content/en/foo.md \"t\")".toList _ (by decide) rfl rfl rfl rfl

theorem stripPrefix?_eq_some (p : Str) : ∀ (s u : Str), stripPrefix? p s = some u → s = p ++ u := by
  induction p with
  | nil =>
    intro s u h
    cases s with
    | nil => cases h; rfl
    | cons b s => cases h; rfl
  | cons a p ih =>
    intro s u h
    cases s with
    | nil => cases h
    | cons b s =>
      have h' : (if a = b then stripPrefix? p s else none) = some u := h
      by_cases hab : a = b
      · rw [if_pos hab] at h'
        rw [hab, ih s u h']
        rfl
      · rw [if_neg hab] at h'; cases h'

/-- The two path templates count UTF-16 code units: a leading character from
U+10000 on is matched by the two dots on its own, and a path with one more
character after it is not matched; before `md`, the last dot takes the second
half of such a character. -/
theorem templates_count_code_units :
    urlOf (Char.ofNat 0x1F600 :: "/content/en/foo.md".toList) =
        "https://glossary.cncf.io/foo".toList ∧
      urlOf (Char.ofNat 0x1F600 :: "x/content/en/foo.md".toList) =
        Char.ofNat 0x1F600 :: "x/content/en/foo.md".toList ∧
      srcUrlOf (Char.ofNat 0x1F600 :: "/content/en/foo.md".toList) =
        "https://github.com/cncf/glossary/blob/main/content/en/foo.md".toList ∧
      urlOf ("../content/en/foo".toList ++ [Char.ofNat 0x1F600, 'm', 'd']) =
        "https://glossary.cncf.io/foo".toList ++ [loneSurrogate] :=
  ⟨by decide, by decide, by decide, by decide⟩

/-- C9 (the code at the failing input): for the file `../ab/content/en/foo.md`
the relative path is `ab/content/en/foo.md`, which is of neither shape
`../content/en/<name>.md` nor `../content/<name>.md`, yet the record of
processFile has the url `https://glossary.cncf.io/foo` and the srcUrl
`https://github.com/cncf/glossary/blob/main/content/en/foo.md` instead of the
relative path.  Likewise `ab/content/en/fooXmd`, without the dot of `.md`, is
rewritten by the url substitution.  The dots of `^..` and, in the first regex,
of `.md` are not escaped, unlike those of line 69 and the `\.md` of line 83. -/
theorem C9_unescaped_dots :
    pathRelative envStrayFile.cwd "../".toList strayFile = "ab/content/en/foo.md".toList ∧
    specIsUrlTemplate "ab/content/en/foo.md".toList = false ∧
    specIsSrcUrlTemplate "ab/content/en/foo.md".toList = false ∧
    processFile envStrayFile strayFile =
      .ok [("url".toList, .str "https://glossary.cncf.io/foo".toList),
        ("srcUrl".toList,
          .str "https://github.com/cncf/glossary/blob/main/content/en/foo.md".toList),
        ("title".toList, .str []), ("markdown".toList, .str []),
        ("slug".toList, .str "foo".toList)] ∧
    specIsUrlTemplate "ab/content/en/fooXmd".toList = false ∧
    urlOf "ab/content/en/fooXmd".toList = "https://glossary.cncf.io/foo".toList :=
  ⟨by decide, by decide, by decide, rfl, by decide, by decide⟩

/-! ## C10: the slug -/

theorem slugTry_succ (t : Str) (k : Nat) :
    slugTry t (k + 1) =
      match t.drop (k + 1) with
      | '.' :: ext =>
        if ext ≠ [] ∧ ext.all (fun c => c != '.') then some (t.take (k + 1))
        else slugTry t k
      | _ => slugTry t k := rfl

theorem all_ne_dot_iff (ext : Str) : ext.all (fun c => c != '.') = true ↔ '.' ∉ ext := by
  rw [List.all_eq_true]
  constructor
  · intro h hm
    have := h '.' hm
    simp at this
  · intro h c hc
    have : c ≠ '.' := fun e => h (e ▸ hc)
    simpa using this

/-- What a successful attempt of the slug regex after a `/` says. -/
theorem slugTry_eq_some_imp (t : Str) : ∀ (n : Nat) (g : Str), slugTry t n = some g →
    ∃ k ext, 1 ≤ k ∧ k ≤ n ∧ g = t.take k ∧ t.drop k = '.' :: ext ∧ ext ≠ [] ∧ '.' ∉ ext := by
  intro n
  induction n with
  | zero => intro g h; cases h
  | succ k ih =>
    intro g h
    rw [slugTry_succ] at h
    split at h
    · rename_i ext hdrop
      by_cases hc : ext ≠ [] ∧ ext.all (fun c => c != '.') = true
      · rw [if_pos hc] at h
        exact ⟨k + 1, ext, by omega, le_refl _, (Option.some.inj h).symm, hdrop, hc.1,
          (all_ne_dot_iff ext).1 hc.2⟩
      · rw [if_neg hc] at h
        obtain ⟨k', ext', h1, h2, h3⟩ := ih g h
        exact ⟨k', ext', h1, by omega, h3⟩
    · obtain ⟨k', ext', h1, h2, h3⟩ := ih g h
      exact ⟨k', ext', h1, by omega, h3⟩

/-- The attempt after the `/` of `stem.ext` finds the stem. -/
theorem slugTry_stem (stem ext : Str) (hext : ext ≠ []) (hdot : '.' ∉ ext) (hstem : stem ≠ []) :
    ∀ n, stem.length ≤ n → slugTry (stem ++ '.' :: ext) n = some stem := by
  intro n
  induction n with
  | zero =>
    intro h
    have : stem.length = 0 := by omega
    exact absurd (List.length_eq_zero.1 this) hstem
  | succ k ih =>
    intro h
    rw [slugTry_succ]
    by_cases hk : k + 1 = stem.length
    · rw [hk, List.drop_left, List.take_left]
      simp only []
      rw [if_pos ⟨hext, (all_ne_dot_iff ext).2 hdot⟩]
    · have hgt : stem.length ≤ k := by omega
      have hdrop : (stem ++ '.' :: ext).drop (k + 1) = ext.drop (k - stem.length) := by
        have e : k + 1 = stem.length + (k - stem.length + 1) := by omega
        rw [e, ← List.drop_drop, List.drop_left]
        rfl
      rw [hdrop]
      have hnodot : ∀ ext', ext.drop (k - stem.length) ≠ '.' :: ext' := by
        intro ext' e
        have : '.' ∈ ext.drop (k - stem.length) := by rw [e]; exact List.mem_cons_self _ _
        exact hdot (List.mem_of_mem_drop this)
      split
      · rename_i ext' he
        exact absurd he (hnodot ext')
      · exact ih hgt

/-- An attempt that starts at an earlier `/` fails: a `.` comes after every
candidate `.`. -/
theorem slugTry_earlier (a rest : Str) (hdot : '.' ∈ rest) :
    ∀ n, n ≤ a.length → slugTry (a ++ '/' :: rest) n = none := by
  intro n
  induction n with
  | zero => intro _; rfl
  | succ k ih =>
    intro h
    rw [slugTry_succ]
    have hdrop : (a ++ '/' :: rest).drop (k + 1) = a.drop (k + 1) ++ '/' :: rest := by
      rw [List.drop_append_of_le_length h]
    rw [hdrop]
    split
    · rename_i ext he
      have hmem : '.' ∈ ext := by
        cases hd : a.drop (k + 1) with
        | nil => rw [hd] at he; cases he
        | cons d ds =>
          rw [hd, List.cons_append] at he
          have e2 := (List.cons.inj he).2
          rw [← e2]
          exact List.mem_append_right _ (List.mem_cons_of_mem _ hdot)
      have : ¬ (ext ≠ [] ∧ ext.all (fun c => c != '.') = true) := by
        rintro ⟨-, hall⟩
        exact (all_ne_dot_iff ext).1 hall hmem
      rw [if_neg this]
      exact ih (by omega)
    · exact ih (by omega)

theorem takeWhile_length_le_of_slash (a rest : Str) :
    ((a ++ '/' :: rest).takeWhile (fun c => c != '/')).length ≤ a.length := by
  induction a with
  | nil => simp
  | cons c a ih =>
    rw [List.cons_append, List.takeWhile_cons]
    split
    · simp only [List.length_cons]; omega
    · simp

theorem takeWhile_length_ge_of_no_slash (stem rest : Str) (h : '/' ∉ stem) :
    stem.length ≤ ((stem ++ rest).takeWhile (fun c => c != '/')).length := by
  induction stem with
  | nil => simp
  | cons c stem ih =>
    have hc : c ≠ '/' := fun e => h (e ▸ List.mem_cons_self _ _)
    have : (c != '/') = true := by simpa using hc
    rw [List.cons_append, List.takeWhile_cons, if_pos this]
    simp only [List.length_cons]
    have := ih (fun m => h (List.mem_cons_of_mem _ m))
    omega

theorem slugScan_cons (c : Char) (t : Str) :
    slugScan (c :: t) =
      if c = '/' then
        match slugAt t with
        | some g => some g
        | none => slugScan t
      else slugScan t := rfl

theorem slugScan_stem (stem ext : Str) (hstem : stem ≠ []) (hslash : '/' ∉ stem)
    (hext : ext ≠ []) (hdot : '.' ∉ ext) :
    ∀ a : Str, slugScan (a ++ '/' :: (stem ++ '.' :: ext)) = some stem := by
  intro a
  induction a with
  | nil =>
    rw [List.nil_append, slugScan_cons, if_pos rfl]
    unfold slugAt
    rw [slugTry_stem stem ext hext hdot hstem _
      (takeWhile_length_ge_of_no_slash stem _ hslash)]
  | cons c a ih =>
    rw [List.cons_append, slugScan_cons]
    by_cases hc : c = '/'
    · rw [if_pos hc]
      have : slugAt (a ++ '/' :: (stem ++ '.' :: ext)) = none := by
        unfold slugAt
        exact slugTry_earlier a _ (List.mem_append_right _ (List.mem_cons_self _ _)) _
          (takeWhile_length_le_of_slash a _)
      rw [this]
      exact ih
    · rw [if_neg hc]
      exact ih

theorem slugAt_eq_some_imp (t g : Str) (h : slugAt t = some g) :
    ∃ ext, t = g ++ '.' :: ext ∧ g ≠ [] ∧ '/' ∉ g ∧ ext ≠ [] ∧ '.' ∉ ext := by
  unfold slugAt at h
  obtain ⟨k, ext, hk1, hk2, hg, hdrop, hext, hdot⟩ := slugTry_eq_some_imp t _ g h
  refine ⟨ext, ?_, ?_, ?_, hext, hdot⟩
  · rw [hg, ← hdrop, List.take_append_drop]
  · intro e
    have hl : (t.take k).length = 0 := by rw [← hg, e]; rfl
    have hlt : k ≤ t.length := le_trans hk2 (List.takeWhile_sublist _).length_le
    rw [List.length_take, Nat.min_eq_left hlt] at hl
    omega
  · intro hm
    rw [hg] at hm
    have hpre : t.take k = (t.takeWhile (fun c => c != '/')).take k := by
      conv_lhs => rw [← List.takeWhile_append_dropWhile (fun c => c != '/') t]
      rw [List.take_append_of_le_length hk2]
    rw [hpre] at hm
    have := List.mem_takeWhile_imp (List.mem_of_mem_take hm)
    simp at this

theorem slugScan_eq_some_imp : ∀ (p g : Str), slugScan p = some g →
    ∃ a ext, p = a ++ '/' :: (g ++ '.' :: ext) ∧ g ≠ [] ∧ '/' ∉ g ∧ ext ≠ [] ∧ '.' ∉ ext := by
  intro p
  induction p with
  | nil => intro g h; cases h
  | cons c p ih =>
    intro g h
    rw [slugScan_cons] at h
    by_cases hc : c = '/'
    · rw [if_pos hc] at h
      cases hs : slugAt p with
      | some g' =>
        rw [hs] at h
        have hg := Option.some.inj h
        subst hg
        obtain ⟨ext, hp, h1, h2, h3, h4⟩ := slugAt_eq_some_imp p g' hs
        exact ⟨[], ext, by rw [hc, hp]; rfl, h1, h2, h3, h4⟩
      | none =>
        rw [hs] at h
        obtain ⟨a, ext, hp, h1⟩ := ih g h
        exact ⟨c :: a, ext, by rw [hp]; rfl, h1⟩
    · rw [if_neg hc] at h
      obtain ⟨a, ext, hp, h1⟩ := ih g h
      exact ⟨c :: a, ext, by rw [hp]; rfl, h1⟩

/-- C10 (amended): the slug is the text between a `/` and the last `.` of
the path, when that text is not empty and has no `/` and something follows the
`.`: for a path that ends with a file name `stem.ext` it is the stem.  It is
the empty string when the path has no such decomposition.  What follows the
last `.` may contain a `/`: a `.` in a directory name gives a slug to a file
name that has none. -/
theorem C10_slug (filePath : Str) :
    (∀ a stem ext, filePath = a ++ '/' :: (stem ++ '.' :: ext) → stem ≠ [] → '/' ∉ stem →
      ext ≠ [] → '.' ∉ ext → slugOf filePath = stem) ∧
    ((¬ ∃ a stem ext, filePath = a ++ '/' :: (stem ++ '.' :: ext) ∧ stem ≠ [] ∧ '/' ∉ stem ∧
      ext ≠ [] ∧ '.' ∉ ext) → slugOf filePath = []) := by
  constructor
  · intro a stem ext hp hstem hslash hext hdot
    unfold slugOf
    rw [hp, slugScan_stem stem ext hstem hslash hext hdot a]
    rfl
  · intro h
    unfold slugOf
    cases hs : slugScan filePath with
    | none => rfl
    | some g =>
      obtain ⟨a, ext, hp, h1, h2, h3, h4⟩ := slugScan_eq_some_imp filePath g hs
      exact absurd ⟨a, g, ext, hp, h1, h2, h3, h4⟩ h

/-- C10 (counterexample): the file name `c` of `/a.b/c` has no extension,
yet the slug is `a`, cut from the directory name. -/
theorem C10_counterexample :
    specFileName "/a.b/c".toList = "c".toList ∧ specSlug "/a.b/c".toList = [] ∧
      slugOf "/a.b/c".toList = "a".toList :=
  ⟨by decide, by decide, by decide⟩

/-- C10 (witness): the slug of `/repo/content/en/widget.md` is `widget`, and
that of `/repo/content/en/README`, a path without `.`, is empty. -/
theorem C10_slug_witness :
    slugOf "/repo/content/en/widget.md".toList = "widget".toList ∧
      slugOf "/repo/content/en/README".toList = [] :=
  ⟨(C10_slug "/repo/content/en/widget.md".toList).1 "/repo/content/en".toList "widget".toList
      "md".toList rfl (by decide) (by decide) (by decide) (by decide),
    (C10_slug "/repo/content/en/README".toList).2 (by
      rintro ⟨a, stem, ext, h, -⟩
      have : '.' ∈ "/repo/content/en/README".toList := by
        rw [h]
        exact List.mem_append_right _ (List.mem_cons_of_mem _
          (List.mem_append_right _ (List.mem_cons_self _ _)))
      exact absurd this (by decide))⟩

/-! ## C11: the case of the keys -/

theorem extractMarkdownData_ok_imp (E : Env) (markdown : Str) (data : Obj)
    (h : extractMarkdownData E markdown = .ok data) :
    ∃ r frontMatter, extractYAMLFrontMatter E markdown = .ok r ∧
      filterFrontMatterTags r.attributes = .ok frontMatter ∧
      data = lowerCaseProps E (dataOf E frontMatter r.body) := by
  unfold extractMarkdownData at h
  cases hr : extractYAMLFrontMatter E markdown with
  | error e => rw [hr] at h; cases h
  | ok r =>
    rw [hr] at h
    simp only [] at h
    cases hf : filterFrontMatterTags r.attributes with
    | error e => rw [hf] at h; cases h
    | ok frontMatter =>
      rw [hf] at h
      exact ⟨r, frontMatter, rfl, hf, (Except.ok.inj h).symm⟩

theorem mem_keys_finishRecord (filePath relativePath : Str) (data : Obj) (K : Str)
    (h : K ∈ Obj.keys (finishRecord filePath relativePath data)) :
    K = "url".toList ∨ K = "srcUrl".toList ∨ K = "slug".toList ∨ K ∈ Obj.keys data := by
  unfold finishRecord Obj.spread at h
  rcases Obj.mem_keys_foldl_define Prod.fst Prod.snd K _ _ h with h | ⟨x, hx, hxK⟩
  · rcases (Obj.mem_keys_define _ _ _ _).1 h with h | h
    · exact Or.inr (Or.inl h)
    · rcases (Obj.mem_keys_define _ _ _ _).1 h with h | h
      · exact Or.inl h
      · simp [Obj.keys] at h
  · have hm : K ∈ Obj.keys (Obj.set "slug".toList (.str (slugOf filePath)) data) :=
      hxK ▸ List.mem_map_of_mem Prod.fst hx
    rcases Obj.mem_keys_set _ _ _ _ hm with h | h
    · exact Or.inr (Or.inr (Or.inl h))
    · exact Or.inr (Or.inr (Or.inr h))

/-- C11 (amended): when lower-casing a lower-cased string changes nothing,
every key of the mapping returned by extractMarkdownData is lower-case, and
so is every key of the record returned by processFile except `srcUrl`, which
is added after the keys have been lower-cased. -/
theorem C11_lowercase_keys (E : Env)
    (hidem : ∀ s, toLowerCase E (toLowerCase E s) = toLowerCase E s) :
    (∀ markdown data, extractMarkdownData E markdown = .ok data →
      ∀ K ∈ Obj.keys data, toLowerCase E K = K) ∧
    (∀ file record, processFile E file = .ok record →
      ∀ K ∈ Obj.keys record, K = "srcUrl".toList ∨ toLowerCase E K = K) := by
  have h1 : ∀ markdown data, extractMarkdownData E markdown = .ok data →
      ∀ K ∈ Obj.keys data, toLowerCase E K = K := by
    intro markdown data h K hK
    obtain ⟨r, frontMatter, -, -, hd⟩ := extractMarkdownData_ok_imp E markdown data h
    rw [hd] at hK
    obtain ⟨K0, hK0⟩ := mem_keys_lowerCaseProps E _ K hK
    rw [hK0]
    exact hidem K0
  refine ⟨h1, ?_⟩
  intro file record h K hK
  obtain ⟨raw, markdown, data, -, -, hdata, hrec⟩ := processFile_ok_imp E file record h
  rw [hrec] at hK
  rcases mem_keys_finishRecord _ _ _ K hK with e | e | e | hm
  · right; rw [e]; rfl
  · left; exact e
  · right; rw [e]; rfl
  · right; exact h1 markdown data hdata K hm

/-- C11 (counterexample): the record of `content/en/widget.md` has the key
`srcUrl`, whose lower-case form is `srcurl`. -/
theorem C11_counterexample :
    (processFile envWidgetLink widgetFile).toOption.map Obj.keys =
      some ["url".toList, "srcUrl".toList, "title".toList, "markdown".toList,
        "slug".toList] ∧
    toLowerCase envWidgetLink "srcUrl".toList = "srcurl".toList :=
  ⟨by decide, by decide⟩

theorem asciiLowerChar_idem (c : Char) : asciiLowerChar (asciiLowerChar c) = asciiLowerChar c := by
  by_cases h : 'A'.toNat ≤ c.toNat ∧ c.toNat ≤ 'Z'.toNat
  · have e : asciiLowerChar c = Char.ofNat (c.toNat + 32) := by
      unfold asciiLowerChar; rw [if_pos h]
    rw [e]
    have hA : 'A'.toNat = 65 := rfl
    have hZ : 'Z'.toNat = 90 := rfl
    rw [hA, hZ] at h
    obtain ⟨h1, h2⟩ := h
    generalize c.toNat = n at h1 h2
    interval_cases n <;> decide
  · have e : asciiLowerChar c = c := by
      unfold asciiLowerChar; rw [if_neg h]
    rw [e, e]

theorem asciiLowerChar_lt (c : Char) (hc : c.toNat < 128) : (asciiLowerChar c).toNat < 128 := by
  by_cases h : 'A'.toNat ≤ c.toNat ∧ c.toNat ≤ 'Z'.toNat
  · have e : asciiLowerChar c = Char.ofNat (c.toNat + 32) := by
      unfold asciiLowerChar; rw [if_pos h]
    rw [e]
    have hA : 'A'.toNat = 65 := rfl
    have hZ : 'Z'.toNat = 90 := rfl
    rw [hA, hZ] at h
    obtain ⟨h1, h2⟩ := h
    generalize c.toNat = n at h1 h2
    interval_cases n <;> decide
  · have e : asciiLowerChar c = c := by
      unfold asciiLowerChar; rw [if_neg h]
    rw [e]; exact hc

theorem isAscii_asciiLower (s : Str) (h : isAscii s = true) : isAscii (asciiLower s) = true := by
  unfold isAscii at h ⊢
  rw [List.all_eq_true] at h ⊢
  intro c hc
  unfold asciiLower at hc
  obtain ⟨d, hd, hdc⟩ := List.mem_map.1 hc
  have := h d hd
  rw [← hdc]
  simp only [decide_eq_true_eq] at this ⊢
  exact asciiLowerChar_lt d this

theorem asciiLower_idem (s : Str) : asciiLower (asciiLower s) = asciiLower s := by
  unfold asciiLower
  rw [List.map_map]
  apply List.map_congr_left
  intro c _
  exact asciiLowerChar_idem c

/-- Lower-casing is idempotent when the platform leaves strings that are not
all ASCII as they are, as the sample environments do. -/
theorem toLowerCase_idem_of_id (E : Env) (hE : ∀ s, E.unicodeLower s = s) (s : Str) :
    toLowerCase E (toLowerCase E s) = toLowerCase E s := by
  unfold toLowerCase
  by_cases h : isAscii s = true
  · rw [if_pos h, if_pos (isAscii_asciiLower s h), asciiLower_idem]
  · rw [if_neg h, hE, if_neg h, hE]

/-- C11 (witness): the keys of the record of `content/en/widget.md`. -/
theorem C11_lowercase_keys_witness :
    (∀ markdown data, extractMarkdownData envWidgetLink markdown = .ok data →
      ∀ K ∈ Obj.keys data, toLowerCase envWidgetLink K = K) ∧
    (∀ file record, processFile envWidgetLink file = .ok record →
      ∀ K ∈ Obj.keys record, K = "srcUrl".toList ∨ toLowerCase envWidgetLink K = K) :=
  C11_lowercase_keys envWidgetLink (toLowerCase_idem_of_id envWidgetLink (fun _ => rfl))

/-! ## C12: a `tags` value that is not a sequence -/

/-- C12 (amended): when the front matter's `tags` is not a sequence, a truthy
value (a non-empty string, a number other than 0, `true`, a mapping) makes
extractMarkdownData throw a TypeError, `tags.filter` not being a function;
only a falsy value (the empty string, 0, `false`, null) is skipped by
`if (frontMatter.tags)` and reaches the record unchanged (no other
front-matter key and no section lower-casing to `tags`). -/
theorem C12_non_array_tags (E : Env) (markdown : Str) (r : FrontMatterResult) (v : Value)
    (hfm : extractYAMLFrontMatter E markdown = .ok r)
    (htags : Obj.get "tags".toList r.attributes = some v)
    (hnot : ∀ xs, v ≠ .seq xs) :
    (v.truthy = true → extractMarkdownData E markdown = .error .typeError) ∧
    (v.truthy = false → (Obj.keys r.attributes).Nodup →
      (∀ K ∈ Obj.keys r.attributes, toLowerCase E K = "tags".toList → K = "tags".toList) →
      (∀ m ∈ sectionMatches r.body, toLowerCase E (sectionKey E m.1) ≠ "tags".toList) →
      ∃ record, extractMarkdownData E markdown = .ok record ∧
        Obj.get "tags".toList record = some v) := by
  constructor
  · intro ht
    have hf : filterFrontMatterTags r.attributes = .error .typeError := by
      unfold filterFrontMatterTags
      rw [htags]
      cases v with
      | str s => simp only [ht, if_true]
      | seq xs => exact absurd rfl (hnot xs)
      | other b j => simp only [ht, if_true]
    unfold extractMarkdownData
    rw [hfm]
    simp only [hf]
  · intro hf hnd honly hnosec
    have hfilter : filterFrontMatterTags r.attributes = .ok r.attributes := by
      unfold filterFrontMatterTags
      rw [htags]
      simp only [hf, Bool.false_eq_true, if_false]
    refine ⟨_, extractMarkdownData_eq E markdown r _ hfm hfilter, ?_⟩
    exact get_frontMatter_field E r.attributes r.body "tags".toList v htags hnd (by decide)
      (by decide) rfl honly hnosec

/-- C12 (counterexample): with the front matter `tags: a`, a single non-empty
string, extractMarkdownData throws a TypeError. -/
theorem C12_counterexample :
    extractMarkdownData envStringTags docStringTags = .error .typeError :=
  rfl

/-- C12 (witness): the empty string as `tags` reaches the record unchanged. -/
theorem C12_non_array_tags_witness :
    ∃ record, extractMarkdownData envEmptyTags docEmptyTags = .ok record ∧
      Obj.get "tags".toList record = some (.str []) :=
  (C12_non_array_tags envEmptyTags docEmptyTags ⟨[("tags".toList, .str [])], "# T\n".toList⟩
    (.str []) rfl rfl (fun xs h => by cases h)).2 rfl (by decide) (by decide) (by decide)

/-! ## C13: the payload -/

theorem nodup_keys_finishRecord (filePath relativePath : Str) (data : Obj) :
    (Obj.keys (finishRecord filePath relativePath data)).Nodup := by
  unfold finishRecord Obj.spread
  apply Obj.nodup_keys_foldl_define
  apply Obj.nodup_keys_define
  apply Obj.nodup_keys_define
  exact List.nodup_nil

theorem Obj.get_spread_nil (k : Str) (o : Obj) (hnd : (Obj.keys o).Nodup) :
    Obj.get k (Obj.spread [] o) = Obj.get k o := by
  rw [Obj.get_spread, ← Obj.lastWith_key_eq_get k o hnd]
  cases lastWith (fun kv : Str × Value => decide (kv.1 = k)) o <;> rfl

/-- C13 (amended): for every record of processFile, the body of the request
is `{ uid, title, summary, catalog, properties }` with `uid` the record's
slug, `title` its title, `catalog` the fixed label, `properties` holding every
field of the record with its value, and `summary` the record's `what_it_is`
when the record has it with a truthy value (a non-empty text); when
`what_it_is` is missing or empty, `summary` is the record's markdown. -/
theorem C13_payload (E : Env) (file : Str) (pattern : Obj)
    (h : processFile E file = .ok pattern) :
    (requestOf E pattern).body.uid = Obj.get "slug".toList pattern ∧
    (requestOf E pattern).body.title = Obj.get "title".toList pattern ∧
    (requestOf E pattern).body.catalog = "CNCF Cloud Native Glossary".toList ∧
    (∀ k, Obj.get k (requestOf E pattern).body.properties = Obj.get k pattern) ∧
    (∀ v, Obj.get "what_it_is".toList pattern = some v → v.truthy = true →
      (requestOf E pattern).body.summary = some v) ∧
    (∀ v, Obj.get "what_it_is".toList pattern = some v → v.truthy = false →
      (requestOf E pattern).body.summary = Obj.get "markdown".toList pattern) ∧
    (Obj.get "what_it_is".toList pattern = none →
      (requestOf E pattern).body.summary = Obj.get "markdown".toList pattern) := by
  obtain ⟨raw, markdown, data, -, -, -, hrec⟩ := processFile_ok_imp E file pattern h
  have hnd : (Obj.keys pattern).Nodup := hrec ▸ nodup_keys_finishRecord _ _ data
  refine ⟨rfl, rfl, rfl, fun k => Obj.get_spread_nil k pattern hnd, ?_, ?_, ?_⟩
  · intro v hv ht
    show summaryOf pattern = some v
    unfold summaryOf
    rw [hv]
    simp only [ht, if_true]
  · intro v hv ht
    show summaryOf pattern = _
    unfold summaryOf
    rw [hv]
    simp only [ht, Bool.false_eq_true, if_false]
  · intro hv
    show summaryOf pattern = _
    unfold summaryOf
    rw [hv]

/-- C13 (counterexample): the record of a document whose section
`What It Is` is empty has `what_it_is = ""`, yet the summary of its payload is
the markdown body. -/
theorem C13_counterexample :
    (processFile envEmptySection widgetFile).toOption.map
        (fun p => (Obj.get "what_it_is".toList p, (payloadOf p).summary)) =
      some (some (.str []), some (.str docEmptySection)) := by
  decide

/-- C13 (witness): the payload of the specification's example; its summary
is the section `what_it_is`. -/
theorem C13_payload_witness :
    ∃ pattern, processFile envExampleFile widgetFile = .ok pattern ∧
      (requestOf envExampleFile pattern).body.uid = some (.str "widget".toList) ∧
      (requestOf envExampleFile pattern).body.title = some (.str "Title".toList) ∧
      (requestOf envExampleFile pattern).body.summary = some (.str "Foo.".toList) ∧
      ∀ k, Obj.get k (requestOf envExampleFile pattern).body.properties =
        Obj.get k pattern := by
  obtain ⟨pattern, hp⟩ : ∃ pattern, processFile envExampleFile widgetFile = .ok pattern :=
    ⟨_, rfl⟩
  have hget : Obj.get "what_it_is".toList pattern = some (.str "Foo.".toList) := by
    have := Except.ok.inj hp
    rw [← this]
    rfl
  have hslug : Obj.get "slug".toList pattern = some (.str "widget".toList) := by
    have := Except.ok.inj hp
    rw [← this]
    rfl
  have htitle : Obj.get "title".toList pattern = some (.str "Title".toList) := by
    have := Except.ok.inj hp
    rw [← this]
    rfl
  obtain ⟨h1, h2, -, h4, h5, -, -⟩ := C13_payload envExampleFile widgetFile pattern hp
  exact ⟨pattern, hp, h1.trans hslug, h2.trans htitle, h5 _ hget rfl, h4⟩

/-! ## C14, C15 and C16: the publish loop and the top level -/

theorem publishFrom_cons (E : Env) (n : Nat) (pattern : Obj) (patterns : List Obj) :
    publishFrom E n (pattern :: patterns) =
      match E.fetch n (requestOf E pattern) with
      | .error e => ([.post (requestOf E pattern)], .error e)
      | .ok status =>
        (.post (requestOf E pattern) :: .posted (Obj.get "slug".toList pattern) status ::
          (publishFrom E (n + 1) patterns).1, (publishFrom E (n + 1) patterns).2) := rfl

/-- The loop over records whose requests are all answered. -/
theorem publishFrom_answered (E : Env) (status : Nat → Request → Nat) :
    ∀ (patterns : List Obj) (n : Nat),
      (∀ i req, n ≤ i → i < n + patterns.length → E.fetch i req = .ok (status i req)) →
      publishFrom E n patterns =
        ((patterns.enumFrom n).flatMap (publishedEvents E status), .ok ()) := by
  intro patterns
  induction patterns with
  | nil => intro n _; rfl
  | cons p ps ih =>
    intro n h
    rw [publishFrom_cons, h n _ (le_refl _) (by simp)]
    simp only []
    rw [ih (n + 1) (fun i req h1 h2 => h i req (by omega) (by simp only [List.length_cons]; omega))]
    rfl

/-- The loop over records of which one request fails at transport level. -/
theorem publishFrom_failed (E : Env) (status : Nat → Request → Nat) (p : Obj)
    (after : List Obj) (e : JSError) :
    ∀ (before : List Obj) (n : Nat),
      (∀ i req, n ≤ i → i < n + before.length → E.fetch i req = .ok (status i req)) →
      E.fetch (n + before.length) (requestOf E p) = .error e →
      publishFrom E n (before ++ p :: after) =
        ((before.enumFrom n).flatMap (publishedEvents E status) ++ [.post (requestOf E p)],
          .error e) := by
  intro before
  induction before with
  | nil =>
    intro n _ hfail
    rw [List.nil_append, publishFrom_cons]
    simp only [List.length_nil, Nat.add_zero] at hfail
    rw [hfail]
    rfl
  | cons b bs ih =>
    intro n h hfail
    rw [List.cons_append, publishFrom_cons, h n _ (le_refl _) (by simp)]
    simp only []
    have hfail' : E.fetch (n + 1 + bs.length) (requestOf E p) = .error e := by
      have e1 : n + 1 + bs.length = n + (b :: bs).length := by
        simp only [List.length_cons]; omega
      rw [e1]; exact hfail
    rw [ih (n + 1) (fun i req h1 h2 => h i req (by omega)
      (by simp only [List.length_cons]; omega)) hfail']
    rfl

/-- C14: when every request is answered with a status, whatever it is,
publish issues exactly one POST per record, in the order of the sequence, each
followed by the console line of its status before the next POST, and
completes: a status such as 500 stops nothing. -/
theorem C14_publish_continues (E : Env) (patterns : List Obj)
    (status : Nat → Request → Nat)
    (hfetch : ∀ n req, E.fetch n req = .ok (status n req)) :
    publish E patterns =
      ((patterns.enumFrom 0).flatMap (publishedEvents E status), .ok ()) :=
  publishFrom_answered E status patterns 0 (fun i req _ _ => hfetch i req)

/-- C14 (witness): the first request is answered with 500, the second one is
still sent. -/
theorem C14_publish_continues_witness :
    publish envStatus500 [recordA, recordB] =
      ([.post (requestOf envStatus500 recordA), .posted (some (.str "a".toList)) 500,
        .post (requestOf envStatus500 recordB), .posted (some (.str "b".toList)) 200],
        .ok ()) :=
  C14_publish_continues envStatus500 [recordA, recordB]
    (fun n _ => if n = 0 then 500 else 200) (fun _ _ => rfl)

/-- C15: when the request of a record fails at transport level, those of the
records before it having been answered, publish has sent one POST for each
record before it and the failed one, sends none for the records after it,
and rejects with the failure; main rejects with it too, and the handler of
the top level receives it. -/
theorem C15_publish_aborts (E : Env) (before after : List Obj) (p : Obj) (e : JSError)
    (status : Nat → Request → Nat)
    (hok : ∀ i req, i < before.length → E.fetch i req = .ok (status i req))
    (hfail : E.fetch before.length (requestOf E p) = .error e) :
    publish E (before ++ p :: after) =
      ((before.enumFrom 0).flatMap (publishedEvents E status) ++ [.post (requestOf E p)],
        .error e) ∧
    (∀ evs, extract E = (evs, .ok (before ++ p :: after)) →
      main E = (evs ++ ((before.enumFrom 0).flatMap (publishedEvents E status) ++
        [.post (requestOf E p)]), .error e) ∧
      topLevel E = (evs ++ ((before.enumFrom 0).flatMap (publishedEvents E status) ++
        [.post (requestOf E p)]) ++ [.caught e], .ok ())) := by
  have hp : publish E (before ++ p :: after) =
      ((before.enumFrom 0).flatMap (publishedEvents E status) ++ [.post (requestOf E p)],
        .error e) := by
    unfold publish
    exact publishFrom_failed E status p after e before 0
      (fun i req _ h2 => hok i req (by omega)) (by rw [Nat.zero_add]; exact hfail)
  refine ⟨hp, ?_⟩
  intro evs hex
  have hmain : main E = (evs ++ ((before.enumFrom 0).flatMap (publishedEvents E status) ++
      [.post (requestOf E p)]), .error e) := by
    unfold main
    rw [hex]
    simp only [hp]
  refine ⟨hmain, ?_⟩
  unfold topLevel
  rw [hmain]
  rfl

/-- C15 (witness): the second of three requests fails; the third record is
not sent. -/
theorem C15_publish_aborts_witness :
    publish envTransportFailure [recordA, recordB, recordC] =
      ([.post (requestOf envTransportFailure recordA), .posted (some (.str "a".toList)) 200,
        .post (requestOf envTransportFailure recordB)],
        .error (.library "ECONNREFUSED".toList)) :=
  (C15_publish_aborts envTransportFailure [recordA] [recordC] recordB
    (.library "ECONNREFUSED".toList) (fun _ _ => 200)
    (fun i _ hi => by
      have : i = 0 := by simpa using hi
      subst this
      rfl) rfl).1

/-- C16 (amended): the chain `main().then(…).catch(…)` always ends fulfilled,
so the process exits with code 0 whether or not extract or publish failed: a
failure is printed by the `catch` handler, and `Done.` is printed exactly when
both phases complete. -/
theorem C16_exit_code (E : Env) :
    exitCode (topLevel E).2 = 0 ∧
    (∀ evs, main E = (evs, .ok ()) → topLevel E = (evs ++ [.done], .ok ())) ∧
    (∀ evs e, main E = (evs, .error e) → topLevel E = (evs ++ [.caught e], .ok ())) := by
  refine ⟨?_, ?_, ?_⟩
  · unfold topLevel
    rcases hm : main E with ⟨evs, r⟩
    cases r <;> rfl
  · intro evs h
    unfold topLevel
    rw [h]
    rfl
  · intro evs e h
    unfold topLevel
    rw [h]
    rfl

/-- C16 (counterexample): file discovery fails, main rejects, and the
process still exits with code 0, the failure having been printed. -/
theorem C16_counterexample :
    main envGlobFails = ([], .error (.library "EACCES".toList)) ∧
    topLevel envGlobFails = ([.caught (.library "EACCES".toList)], .ok ()) ∧
    exitCode (topLevel envGlobFails).2 = 0 :=
  ⟨rfl, rfl, rfl⟩

/-- C16 (witness): a run in which both phases complete prints `Done.` and
exits with code 0. -/
theorem C16_exit_code_witness :
    exitCode (topLevel sampleEnv).2 = 0 ∧
      topLevel sampleEnv = ([.write outputFile [], .done], .ok ()) :=
  ⟨(C16_exit_code sampleEnv).1, (C16_exit_code sampleEnv).2.1 _ rfl⟩

/-! ## C17 and C18: titles and absolute targets -/

/-- C17 (amended): the rewriting reads the text from left to right.  Where
the text that remains begins with a link `](target)` or `](target "title")`
(target without space or `)`, title without `"`), it writes
`](resolved "title")`, the title identical, when the title is not empty, and
`](resolved)` when there is no title or the title is empty, and goes on after
the link; elsewhere it copies one character.  So every link at which the
reading arrives is output in that way, whatever stands before it. -/
theorem C17_titles (E : Env) (base : Str) :
    (∀ text out : Str, rewriteLinks E base text = .ok out ↔
      LinksRewritten (fun relativeUrl => E.newURL relativeUrl base) [] text out) ∧
    (∀ (pre outPre target post abs rest : Str) (title : Option Str),
      LinksRewritten (fun relativeUrl => E.newURL relativeUrl base)
        (linkText target title ++ post) pre outPre →
      IsLinkTarget target → IsLinkTitle title →
      E.newURL target base = .ok abs →
      rewriteLinks E base post = .ok rest →
      rewriteLinks E base (pre ++ (linkText target title ++ post)) =
        .ok (outPre ++ (linkText abs (keptTitle title) ++ rest))) ∧
    (∀ (abs : Str) (c : Char) (t : Str),
      linkText abs (keptTitle (some (c :: t))) =
          "](".toList ++ abs ++ " \"".toList ++ (c :: t) ++ "\")".toList ∧
        linkText abs (keptTitle (some [])) = "](".toList ++ abs ++ ")".toList ∧
        linkText abs (keptTitle none) = "](".toList ++ abs ++ ")".toList) := by
  refine ⟨fun text out => rewriteLinksAux_eq_ok_iff _ text out, ?_, ?_⟩
  · intro pre outPre target post abs rest title hpre ht hti hurl hrest
    unfold rewriteLinks at hrest ⊢
    apply rewriteLinksAux_append _ _ _ _ pre outPre hpre
    rw [rewriteLinksAux_eq_ok_iff] at hrest ⊢
    exact .link target title abs post rest ht hti hurl hrest
  · intro abs c t
    refine ⟨?_, ?_, ?_⟩ <;> simp [linkText, keptTitle, titleText]

/-- C17 (counterexample): the link `[z](b "")` is output as
`[z](https://glossary.cncf.io/content/en/b)`: the empty title is not kept.
And in `[x](a](b)` the text `](b)` has the form of a link, yet it is not
output as `](resolved b)`: it lies inside the link that begins at the first
`](`, whose target is `a](b`. -/
theorem C17_counterexample :
    rewriteLinks sampleEnv widgetBase "[z](b \"\")".toList =
      .ok "[z](https://glossary.cncf.io/content/en/b)".toList ∧
    rewriteLinks envBracketTarget widgetBase "[x](a](b)".toList =
      .ok "[x](https://glossary.cncf.io/content/en/a](b)".toList :=
  ⟨rfl, rfl⟩

/-- C17 (witness): after `[a]( `, where `](` starts no link, the link of the
specification's example keeps its title `t`. -/
theorem C17_titles_witness :
    rewriteLinks sampleEnv widgetBase "[a]( [x](./foo.md \"t\")".toList =
      .ok "[a]( [x](https://glossary.cncf.io/content/en/foo.md \"t\")".toList :=
  (C17_titles sampleEnv widgetBase).2.1 "[a]( [x".toList "[a]( [x".toList "./foo.md".toList []
    "https://glossary.cncf.io/content/en/foo.md".toList [] (some "t".toList)
    (linksRewritten_of_startsNoLink _ _ _ (by decide))
    ⟨by decide, by decide⟩ (fun t ht => by cases ht; decide) rfl rfl

theorem splitSlash_ne_nil (s : Str) : splitSlash s ≠ [] := by
  induction s with
  | nil => simp [splitSlash]
  | cons c t ih =>
    unfold splitSlash
    cases h : splitSlash t with
    | nil => simp
    | cons seg segs =>
      simp only []
      split <;> simp

theorem splitSlash_of_not_mem (s : Str) (h : '/' ∉ s) : splitSlash s = [s] := by
  induction s with
  | nil => rfl
  | cons c t ih =>
    have hc : c ≠ '/' := fun e => h (e ▸ List.mem_cons_self _ _)
    have ht := ih (fun m => h (List.mem_cons_of_mem _ m))
    unfold splitSlash
    rw [ht]
    simp only [if_neg hc]

theorem splitSlash_cons (c : Char) (t : Str) :
    splitSlash (c :: t) =
      match splitSlash t with
      | [] => [[c]]
      | seg :: segs => if c = '/' then [] :: seg :: segs else (c :: seg) :: segs := rfl

theorem splitSlash_append_slash (a b : Str) (h : '/' ∉ a) :
    splitSlash (a ++ '/' :: b) = a :: splitSlash b := by
  induction a with
  | nil =>
    rw [List.nil_append, splitSlash_cons]
    cases hb : splitSlash b with
    | nil => exact absurd hb (splitSlash_ne_nil b)
    | cons seg segs => simp
  | cons c t ih =>
    have hc : c ≠ '/' := fun e => h (e ▸ List.mem_cons_self _ _)
    have ht := ih (fun m => h (List.mem_cons_of_mem _ m))
    rw [List.cons_append, splitSlash_cons, ht]
    simp only [if_neg hc]

theorem splitSlash_joinSlash (seg : Str) (segs : List Str)
    (h : ∀ s ∈ seg :: segs, '/' ∉ s) : splitSlash (joinSlash (seg :: segs)) = seg :: segs := by
  induction segs generalizing seg with
  | nil => exact splitSlash_of_not_mem seg (h seg (List.mem_cons_self _ _))
  | cons s2 segs ih =>
    show splitSlash (seg ++ '/' :: joinSlash (s2 :: segs)) = _
    rw [splitSlash_append_slash _ _ (h seg (List.mem_cons_self _ _)),
      ih s2 (fun s hs => h s (List.mem_cons_of_mem _ hs))]

theorem mem_splitOnChar (sep : Char) (s : Str) :
    ∀ c ∈ s, c = sep ∨ ∃ l ∈ splitOnChar sep s, c ∈ l := by
  induction s with
  | nil => intro c hc; cases hc
  | cons d t ih =>
    intro c hc
    unfold splitOnChar
    cases hs : splitOnChar sep t with
    | nil =>
      rcases List.mem_cons.1 hc with e | m
      · exact Or.inr ⟨[d], by simp, by simp [e]⟩
      · rcases ih c m with e | ⟨l, hl, _⟩
        · exact Or.inl e
        · rw [hs] at hl; cases hl
    | cons l ls =>
      simp only []
      by_cases hd : d = sep
      · rw [if_pos hd]
        rcases List.mem_cons.1 hc with e | m
        · exact Or.inl (e.trans hd)
        · rcases ih c m with e | ⟨l', hl', hcl⟩
          · exact Or.inl e
          · rw [hs] at hl'
            exact Or.inr ⟨l', List.mem_cons_of_mem _ hl', hcl⟩
      · rw [if_neg hd]
        rcases List.mem_cons.1 hc with e | m
        · exact Or.inr ⟨d :: l, List.mem_cons_self _ _, by simp [e]⟩
        · rcases ih c m with e | ⟨l', hl', hcl⟩
          · exact Or.inl e
          · rw [hs] at hl'
            rcases List.mem_cons.1 hl' with e | m'
            · exact Or.inr ⟨d :: l, List.mem_cons_self _ _, by rw [← e]; exact List.mem_cons_of_mem _ hcl⟩
            · exact Or.inr ⟨l', List.mem_cons_of_mem _ m', hcl⟩

/-- No plain character of a URL is a space, a `)` or a `/`. -/
theorem isPlainUrlChar_ne (c : Char) (h : isPlainUrlChar c = true) :
    c ≠ ' ' ∧ c ≠ ')' ∧ c ≠ '/' := by
  refine ⟨?_, ?_, ?_⟩ <;> intro e <;> subst e <;> exact absurd h (by decide)

theorem isPlainHost_char (host : Str) (h : isPlainHost host = true) :
    ∀ c ∈ host, c ≠ ' ' ∧ c ≠ ')' ∧ c ≠ '/' := by
  intro c hc
  unfold isPlainHost at h
  simp only [Bool.and_eq_true, List.all_eq_true] at h
  rcases mem_splitOnChar '.' host c hc with e | ⟨l, hl, hcl⟩
  · subst e; decide
  · have := (h.1 l hl).2 c hcl
    refine ⟨?_, ?_, ?_⟩ <;> intro e <;> subst e <;> exact absurd this (by decide)

theorem isPlainSegment_char (seg : Str) (h : isPlainSegment seg = true) :
    ∀ c ∈ seg, c ≠ ' ' ∧ c ≠ ')' ∧ c ≠ '/' := by
  intro c hc
  unfold isPlainSegment at h
  simp only [Bool.and_eq_true, List.all_eq_true] at h
  exact isPlainUrlChar_ne c (h.1.1.2 c hc)

theorem mem_joinSlash (segs : List Str) :
    ∀ c ∈ joinSlash segs, c = '/' ∨ ∃ seg ∈ segs, c ∈ seg := by
  induction segs with
  | nil => intro c hc; cases hc
  | cons seg more ih =>
    intro c hc
    cases more with
    | nil => exact Or.inr ⟨seg, List.mem_cons_self _ _, hc⟩
    | cons s2 more =>
      have hc' : c ∈ seg ++ '/' :: joinSlash (s2 :: more) := hc
      rcases List.mem_append.1 hc' with m | m
      · exact Or.inr ⟨seg, List.mem_cons_self _ _, m⟩
      · rcases List.mem_cons.1 m with e | m
        · exact Or.inl e
        · rcases ih c m with e | ⟨s, hs, hcs⟩
          · exact Or.inl e
          · exact Or.inr ⟨s, List.mem_cons_of_mem _ hs, hcs⟩

/-- The reference model on its absolute URLs. -/
theorem referenceAbsoluteURL_httpsUrl (host : Str) (segs : List Str)
    (hhost : isPlainHost host = true) (hsegs : segs.all isPlainSegment = true) :
    referenceAbsoluteURL (httpsUrl host segs) = .ok (serialisedHttpsUrl host segs) := by
  have hh : '/' ∉ host := fun m => (isPlainHost_char host hhost '/' m).2.2 rfl
  unfold referenceAbsoluteURL httpsUrl
  rw [stripPrefix?_append]
  simp only []
  cases segs with
  | nil =>
    simp only [List.append_nil]
    rw [splitSlash_of_not_mem host hh]
    simp only [hhost, if_true]
    simp [serialisedHttpsUrl, httpsUrl]
  | cons seg more =>
    simp only []
    have hs : ∀ s ∈ seg :: more, '/' ∉ s := by
      intro s hs m
      exact (isPlainSegment_char s (List.all_eq_true.1 hsegs s hs) '/' m).2.2 rfl
    rw [splitSlash_append_slash _ _ hh, splitSlash_joinSlash seg more hs]
    simp only [hhost, hsegs, Bool.and_self, if_true]
    rfl

theorem isLinkTarget_httpsUrl (host : Str) (segs : List Str)
    (hhost : isPlainHost host = true) (hsegs : segs.all isPlainSegment = true) :
    IsLinkTarget (httpsUrl host segs) := by
  refine ⟨by simp [httpsUrl], ?_⟩
  intro c hc
  unfold httpsUrl at hc
  rcases List.mem_append.1 hc with m | m
  · have : c = 'h' ∨ c = 't' ∨ c = 'p' ∨ c = 's' ∨ c = ':' ∨ c = '/' := by
      simp at m; tauto
    rcases this with e | e | e | e | e | e <;> subst e <;> decide
  · rcases List.mem_append.1 m with m | m
    · exact ⟨(isPlainHost_char host hhost c m).1, (isPlainHost_char host hhost c m).2.1⟩
    · cases segs with
      | nil => cases m
      | cons seg more =>
        rcases List.mem_cons.1 m with e | m
        · subst e; decide
        · rcases mem_joinSlash _ c m with e | ⟨s, hs, hcs⟩
          · subst e; decide
          · have := isPlainSegment_char s (List.all_eq_true.1 hsegs s hs) c hcs
            exact ⟨this.1, this.2.1⟩

/-- C18 (amended): a link whose target is the absolute URL `https://host` or
`https://host/seg/…/seg` (plain host and segments), which `new URL` serialises
without its base, is output with that serialisation as its target, whatever
the base and whatever stands before the link: the target unchanged when it has
a path, with `/` appended when it has none.  The link text is unchanged
exactly when the target has a path and the title, if any, is not empty. -/
theorem C18_absolute_targets (E : Env) (base pre outPre host post rest : Str)
    (segs : List Str) (title : Option Str)
    (hhost : isPlainHost host = true) (hsegs : segs.all isPlainSegment = true)
    (htitle : IsLinkTitle title)
    (hplat : E.newURL (httpsUrl host segs) base = referenceAbsoluteURL (httpsUrl host segs))
    (hpre : LinksRewritten (fun relativeUrl => E.newURL relativeUrl base)
      (linkText (httpsUrl host segs) title ++ post) pre outPre)
    (hrest : rewriteLinks E base post = .ok rest) :
    rewriteLinks E base (pre ++ (linkText (httpsUrl host segs) title ++ post)) =
        .ok (outPre ++ (linkText (serialisedHttpsUrl host segs) (keptTitle title) ++ rest)) ∧
      (serialisedHttpsUrl host segs = httpsUrl host segs ↔ segs ≠ []) ∧
      (linkText (serialisedHttpsUrl host segs) (keptTitle title) =
          linkText (httpsUrl host segs) title ↔ segs ≠ [] ∧ title ≠ some []) := by
  have hser : serialisedHttpsUrl host segs = httpsUrl host segs ↔ segs ≠ [] := by
    cases segs with
    | nil =>
      constructor
      · intro h
        have := congrArg List.length h
        simp [serialisedHttpsUrl] at this
      · intro h; exact absurd rfl h
    | cons seg more =>
      constructor
      · intro _; simp
      · intro _; rfl
  refine ⟨?_, hser, ?_⟩
  · unfold rewriteLinks at hrest ⊢
    apply rewriteLinksAux_append _ _ _ _ pre outPre hpre
    rw [rewriteLinksAux_eq_ok_iff] at hrest ⊢
    refine .link (httpsUrl host segs) title _ post rest
      (isLinkTarget_httpsUrl host segs hhost hsegs) htitle ?_ hrest
    show E.newURL (httpsUrl host segs) base = _
    rw [hplat, referenceAbsoluteURL_httpsUrl host segs hhost hsegs]
  · cases segs with
    | nil =>
      constructor
      · intro h
        have := congrArg List.length h
        exfalso
        rcases title with _ | (_ | ⟨c, t⟩) <;>
          simp [serialisedHttpsUrl, linkText, keptTitle, titleText] at this
      · intro h; exact absurd rfl h.1
    | cons seg more =>
      have e : serialisedHttpsUrl host (seg :: more) = httpsUrl host (seg :: more) := rfl
      rw [e]
      rcases title with _ | (_ | ⟨c, t⟩)
      · simp [keptTitle]
      · simp [keptTitle, linkText, titleText]
      · simp [keptTitle]

/-- C18 (counterexample): the absolute target `https://example.com` is
rewritten to `https://example.com/`. -/
theorem C18_counterexample :
    rewriteLinks envAbsolute widgetBase "[x](https://example.com)".toList =
      .ok "[x](https://example.com/)".toList :=
  rfl

/-- C18 (witness): the link `[x](https://example.com/y)` is unchanged, also
after `[a]( `, where `](` starts no link. -/
theorem C18_absolute_targets_witness :
    rewriteLinks envAbsolute widgetBase "[a]( [x](https://example.com/y)".toList =
        .ok "[a]( [x](https://example.com/y)".toList ∧
      (serialisedHttpsUrl "example.com".toList ["y".toList] =
        httpsUrl "example.com".toList ["y".toList] ↔ ["y".toList] ≠ []) ∧
      (linkText (serialisedHttpsUrl "example.com".toList ["y".toList]) (keptTitle none) =
          linkText (httpsUrl "example.com".toList ["y".toList]) none ↔
        ["y".toList] ≠ [] ∧ (none : Option Str) ≠ some []) :=
  C18_absolute_targets envAbsolute widgetBase "[a]( [x".toList "[a]( [x".toList
    "example.com".toList [] [] ["y".toList] none (by decide) (by decide)
    (fun t ht => by cases ht) rfl (linksRewritten_of_startsNoLink _ _ _ (by decide)) rfl

/-! ## C19: no `##` in a section body -/

theorem containsSub_nil (p : Str) : containsSub p [] = (stripPrefix? p []).isSome := rfl

theorem containsSub_imp_split (p : Str) : ∀ s : Str, containsSub p s = true →
    ∃ a b, s = a ++ (p ++ b) := by
  intro s
  induction s with
  | nil =>
    intro h
    rw [containsSub_nil] at h
    obtain ⟨u, hu⟩ := Option.isSome_iff_exists.1 h
    exact ⟨[], u, stripPrefix?_eq_some p [] u hu⟩
  | cons c t ih =>
    intro h
    rw [containsSub_cons, Bool.or_eq_true] at h
    rcases h with h | h
    · obtain ⟨u, hu⟩ := Option.isSome_iff_exists.1 h
      exact ⟨[], u, stripPrefix?_eq_some p _ u hu⟩
    · obtain ⟨a, b, hab⟩ := ih h
      exact ⟨c :: a, b, by rw [hab]; rfl⟩

theorem containsSub_of_split (p : Str) (b : Str) : ∀ a : Str, containsSub p (a ++ (p ++ b)) = true := by
  intro a
  induction a with
  | nil =>
    rw [List.nil_append]
    cases hpb : p ++ b with
    | nil =>
      rw [containsSub_nil]
      have hp : p = [] := (List.append_eq_nil.1 hpb).1
      rw [hp]
      rfl
    | cons c t =>
      rw [containsSub_cons, ← hpb, stripPrefix?_append]
      rfl
  | cons c a ih =>
    rw [List.cons_append, containsSub_cons, ih, Bool.or_true]

theorem trim_split (s : Str) : ∃ x y, s = x ++ (trim s ++ y) := by
  unfold trim dropRightWhile
  refine ⟨s.takeWhile isWhiteSpace,
    ((s.dropWhile isWhiteSpace).reverse.takeWhile isWhiteSpace).reverse, ?_⟩
  rw [← List.reverse_append, List.takeWhile_append_dropWhile, List.reverse_reverse,
    List.takeWhile_append_dropWhile]

/-- A text that has no `##` keeps none when trimmed. -/
theorem containsSub_trim (p s : Str) (h : containsSub p s = false) :
    containsSub p (trim s) = false := by
  rw [Bool.eq_false_iff] at h ⊢
  intro ht
  apply h
  obtain ⟨a, b, hab⟩ := containsSub_imp_split p _ ht
  obtain ⟨x, y, hxy⟩ := trim_split s
  rw [hxy, hab]
  have e : x ++ (a ++ (p ++ b) ++ y) = (x ++ a) ++ (p ++ (b ++ y)) := by
    simp
  rw [e]
  exact containsSub_of_split p _ _

theorem bodyUntilHashes_head (c : Char) (t : Str) :
    bodyUntilHashes (c :: t) = [] ∨ ∃ b, bodyUntilHashes (c :: t) = c :: b := by
  rw [bodyUntilHashes_cons]
  split
  · exact Or.inl rfl
  · exact Or.inr ⟨_, rfl⟩

/-- Group 2 of a section match holds no `##`. -/
theorem containsSub_bodyUntilHashes : ∀ u : Str,
    containsSub ['#', '#'] (bodyUntilHashes u) = false := by
  intro u
  induction u with
  | nil => rfl
  | cons c t ih =>
    rw [bodyUntilHashes_cons]
    by_cases hs : (stripPrefix? ['#', '#'] (c :: t)).isSome = true
    · rw [if_pos hs]; rfl
    · rw [if_neg hs, containsSub_cons, ih, Bool.or_false]
      have hnone : stripPrefix? ['#', '#'] (c :: t) = none := by
        cases h : stripPrefix? ['#', '#'] (c :: t) with
        | none => rfl
        | some u => rw [h] at hs; exact absurd rfl hs
      have h1 : (if '#' = c then stripPrefix? ['#'] t else none) = none := hnone
      show (if '#' = c then stripPrefix? ['#'] (bodyUntilHashes t) else none).isSome = false
      by_cases hc : '#' = c
      · rw [if_pos hc] at h1
        rw [if_pos hc]
        cases t with
        | nil => rfl
        | cons d t' =>
          have h2 : (if '#' = d then stripPrefix? [] t' else none) = none := h1
          have hd : ¬ '#' = d := by
            intro e
            rw [if_pos e] at h2
            cases t' <;> cases h2
          rcases bodyUntilHashes_head d t' with e | ⟨b, e⟩
          · rw [e]; rfl
          · rw [e]
            show (if '#' = d then stripPrefix? [] b else none).isSome = false
            rw [if_neg hd]
            rfl
      · rw [if_neg hc]; rfl

theorem bodyUntilHashes_spec : ∀ u : Str, ∃ r, u = bodyUntilHashes u ++ r ∧
    (r = [] ∨ (stripPrefix? ['#', '#'] r).isSome = true) := by
  intro u
  induction u with
  | nil => exact ⟨[], rfl, Or.inl rfl⟩
  | cons c t ih =>
    rw [bodyUntilHashes_cons]
    by_cases hs : (stripPrefix? ['#', '#'] (c :: t)).isSome = true
    · rw [if_pos hs]
      exact ⟨c :: t, rfl, Or.inr hs⟩
    · rw [if_neg hs]
      obtain ⟨r, hr, hr'⟩ := ih
      exact ⟨r, by rw [List.cons_append, ← hr], hr'⟩

theorem drop_takeWhile_length (p : Char → Bool) (t : Str) :
    t = t.takeWhile p ++ t.drop (t.takeWhile p).length := by
  rw [drop_takeWhile_eq_dropWhile, List.takeWhile_append_dropWhile]

/-- What a match of the section regex is made of. -/
theorem sectionAt_eq_some (s g1 g2 : Str) (len : Nat) (h : sectionAt s = some (g1, g2, len)) :
    ∃ w u, s = '#' :: '#' :: w :: (g1 ++ '\n' :: u) ∧ g2 = bodyUntilHashes u ∧
      len = 3 + g1.length + 1 + g2.length := by
  obtain ⟨w, t, hs⟩ := sectionAt_eq_some_imp s _ h
  rw [hs, sectionAt_hash] at h
  by_cases hw : isWhiteSpace w = true
  · rw [if_pos hw] at h
    have hsplit := drop_takeWhile_length (fun c => c != '\n') t
    cases hd : t.drop (t.takeWhile (fun c => c != '\n')).length with
    | nil => rw [hd] at h; cases h
    | cons d u =>
      rw [hd] at h hsplit
      by_cases hdn : d = '\n'
      · subst hdn
        simp only [Option.some.injEq, Prod.mk.injEq] at h
        obtain ⟨h1, h2, h3⟩ := h
        refine ⟨w, u, ?_, h2.symm, ?_⟩
        · rw [hs, ← h1, ← hsplit]
        · rw [← h3, ← h1, ← h2]
      · exfalso
        have : (match d :: u with
          | '\n' :: u => some (t.takeWhile (fun c => c != '\n'), bodyUntilHashes u,
              3 + (t.takeWhile (fun c => c != '\n')).length + 1 + (bodyUntilHashes u).length)
          | _ => none) = none := by
          split
          · rename_i heq
            exact absurd (List.cons.inj heq).1 hdn
          · rfl
        rw [this] at h
        cases h
  · rw [if_neg hw] at h; cases h

/-- Every match of the scan lies in the text, its body followed by `##` or by
the end of the text, and holds no `##`. -/
theorem sectionsAux_body : ∀ (s : Str) (k : Nat) (ls : Bool), ∀ m ∈ sectionsAux k ls s,
    (∃ a r, s = a ++ (m.2 ++ r) ∧ (r = [] ∨ (stripPrefix? ['#', '#'] r).isSome = true)) ∧
      containsSub ['#', '#'] m.2 = false := by
  intro s
  induction s with
  | nil => intro k ls m hm; cases k <;> cases hm
  | cons c t ih =>
    intro k ls m hm
    have lift : ((∃ a r, t = a ++ (m.2 ++ r) ∧
        (r = [] ∨ (stripPrefix? ['#', '#'] r).isSome = true)) ∧
        containsSub ['#', '#'] m.2 = false) →
        (∃ a r, c :: t = a ++ (m.2 ++ r) ∧
        (r = [] ∨ (stripPrefix? ['#', '#'] r).isSome = true)) ∧
        containsSub ['#', '#'] m.2 = false := by
      rintro ⟨⟨a, r, h1, h2⟩, h3⟩
      exact ⟨⟨c :: a, r, by rw [h1]; rfl, h2⟩, h3⟩
    cases k with
    | succ k =>
      rw [sectionsAux_succ_cons] at hm
      exact lift (ih k _ m hm)
    | zero =>
      rw [sectionsAux_zero_cons] at hm
      cases hs : (if ls = true then sectionAt (c :: t) else none) with
      | none =>
        rw [hs] at hm
        exact lift (ih 0 _ m hm)
      | some res =>
        obtain ⟨g1, g2, len⟩ := res
        rw [hs] at hm
        simp only [] at hm
        rcases List.mem_cons.1 hm with e | hm'
        · have hsec : sectionAt (c :: t) = some (g1, g2, len) := by
            by_cases hls : ls = true
            · rw [if_pos hls] at hs; exact hs
            · rw [if_neg hls] at hs; cases hs
          obtain ⟨w, u, hshape, hg2, -⟩ := sectionAt_eq_some _ _ _ _ hsec
          obtain ⟨r, hr, hr'⟩ := bodyUntilHashes_spec u
          rw [e]
          refine ⟨⟨'#' :: '#' :: w :: (g1 ++ ['\n']), r, ?_, hr'⟩, ?_⟩
          · rw [hshape]
            show _ = '#' :: '#' :: w :: (g1 ++ ['\n']) ++ (g2 ++ r)
            rw [hg2, ← hr]
            simp
          · show containsSub ['#', '#'] g2 = false
            rw [hg2]
            exact containsSub_bodyUntilHashes u
        · exact lift (ih (len - 1) _ m hm')

theorem Obj.get_set_imp (k k' : Str) (v v' : Value) (o : Obj)
    (h : Obj.get k (Obj.set k' v' o) = some v) : Obj.get k o = some v ∨ v = v' := by
  unfold Obj.set at h
  split at h
  · exact Or.inl h
  · rw [Obj.get_define] at h
    by_cases hk : k = k'
    · rw [if_pos hk] at h
      exact Or.inr (Option.some.inj h).symm
    · rw [if_neg hk] at h
      exact Or.inl h

theorem get_addSections_imp (E : Env) (k : Str) (v : Value) :
    ∀ (ms : List (Str × Str)) (data : Obj), Obj.get k (addSections E data ms) = some v →
      Obj.get k data = some v ∨ ∃ m ∈ ms, v = .str (trim m.2) := by
  intro ms
  induction ms with
  | nil => intro data h; exact Or.inl h
  | cons m ms ih =>
    intro data h
    have h' : Obj.get k (addSections E
        (Obj.set (sectionKey E m.1) (.str (trim m.2)) data) ms) = some v := h
    rcases ih _ h' with h1 | ⟨m', hm', hv⟩
    · rcases Obj.get_set_imp _ _ _ _ _ h1 with h2 | h2
      · exact Or.inl h2
      · exact Or.inr ⟨m, List.mem_cons_self _ _, h2⟩
    · exact Or.inr ⟨m', List.mem_cons_of_mem _ hm', hv⟩

theorem stripPrefix_hashes_iff (r : Str) :
    (stripPrefix? ['#', '#'] r).isSome = true ↔ ∃ y, r = '#' :: '#' :: y := by
  constructor
  · intro h
    obtain ⟨u, hu⟩ := Option.isSome_iff_exists.1 h
    exact ⟨u, stripPrefix?_eq_some _ _ _ hu⟩
  · rintro ⟨y, e⟩
    rw [e]
    exact stripPrefix_hashes y

/-- Group 2 is the shortest text followed by `##` or by the end. -/
theorem isSectionBody_bodyUntilHashes : ∀ u : Str, ∃ r, u = bodyUntilHashes u ++ r ∧
    IsSectionBody (bodyUntilHashes u) r := by
  intro u
  induction u with
  | nil => exact ⟨[], rfl, Or.inl rfl, fun a b hab hb => by
      have : b = [] := (List.append_eq_nil.1 hab.symm).2
      exact absurd this hb⟩
  | cons c t ih =>
    rw [bodyUntilHashes_cons]
    by_cases hs : (stripPrefix? ['#', '#'] (c :: t)).isSome = true
    · rw [if_pos hs]
      refine ⟨c :: t, rfl, Or.inr ((stripPrefix_hashes_iff _).1 hs), ?_⟩
      intro a b hab hb
      have : b = [] := (List.append_eq_nil.1 hab.symm).2
      exact absurd this hb
    · rw [if_neg hs]
      obtain ⟨r, hr, hr1, hr2⟩ := ih
      refine ⟨r, by rw [List.cons_append, ← hr], hr1, ?_⟩
      intro a b hab hb
      cases a with
      | nil =>
        rw [List.nil_append] at hab
        rw [← hab, List.cons_append, ← hr]
        exact fun h => hs ((stripPrefix_hashes_iff _).2 h)
      | cons d a =>
        rw [List.cons_append] at hab
        exact hr2 a b (List.cons.inj hab).2 hb

theorem bodyUntilHashes_of_isSectionBody (g rest : Str) (h : IsSectionBody g rest) :
    bodyUntilHashes (g ++ rest) = g := by
  apply bodyUntilHashes_eq
  · rcases h.1 with e | e
    · exact Or.inl e
    · exact Or.inr ((stripPrefix_hashes_iff _).2 e)
  · intro a b hab hb
    have := h.2 a b hab hb
    cases hs : stripPrefix? ['#', '#'] (b ++ rest) with
    | none => rfl
    | some u =>
      exact absurd ((stripPrefix_hashes_iff _).1 (by rw [hs]; rfl)) this

/-- Where `sectionAt` matches, the text begins with the section it returns. -/
theorem sectionAt_eq_some_full (s g1 g2 : Str) (len : Nat)
    (h : sectionAt s = some (g1, g2, len)) :
    ∃ w rest, isWhiteSpace w = true ∧ '\n' ∉ g1 ∧ IsSectionBody g2 rest ∧
      s = '#' :: '#' :: w :: (g1 ++ '\n' :: (g2 ++ rest)) ∧
      len = 3 + g1.length + 1 + g2.length := by
  obtain ⟨w, u, hshape, hg2, hlen⟩ := sectionAt_eq_some s g1 g2 len h
  obtain ⟨r, hr, hbody⟩ := isSectionBody_bodyUntilHashes u
  rw [hshape, sectionAt_hash] at h
  have hw : isWhiteSpace w = true := by
    by_cases hw : isWhiteSpace w = true
    · exact hw
    · rw [if_neg hw] at h; cases h
  rw [if_pos hw] at h
  have hg1 : '\n' ∉ g1 := by
    intro hm
    obtain ⟨a, b, hab, ha⟩ := exists_split_at_first '\n' g1 hm
    have htw : (g1 ++ '\n' :: u).takeWhile (fun c => c != '\n') = a := by
      rw [hab, List.append_assoc]
      exact takeWhile_ne_of_not_mem '\n' a _ ha
    rw [htw] at h
    have hdrop : (g1 ++ '\n' :: u).drop a.length = '\n' :: (b ++ '\n' :: u) := by
      rw [hab, List.append_assoc, List.drop_left]
      rfl
    rw [hdrop] at h
    simp only [Option.some.injEq, Prod.mk.injEq] at h
    have := congrArg List.length h.1
    rw [hab] at this
    simp at this
  refine ⟨w, r, hw, hg1, ?_, ?_, hlen⟩
  · rw [hg2]; exact hbody
  · rw [hshape, hg2, ← hr]

theorem sectionAt_none_iff (s : Str) : sectionAt s = none ↔ ¬ StartsWithSection s := by
  constructor
  · rintro h ⟨w, heading, u, hw, hh, e⟩
    rw [e, sectionAt_heading w heading u hw hh] at h
    cases h
  · intro h
    cases hs : sectionAt s with
    | none => rfl
    | some r =>
      obtain ⟨g1, g2, len⟩ := r
      obtain ⟨w, rest, hw, hg1, -, e, -⟩ := sectionAt_eq_some_full s g1 g2 len hs
      exact absurd ⟨w, g1, g2 ++ rest, hw, hg1, e⟩ h

theorem lineStartAfter_append_cons (ls : Bool) (a : Str) (c : Char) (b : Str) :
    lineStartAfter ls (a ++ c :: b) = lineStartAfter (isLineTerminator c) b := by
  induction a generalizing ls with
  | nil => rfl
  | cons d a ih => exact ih _

/-- Passing over the rest of a match. -/
theorem sectionsAux_skip (s : Str) : ∀ (p : Str) (ls : Bool),
    sectionsAux p.length ls (p ++ s) = sectionsAux 0 (lineStartAfter ls p) s := by
  intro p
  induction p with
  | nil => intro ls; rfl
  | cons c p ih =>
    intro ls
    show sectionsAux (p.length + 1) ls (c :: (p ++ s)) = _
    rw [sectionsAux_succ_cons, ih]
    rfl

theorem sectionsAux_found (w : Char) (heading g rest : Str) (hw : isWhiteSpace w = true)
    (hh : '\n' ∉ heading) (hg : IsSectionBody g rest) :
    sectionsAux 0 true ('#' :: '#' :: w :: (heading ++ '\n' :: (g ++ rest))) =
      (heading, g) :: sectionsAux 0 (lineStartAfter true g) rest := by
  rw [sectionsAux_zero_cons, if_pos rfl, sectionAt_heading w heading _ hw hh,
    bodyUntilHashes_of_isSectionBody g rest hg]
  simp only []
  have e : '#' :: w :: (heading ++ '\n' :: (g ++ rest)) =
      ('#' :: w :: (heading ++ '\n' :: g)) ++ rest := by simp
  have hl : 3 + heading.length + 1 + g.length - 1 =
      ('#' :: w :: (heading ++ '\n' :: g)).length := by
    simp only [List.length_cons, List.length_append]
    omega
  rw [hl, e, sectionsAux_skip]
  have : lineStartAfter (isLineTerminator '#') ('#' :: w :: (heading ++ '\n' :: g)) =
      lineStartAfter true g := by
    have e2 : '#' :: w :: (heading ++ '\n' :: g) = ('#' :: w :: heading) ++ '\n' :: g := by simp
    rw [e2, lineStartAfter_append_cons]
    rfl
  rw [this]

theorem sectionsAux_of_sectionsScanned (ls : Bool) (s : Str) (ms : List (Str × Str))
    (h : SectionsScanned ls s ms) : ms = sectionsAux 0 ls s := by
  induction h with
  | done ls => rfl
  | pass ls c t ms hno _ ih =>
    rw [sectionsAux_zero_cons]
    have : (if ls = true then sectionAt (c :: t) else none) = none := by
      by_cases hls : ls = true
      · rw [if_pos hls]
        exact (sectionAt_none_iff _).2 (fun hs => hno ⟨hls, hs⟩)
      · rw [if_neg hls]
    rw [this]
    exact ih
  | found w heading g rest ms hw hh hg _ ih =>
    rw [sectionsAux_found w heading g rest hw hh hg, ih]

theorem sectionsScanned_sectionsAux : ∀ (n : Nat) (s : Str) (ls : Bool), s.length ≤ n →
    SectionsScanned ls s (sectionsAux 0 ls s) := by
  intro n
  induction n with
  | zero =>
    intro s ls hn
    cases s with
    | nil => exact .done ls
    | cons c t => simp at hn
  | succ n ih =>
    intro s ls hn
    cases s with
    | nil => exact .done ls
    | cons c t =>
      have ht : t.length ≤ n := by simp at hn; omega
      cases hs : (if ls = true then sectionAt (c :: t) else none) with
      | none =>
        have e : sectionsAux 0 ls (c :: t) = sectionsAux 0 (isLineTerminator c) t := by
          rw [sectionsAux_zero_cons, hs]
        rw [e]
        refine .pass ls c t _ ?_ (ih t _ ht)
        rintro ⟨hls, hsw⟩
        rw [if_pos hls] at hs
        exact (sectionAt_none_iff _).1 hs hsw
      | some r =>
        obtain ⟨g1, g2, len⟩ := r
        have hls : ls = true := by
          by_cases hls : ls = true
          · exact hls
          · rw [if_neg hls] at hs; cases hs
        rw [if_pos hls] at hs
        obtain ⟨w, rest, hw, hg1, hbody, e, -⟩ := sectionAt_eq_some_full _ g1 g2 len hs
        rw [hls, e, sectionsAux_found w g1 g2 rest hw hg1 hbody]
        refine .found w g1 g2 rest _ hw hg1 hbody (ih rest _ ?_)
        have := congrArg List.length e
        simp at this
        simp at hn
        omega

/-- C19: the section scan proceeds as repeated matches that do not overlap:
reading the body from left to right, where the text that remains begins, at a
line start, with `##`, a whitespace character, a heading and a line feed, the
scan takes the section, its body being the shortest text followed by `##` or
by the end of the document, and goes on right after that body; elsewhere it
passes over one character.  So every captured body is a piece of the document
that ends where the next `##` begins or where the document ends, and holds no
`##`; neither does its trimmed form, and every value that the scan stores in
`data` is such a trimmed body. -/
theorem C19_no_heading_in_section (E : Env) (body : Str) :
    (∀ ms, SectionsScanned true body ms ↔ ms = sectionMatches body) ∧
    (∀ m ∈ sectionMatches body,
      (∃ a r, body = a ++ (m.2 ++ r) ∧ (r = [] ∨ (stripPrefix? ['#', '#'] r).isSome = true)) ∧
      containsSub "##".toList m.2 = false ∧ containsSub "##".toList (trim m.2) = false) ∧
    (∀ data k v, Obj.get k (addSections E data (sectionMatches body)) = some v →
      Obj.get k data = some v ∨ ∃ s, v = .str s ∧ containsSub "##".toList s = false) := by
  have h1 : ∀ m ∈ sectionMatches body,
      (∃ a r, body = a ++ (m.2 ++ r) ∧ (r = [] ∨ (stripPrefix? ['#', '#'] r).isSome = true)) ∧
      containsSub "##".toList m.2 = false ∧ containsSub "##".toList (trim m.2) = false := by
    intro m hm
    obtain ⟨hsplit, hno⟩ := sectionsAux_body body 0 true m hm
    exact ⟨hsplit, hno, containsSub_trim _ _ hno⟩
  refine ⟨?_, h1, ?_⟩
  · intro ms
    constructor
    · exact sectionsAux_of_sectionsScanned true body ms
    · intro e
      rw [e]
      exact sectionsScanned_sectionsAux body.length body true (Nat.le_refl _)
  · intro data k v h
    rcases get_addSections_imp E k v _ data h with h2 | ⟨m, hm, hv⟩
    · exact Or.inl h2
    · exact Or.inr ⟨trim m.2, hv, (h1 m hm).2.2⟩

/-- C19 (witness): in `## A`, `foo`, `### B`, `bar` the body of the section
stops before the `##` of the third-level heading; and in `##`, `## c`, `x` the
only section is the one that begins with the bare `##`, the heading line
`## c` inside it starting no section of its own. -/
theorem C19_no_heading_in_section_witness :
    (("A".toList, "foo\n".toList) ∈ sectionMatches docThirdLevel ∧
      containsSub "##".toList "foo\n".toList = false ∧
      containsSub "##".toList (trim "foo\n".toList) = false) ∧
    SectionsScanned true docBareHashes [("## c".toList, "x".toList)] :=
  ⟨⟨by decide, ((C19_no_heading_in_section sampleEnv docThirdLevel).2.1
    ("A".toList, "foo\n".toList) (by decide)).2⟩,
    ((C19_no_heading_in_section sampleEnv docBareHashes).1 _).2 rfl⟩

/-! ## C20: the markdown field -/

theorem takeWhile_all_append (p : Char → Bool) (ws rest : Str)
    (hws : ∀ x ∈ ws, p x = true)
    (hrest : rest = [] ∨ ∃ d t, rest = d :: t ∧ p d = false) :
    (ws ++ rest).takeWhile p = ws := by
  induction ws with
  | nil =>
    rcases hrest with e | ⟨d, t, e, hd⟩
    · rw [e]; rfl
    · rw [e, List.nil_append, List.takeWhile_cons, hd]; rfl
  | cons c ws ih =>
    rw [List.cons_append, List.takeWhile_cons, hws c (List.mem_cons_self _ _)]
    simp only [if_true, List.cons.injEq, true_and]
    exact ih (fun x hx => hws x (List.mem_cons_of_mem _ hx))

theorem dropWhile_all_append (p : Char → Bool) (l : Str) (c : Char) (m : Str)
    (hl : ∀ x ∈ l, p x = true) (hc : p c = false) :
    (l ++ c :: m).dropWhile p = c :: m := by
  induction l with
  | nil => rw [List.nil_append, List.dropWhile_cons, hc]; rfl
  | cons d l ih =>
    rw [List.cons_append, List.dropWhile_cons, hl d (List.mem_cons_self _ _)]
    simp only [if_true]
    exact ih (fun x hx => hl x (List.mem_cons_of_mem _ hx))

theorem dropWhile_all (p : Char → Bool) (l : Str) (hl : ∀ x ∈ l, p x = true) :
    l.dropWhile p = [] := by
  induction l with
  | nil => rfl
  | cons d l ih =>
    rw [List.dropWhile_cons, hl d (List.mem_cons_self _ _)]
    simp only [if_true]
    exact ih (fun x hx => hl x (List.mem_cons_of_mem _ hx))

theorem isWhiteSpace_of_crlf (c : Char) (h : c = '\r' ∨ c = '\n') : isWhiteSpace c = true := by
  rcases h with e | e <;> rw [e] <;> decide

/-- The text left by removeFirstLine when the leading whitespace holds a line
break: what follows the last one. -/
theorem removeFirstLine_of_break (a : Str) (c : Char) (b rest : Str)
    (hc : c = '\r' ∨ c = '\n') (ha : ∀ x ∈ a, isWhiteSpace x = true)
    (hb : ∀ x ∈ b, isWhiteSpace x = true ∧ x ≠ '\r' ∧ x ≠ '\n')
    (hrest : rest = [] ∨ ∃ d t, rest = d :: t ∧ isWhiteSpace d = false) :
    removeFirstLine (a ++ c :: (b ++ rest)) = b ++ rest := by
  unfold removeFirstLine
  have e : a ++ c :: (b ++ rest) = (a ++ c :: b) ++ rest := by simp
  have hws : ∀ x ∈ a ++ c :: b, isWhiteSpace x = true := by
    intro x hx
    rcases List.mem_append.1 hx with h | h
    · exact ha x h
    · rcases List.mem_cons.1 h with h | h
      · rw [h]; exact isWhiteSpace_of_crlf c hc
      · exact (hb x h).1
  have htw : (a ++ c :: (b ++ rest)).takeWhile isWhiteSpace = a ++ c :: b := by
    rw [e]
    exact takeWhile_all_append isWhiteSpace _ rest hws hrest
  simp only [htw]
  have hrev : (a ++ c :: b).reverse = b.reverse ++ c :: a.reverse := by simp
  have hdw : (b.reverse ++ c :: a.reverse).dropWhile (fun c => !(c == '\r' || c == '\n')) =
      c :: a.reverse := by
    apply dropWhile_all_append
    · intro x hx
      have := hb x (List.mem_reverse.1 hx)
      simp [this.2.1, this.2.2]
    · rcases hc with h | h <;> rw [h] <;> rfl
  rw [hrev, hdw]
  have hlen : (c :: a.reverse).length = (a ++ [c]).length := by simp
  have e2 : a ++ c :: (b ++ rest) = (a ++ [c]) ++ (b ++ rest) := by simp
  rw [hlen, e2, List.drop_left]

/-- The text is left unchanged when its leading whitespace holds no line
break. -/
theorem removeFirstLine_of_no_break (ws rest : Str)
    (hws : ∀ x ∈ ws, isWhiteSpace x = true ∧ x ≠ '\r' ∧ x ≠ '\n')
    (hrest : rest = [] ∨ ∃ d t, rest = d :: t ∧ isWhiteSpace d = false) :
    removeFirstLine (ws ++ rest) = ws ++ rest := by
  unfold removeFirstLine
  have htw : (ws ++ rest).takeWhile isWhiteSpace = ws :=
    takeWhile_all_append isWhiteSpace ws rest (fun x hx => (hws x hx).1) hrest
  simp only [htw]
  have hdw : ws.reverse.dropWhile (fun c => !(c == '\r' || c == '\n')) = [] := by
    apply dropWhile_all
    intro x hx
    have := hws x (List.mem_reverse.1 hx)
    simp [this.2.1, this.2.2]
  rw [hdw]
  rfl

/-- The record's markdown, when no front-matter key lower-cases to `markdown`
and no section has the key `markdown`. -/
theorem get_markdown (E : Env) (frontMatter : Obj) (body : Str)
    (honlyFm : ∀ K ∈ Obj.keys frontMatter, toLowerCase E K ≠ "markdown".toList)
    (hnosec : ∀ m ∈ sectionMatches body,
      toLowerCase E (sectionKey E m.1) ≠ "markdown".toList) :
    Obj.get "markdown".toList (lowerCaseProps E (dataOf E frontMatter body)) =
      some (.str (removeFirstLine body)) := by
  rw [get_lowerCaseProps_of_only E _ (by decide) rfl _ (nodup_keys_dataOf E frontMatter body)]
  · unfold dataOf
    rw [get_addSections E _ (by decide), lastWith_eq_none, Option.elim_none, get_initialData,
      if_pos rfl]
    intro m hm
    have : ¬ sectionKey E m.1 = "markdown".toList := by
      intro e
      exact hnosec m hm (by rw [e]; rfl)
    simpa using this
  · intro K hK hKk
    rcases mem_keys_dataOf E K frontMatter body hK with h | h | h | ⟨m, hm, hmK⟩
    · rw [h, toLowerCase_title] at hKk; exact absurd hKk (by decide)
    · exact h
    · exact absurd hKk (honlyFm K h)
    · rw [← hmK] at hKk
      exact absurd hKk (hnosec m hm)

/-- C20 (amended): for a document with no front-matter block and no section
of key `markdown`, the record's `markdown` is the document body without its
leading blank lines: when the whitespace that starts the body holds a line
break, everything up to and including the last such line break is removed
(every leading blank line, not only one); when it holds none, in particular
when the first line is not blank, the body is returned unchanged. -/
theorem C20_markdown (E : Env) (markdown : Str)
    (hfm : extractYAMLFrontMatter E markdown = .ok { attributes := [], body := markdown })
    (hnosec : ∀ m ∈ sectionMatches markdown,
      toLowerCase E (sectionKey E m.1) ≠ "markdown".toList) :
    ∃ record md, extractMarkdownData E markdown = .ok record ∧
      Obj.get "markdown".toList record = some (.str md) ∧
      (∀ a c b rest, markdown = a ++ c :: (b ++ rest) → (c = '\r' ∨ c = '\n') →
        (∀ x ∈ a, isWhiteSpace x = true) →
        (∀ x ∈ b, isWhiteSpace x = true ∧ x ≠ '\r' ∧ x ≠ '\n') →
        (rest = [] ∨ ∃ d t, rest = d :: t ∧ isWhiteSpace d = false) →
        md = b ++ rest) ∧
      (∀ ws rest, markdown = ws ++ rest →
        (∀ x ∈ ws, isWhiteSpace x = true ∧ x ≠ '\r' ∧ x ≠ '\n') →
        (rest = [] ∨ ∃ d t, rest = d :: t ∧ isWhiteSpace d = false) →
        md = markdown) := by
  refine ⟨_, removeFirstLine markdown,
    extractMarkdownData_eq E markdown _ [] hfm rfl,
    get_markdown E [] markdown (fun K hK => by simp [Obj.keys] at hK) hnosec, ?_, ?_⟩
  · intro a c b rest hm hc ha hb hrest
    rw [hm]
    exact removeFirstLine_of_break a c b rest hc ha hb hrest
  · intro ws rest hm hws hrest
    rw [hm]
    exact removeFirstLine_of_no_break ws rest hws hrest

/-- C20 (counterexample): the body that starts with two blank lines loses
both, not one. -/
theorem C20_counterexample :
    extractMarkdownData sampleEnv docTwoBlankLines =
      .ok [("title".toList, .str "T".toList), ("markdown".toList, .str "# T\n".toList)] ∧
    specRemoveFirstLine docTwoBlankLines = "\n# T\n".toList :=
  ⟨rfl, by decide⟩

/-- C20 (witness): the body that starts with one blank line loses it. -/
theorem C20_markdown_witness :
    ∃ record, extractMarkdownData sampleEnv docOneBlankLine = .ok record ∧
      Obj.get "markdown".toList record = some (.str "# T\n".toList) := by
  obtain ⟨record, md, h1, h2, h3, -⟩ :=
    C20_markdown sampleEnv docOneBlankLine rfl (by decide)
  have hmd : md = "# T\n".toList :=
    h3 [] '\n' [] "# T\n".toList rfl (Or.inr rfl) (by simp) (by simp)
      (Or.inr ⟨'#', _, rfl, by decide⟩)
  exact ⟨record, h1, hmd ▸ h2⟩

end ExtractAndPublish
